import Mathlib

/-!
# The Huffman codec of `fool/huffman_encoder/huffman_encoder.cpp`

A shallow embedding of `zfish::HuffmanEncoder`: the symbol table `points_`, the tree built
by `buildHuffmanTree` with a `std::priority_queue`, the codes assigned by `initCodePoint`,
the bit packing of `compress` and the decoding of `findNode` and `uncompress`.

The header `huffman_encoder.h` is not among the sources. What it declares is taken as
follows: `kCodeNum = 256` slots, `Byte` an unsigned 8-bit value, `CodeType` and the
frequency and size counters unsigned 64-bit values, a tree node with the four fields
`weight`, `point`, `left`, `right`, and a comparator that orders nodes by greater weight.
The priority queue is a parameter of the model; `stdPriorityQueue` is the binary heap of
libstdc++. The constants of the container layout (`kZipName` and the field widths) are the
fields of `ZipLayout`, a parameter of `run` and of the header functions.
-/

namespace zfish

/-! ## The data model -/

/-- Modelled from the spec: the Symbol Table has "256 fixed slots, one per possible byte
value"; `kCodeNum` is declared in the header, which is not among the sources. -/
def kCodeNum : Nat := 256

/-- The type `Byte` (an unsigned char): a value below 256. -/
abbrev Byte := Fin 256

/-- Modelled from the spec: `CodeType` and the counters are unsigned 64-bit integers
("frequency: unsigned 64-bit count"; `new_code` is printed with `%lu`), so arithmetic on
them wraps modulo `2^64`. -/
def kCodeTypeMod : Nat := 2 ^ 64

/-- One slot of the symbol table `points_` (a `HuffmanCodePoint`). -/
structure HuffmanCodePoint where
  old_code : Byte
  frequency : Nat
  new_code : Nat
  new_code_str : String
  length : Nat
deriving DecidableEq, Repr

/-- The symbol table `points_`: a `std::array<HuffmanCodePoint, kCodeNum>`. -/
abbrev Points := Mathlib.Vector HuffmanCodePoint 256

/-- A `HuffmanTreeNode*`: the null pointer, or a node with its weight, its `point` (a pointer
into `points_`, here the index of the slot, `none` for a null pointer) and its two
children. -/
inductive HuffmanTreeNode where
  | nullptr : HuffmanTreeNode
  | mk (weight : Nat) (point : Option Byte) (left right : HuffmanTreeNode) : HuffmanTreeNode
deriving DecidableEq, Repr, Inhabited

namespace HuffmanTreeNode

/-- The field `node->weight` (0 stands for the read through a null pointer). -/
def weight : HuffmanTreeNode → Nat
  | nullptr => 0
  | mk w _ _ _ => w

/-- The field `node->point`. -/
def point : HuffmanTreeNode → Option Byte
  | nullptr => none
  | mk _ p _ _ => p

/-- The field `node->left`. -/
def left : HuffmanTreeNode → HuffmanTreeNode
  | nullptr => nullptr
  | mk _ _ l _ => l

/-- The field `node->right`. -/
def right : HuffmanTreeNode → HuffmanTreeNode
  | nullptr => nullptr
  | mk _ _ _ r => r

/-- The test `node == nullptr`. -/
def isNull : HuffmanTreeNode → Bool
  | nullptr => true
  | mk _ _ _ _ => false

end HuffmanTreeNode

/-! ## The priority queue -/

/-- Modelled from the spec: the comparator `CmparatorOfHuffmanTreeNode` is declared in the
header, which is not among the sources; the Tree Builder must "repeatedly extract the two
nodes of smallest weight", so the queue orders a node below another when its weight is
greater. -/
def CmparatorOfHuffmanTreeNode (lhs rhs : HuffmanTreeNode) : Bool :=
  decide (lhs.weight > rhs.weight)

/-- The interface of `std::priority_queue<HuffmanTreeNode*, std::vector<HuffmanTreeNode*>,
CmparatorOfHuffmanTreeNode>` that `buildHuffmanTree` uses. `c` is the underlying container;
`top` is `none` where `top()` would read an empty container. -/
structure PriorityQueue where
  Q : Type
  init : Q
  push : Q → HuffmanTreeNode → Q
  top : Q → Option HuffmanTreeNode
  pop : Q → Q
  empty : Q → Bool
  c : Q → List HuffmanTreeNode

/-- What the C++ standard promises of a priority queue, whatever order it keeps elements of
equal priority in: on the states reachable from the empty queue (`I`), `push` adds the node
to the container, `empty` tests the container, and on a non-empty container `top` is a node
that the comparator puts below no other, which `pop` removes. -/
structure PriorityQueue.Lawful (pq : PriorityQueue) : Prop where
  spec : ∃ I : pq.Q → Prop,
    (I pq.init ∧ pq.c pq.init = []) ∧
    (∀ q x, I q → I (pq.push q x) ∧ (pq.c (pq.push q x)).Perm (x :: pq.c q)) ∧
    (∀ q, I q → (pq.empty q = true ↔ pq.c q = [])) ∧
    (∀ q, I q → pq.c q ≠ [] → ∃ x, pq.top q = some x ∧
      (∀ y ∈ pq.c q, CmparatorOfHuffmanTreeNode x y = false) ∧
      I (pq.pop q) ∧ (pq.c q).Perm (x :: pq.c (pq.pop q)))

/-- The loop of `std::__push_heap` (libstdc++): the hole moves up while the parent is below
`value` in the comparator's order; `value` is stored in the final hole. The first argument
bounds the iterations. -/
def pushHeap (first : List HuffmanTreeNode) (topIndex : Nat) (value : HuffmanTreeNode) :
    Nat → Nat → List HuffmanTreeNode
  | 0, holeIndex => first.set holeIndex value
  | fuel + 1, holeIndex =>
    let parent := (holeIndex - 1) / 2
    if holeIndex > topIndex ∧
        CmparatorOfHuffmanTreeNode (first.getD parent .nullptr) value = true then
      pushHeap (first.set holeIndex (first.getD parent .nullptr)) topIndex value fuel parent
    else first.set holeIndex value

/-- The first loop of `std::__adjust_heap` (libstdc++): the hole moves down to the child
that the comparator does not put below its sibling. Returns the vector and the final hole,
which is also the final `secondChild`. The first argument bounds the iterations. -/
def adjustHeapDown (len : Nat) :
    Nat → List HuffmanTreeNode → Nat → List HuffmanTreeNode × Nat
  | 0, first, holeIndex => (first, holeIndex)
  | fuel + 1, first, holeIndex =>
    if holeIndex < (len - 1) / 2 then
      let secondChild := 2 * (holeIndex + 1)
      let secondChild :=
        if CmparatorOfHuffmanTreeNode (first.getD secondChild .nullptr)
            (first.getD (secondChild - 1) .nullptr) = true then secondChild - 1
        else secondChild
      adjustHeapDown len fuel (first.set holeIndex (first.getD secondChild .nullptr))
        secondChild
    else (first, holeIndex)

/-- The function `std::__adjust_heap` (libstdc++) on the first `len` elements, called with
`holeIndex = 0`: the hole goes down to the bottom, takes the lone left child when `len` is
even, and `value` is pushed up from there. -/
def adjustHeap (first : List HuffmanTreeNode) (len : Nat) (value : HuffmanTreeNode) :
    List HuffmanTreeNode :=
  let down := adjustHeapDown len len first 0
  let last :=
    if len % 2 = 0 ∧ down.2 = (len - 2) / 2 then
      (down.1.set down.2 (down.1.getD (2 * (down.2 + 1) - 1) .nullptr), 2 * (down.2 + 1) - 1)
    else down
  pushHeap last.1 0 value (last.2 + 1) last.2

/-- The call `c.push_back(x); std::push_heap(c.begin(), c.end(), comp)`. -/
def stdPush (c : List HuffmanTreeNode) (x : HuffmanTreeNode) : List HuffmanTreeNode :=
  pushHeap (c ++ [x]) 0 x (c.length + 1) c.length

/-- The call `std::pop_heap(c.begin(), c.end(), comp); c.pop_back()`: with more than one
element the last one is taken out, the first one stored in its place, and the heap
adjusted on the elements before it. -/
def stdPop (c : List HuffmanTreeNode) : List HuffmanTreeNode :=
  if c.length > 1 then
    (adjustHeap (c.set (c.length - 1) (c.getD 0 .nullptr)) (c.length - 1)
      (c.getD (c.length - 1) .nullptr)).dropLast
  else c.dropLast

/-- The priority queue of libstdc++: a binary heap in a vector. -/
def stdPriorityQueue : PriorityQueue where
  Q := List HuffmanTreeNode
  init := []
  push := stdPush
  top := fun c => c.head?
  pop := stdPop
  empty := fun c => c.isEmpty
  c := fun c => c

/-! ## `buildHuffmanTree` -/

/-- Why `buildHuffmanTree` may fail to return a tree: `top()` on an empty queue, or the
bound on the iterations of its loop reached. -/
inductive BuildError where
  | emptyTop
  | outOfFuel
deriving DecidableEq, Repr

/-- The node `new HuffmanTreeNode(node1->weight + node2->weight, nullptr, node1, node2)`. -/
def mergeNode (node1 node2 : HuffmanTreeNode) : HuffmanTreeNode :=
  .mk ((node1.weight + node2.weight) % kCodeTypeMod) none node1 node2

/-- The `while (true)` loop of `buildHuffmanTree`: one merge per iteration. -/
def mergeLoop (pq : PriorityQueue) : Nat → pq.Q → Except BuildError HuffmanTreeNode
  | 0, _ => .error .outOfFuel
  | fuel + 1, q =>
    match pq.top q with
    | none => .error .emptyTop
    | some node1 =>
      match pq.top (pq.pop q) with
      | none => .error .emptyTop
      | some node2 =>
        if pq.empty (pq.pop (pq.pop q)) = true then .ok (mergeNode node1 node2)
        else mergeLoop pq fuel (pq.push (pq.pop (pq.pop q)) (mergeNode node1 node2))

/-- The leaf `new HuffmanTreeNode(points_.at(i).frequency, &points_.at(i))`. -/
def leafNode (points : Points) (i : Byte) : HuffmanTreeNode :=
  .mk (points.get i).frequency (some i) .nullptr .nullptr

/-- The first loop of `buildHuffmanTree`: one leaf per slot of `points_`, pushed in slot
order. -/
def pushLeaves (pq : PriorityQueue) (points : Points) : List Byte → pq.Q → pq.Q
  | [], q => q
  | i :: rest, q => pushLeaves pq points rest (pq.push q (leafNode points i))

/-- The function `HuffmanEncoder::buildHuffmanTree`; `fuel` bounds the iterations of its
`while (true)` loop. -/
def buildHuffmanTree (pq : PriorityQueue) (points : Points) (fuel : Nat) :
    Except BuildError HuffmanTreeNode :=
  mergeLoop pq fuel (pushLeaves pq points (List.finRange 256) pq.init)

/-! ## `initCodePoint` -/

/-- The function `HuffmanEncoder::initCodePoint`: at a leaf the code register, the code
string and the length are stored in the slot `node->point`; otherwise the register is
shifted (a `CodeType`, so modulo `2^64`), the length incremented and both children visited,
left before right. The length is an `int` that is only ever incremented from 0. -/
def initCodePoint : HuffmanTreeNode → Nat → String → Nat → Points → Points
  | .nullptr, _, _, _, points => points
  | .mk _ (some p) _ _, new_code, new_code_str, length, points =>
    points.set p
      { points.get p with new_code := new_code, new_code_str := new_code_str, length := length }
  | .mk _ none left right, new_code, new_code_str, length, points =>
    let points :=
      if left.isNull = true then points
      else initCodePoint left ((new_code <<< 1) % kCodeTypeMod) (new_code_str ++ "0")
        (length + 1) points
    if right.isNull = true then points
    else initCodePoint right (((new_code <<< 1) % kCodeTypeMod + 1) % kCodeTypeMod)
      (new_code_str ++ "1") (length + 1) points

/-! ## The encoder and `statisticalFrequency` -/

/-- The fields of `HuffmanEncoder` that the codec reads and writes. -/
structure HuffmanEncoder where
  root_ : HuffmanTreeNode
  points_ : Points
  input_filesize_ : Nat
  output_filesize_ : Nat

/-- The constructor `HuffmanEncoder::HuffmanEncoder`: slot `i` holds `old_code = i`; the
other members are value-initialised. -/
def HuffmanEncoder.new : HuffmanEncoder where
  root_ := .nullptr
  points_ := Mathlib.Vector.ofFn fun i =>
    { old_code := i, frequency := 0, new_code := 0, new_code_str := "", length := 0 }
  input_filesize_ := 0
  output_filesize_ := 0

/-- The function `HuffmanEncoder::statisticalFrequency` on the bytes of the input file: one
increment of the byte's frequency and of `input_filesize_` per byte read. -/
def statisticalFrequency : List Byte → HuffmanEncoder → HuffmanEncoder
  | [], e => e
  | input_byte :: rest, e =>
    statisticalFrequency rest
      { e with
        points_ := e.points_.set input_byte
          { e.points_.get input_byte with
            frequency := ((e.points_.get input_byte).frequency + 1) % kCodeTypeMod }
        input_filesize_ := (e.input_filesize_ + 1) % kCodeTypeMod }

/-! ## `compress` -/

/-- The variables of the packing loop of `compress`: the byte being filled, the number of
bits in it, the bytes written after the header, and `output_filesize_`. -/
structure PackState where
  output_byte : Nat
  cnt : Nat
  written : List Nat
  output_filesize_ : Nat
deriving DecidableEq, Repr

/-- The loop `while ((length--) != 0)` of `compress`: the argument is the value of `length`
that is tested; in the body `length` is one less. A bit of the code register is shifted into
`output_byte` (a `Byte`, so modulo 256); a full byte is written and the buffer reset. The
shift `new_code >> length` of the 64-bit register is defined in C++ for a count below 64
only, which is every count when the code length is at most 64; for a count of 64 or more the
program as compiled for a 64-bit machine shifts by the count modulo 64, and so does the
model. -/
def packCode (new_code : Nat) : Nat → PackState → PackState
  | 0, st => st
  | length + 1, st =>
    let output_byte :=
      ((st.output_byte <<< 1) % 256 + ((new_code >>> (length % 64)) &&& 1)) % 256
    if st.cnt + 1 = 8 then
      packCode new_code length
        { output_byte := 0, cnt := 0, written := st.written ++ [output_byte],
          output_filesize_ := (st.output_filesize_ + 1) % kCodeTypeMod }
    else
      packCode new_code length { st with output_byte := output_byte, cnt := st.cnt + 1 }

/-- The outer loop of `compress`: the code and the length of each input byte are looked up
in `points_` and packed. -/
def packBytes (points : Points) : List Byte → PackState → PackState
  | [], st => st
  | input_byte :: rest, st =>
    packBytes points rest
      (packCode (points.get input_byte).new_code (points.get input_byte).length st)

/-- The end of `compress`: `if (cnt < 8)` the buffer is shifted left by `8 - cnt` and
written. -/
def packFlush (st : PackState) : PackState :=
  if st.cnt < 8 then
    { st with
      written := st.written ++ [(st.output_byte <<< (8 - st.cnt)) % 256]
      output_filesize_ := (st.output_filesize_ + 1) % kCodeTypeMod }
  else st

/-- The header fields that decide decoding: the original size and the 256 frequencies (the
signature and the file name come before them). -/
structure ZipHeader where
  original_size : Nat
  frequency : Mathlib.Vector Nat 256

/-- A compressed file: its header fields and the packed bytes after the header. -/
structure ZipFile where
  header : ZipHeader
  packed : List Nat

/-- The function `HuffmanEncoder::compress` on the bytes of the input file: the header
fields are written from `input_filesize_` and the frequencies of `points_`, then the packed
codes. Returns the file written and the encoder. -/
def compress (input : List Byte) (e : HuffmanEncoder) : ZipFile × HuffmanEncoder :=
  let st := packFlush (packBytes e.points_ input
    { output_byte := 0, cnt := 0, written := [], output_filesize_ := e.output_filesize_ })
  ({ header := { original_size := e.input_filesize_
                 frequency := e.points_.map fun point => point.frequency }
     packed := st.written },
   { e with output_filesize_ := st.output_filesize_ })

/-! ## `findNode` and `uncompress` -/

/-- Why decoding may fail to finish: a read through a null tree pointer, or the bound on the
iterations of the inner loop reached. -/
inductive DecodeError where
  | nullDeref
  | outOfFuel
deriving DecidableEq, Repr

/-- The function `HuffmanEncoder::findNode`: `node` and `pos` are passed by reference, so
their final values are returned with the result. `none` is the read of `node->point`
through a null pointer. -/
def findNode : HuffmanTreeNode → Nat → Int → Option (Bool × HuffmanTreeNode × Int)
  | .nullptr, _, _ => none
  | .mk w (some p) l r, _, pos => some (true, .mk w (some p) l r, pos)
  | .mk w none l r, input_byte, pos =>
    if pos < 0 then some (false, .mk w none l r, pos)
    else if (input_byte >>> pos.toNat) &&& 1 = 0 then findNode l input_byte (pos - 1)
    else findNode r input_byte (pos - 1)

/-- The variables of the decoding loop of `uncompress`: the tree pointer, the count of
bytes written and the bytes written. -/
structure UnpackState where
  node : HuffmanTreeNode
  cur_output_size : Nat
  written : List Byte

/-- The loop `while (findNode(node, input_byte, pos))` of `uncompress`; the first argument
bounds its iterations. On a leaf the byte `old_code` of its slot is written; the loop is
left when the count equals `output_filesize_`, else the tree pointer goes back to the
root. -/
def unpackByte (root : HuffmanTreeNode) (points : Points) (output_filesize : Nat)
    (input_byte : Nat) : Nat → Int → UnpackState → Except DecodeError UnpackState
  | 0, _, _ => .error .outOfFuel
  | fuel + 1, pos, st =>
    match findNode st.node input_byte pos with
    | none => .error .nullDeref
    | some (false, node, _) => .ok { st with node := node }
    | some (true, node, pos) =>
      match node.point with
      | none => .error .nullDeref
      | some p =>
        if (st.cur_output_size + 1) % kCodeTypeMod = output_filesize then
          .ok { node := node, cur_output_size := (st.cur_output_size + 1) % kCodeTypeMod,
                written := st.written ++ [(points.get p).old_code] }
        else
          unpackByte root points output_filesize input_byte fuel pos
            { node := root, cur_output_size := (st.cur_output_size + 1) % kCodeTypeMod,
              written := st.written ++ [(points.get p).old_code] }

/-- The outer loop of `uncompress`: one packed byte per iteration, `pos` starting at 7. -/
def unpackBytes (root : HuffmanTreeNode) (points : Points) (output_filesize : Nat)
    (fuel : Nat) : List Nat → UnpackState → Except DecodeError UnpackState
  | [], st => .ok st
  | input_byte :: rest, st =>
    match unpackByte root points output_filesize input_byte fuel 7 st with
    | .error err => .error err
    | .ok st => unpackBytes root points output_filesize fuel rest st

/-- The function `HuffmanEncoder::uncompress` on the packed bytes of the compressed file:
the bytes written to the output file. -/
def uncompress (packed : List Nat) (e : HuffmanEncoder) (fuel : Nat) :
    Except DecodeError (List Byte) :=
  match unpackBytes e.root_ e.points_ e.output_filesize_ fuel packed
      { node := e.root_, cur_output_size := 0, written := [] } with
  | .error err => .error err
  | .ok st => .ok st.written

/-! ## The two paths of `run` -/

/-- What a run of the codec may fail with. -/
inductive RunError where
  | build (err : BuildError)
  | decode (err : DecodeError)
deriving DecidableEq, Repr

/-- The encoder after `statisticalFrequency`, `buildHuffmanTree` and
`initCodePoint(root_, 0, std::string(), 0)` on a raw input: the state in which the
compression path of `run` calls `compress`. -/
def encoderFor (pq : PriorityQueue) (fuel : Nat) (input : List Byte) :
    Except RunError HuffmanEncoder :=
  match buildHuffmanTree pq (statisticalFrequency input HuffmanEncoder.new).points_ fuel with
  | .error err => .error (.build err)
  | .ok root =>
    .ok { statisticalFrequency input HuffmanEncoder.new with
          root_ := root
          points_ := initCodePoint root 0 "" 0
            (statisticalFrequency input HuffmanEncoder.new).points_ }

/-- The compression path of `run`: `statisticalFrequency`, `buildHuffmanTree`,
`initCodePoint`, `compress`. -/
def runCompress (pq : PriorityQueue) (fuel : Nat) (input : List Byte) :
    Except RunError ZipFile :=
  match encoderFor pq fuel input with
  | .error err => .error err
  | .ok e => .ok (compress input e).1

/-- The encoder after the header of a compressed file has been read: `output_filesize_` is
the original size and the frequencies of `points_` are those of the header. -/
def readHeader (header : ZipHeader) : HuffmanEncoder :=
  { HuffmanEncoder.new with
    output_filesize_ := header.original_size
    points_ := Mathlib.Vector.ofFn fun i =>
      { HuffmanEncoder.new.points_.get i with frequency := header.frequency.get i } }

/-- The decompression path of `run`: the header is read, then `buildHuffmanTree`,
`initCodePoint(root_, 0, std::string(), 0)` and `uncompress`. -/
def runUncompress (pq : PriorityQueue) (fuel : Nat) (file : ZipFile) :
    Except RunError (List Byte) :=
  match buildHuffmanTree pq (readHeader file.header).points_ fuel with
  | .error err => .error (.build err)
  | .ok root =>
    match uncompress file.packed
        { readHeader file.header with
          root_ := root
          points_ := initCodePoint root 0 "" 0 (readHeader file.header).points_ } fuel with
    | .error err => .error (.decode err)
    | .ok out => .ok out

namespace HuffmanTreeNode

/-- The symbols of the leaves of a tree, from left to right. A node with a `point` is a
leaf, as `initCodePoint` and `findNode` take it. -/
def leaves : HuffmanTreeNode → List Byte
  | nullptr => []
  | mk _ (some p) _ _ => [p]
  | mk _ none l r => leaves l ++ leaves r

/-- The shape `buildHuffmanTree` promises: a leaf has a symbol and no children, an internal
node has no symbol and two children that are trees (so neither is null). -/
def isTree : HuffmanTreeNode → Bool
  | nullptr => false
  | mk _ (some _) l r => l.isNull && r.isNull
  | mk _ none l r => isTree l && isTree r

/-- The number of internal nodes (nodes without a symbol). -/
def internalCount : HuffmanTreeNode → Nat
  | nullptr => 0
  | mk _ (some _) _ _ => 0
  | mk _ none l r => internalCount l + internalCount r + 1

/-- The node reached from a node by a sequence of turns: `false` is a step to the left
child, `true` a step to the right child. -/
def descend : HuffmanTreeNode → List Bool → HuffmanTreeNode
  | t, [] => t
  | t, false :: path => descend t.left path
  | t, true :: path => descend t.right path

end HuffmanTreeNode

/-- The merges the loop of `buildHuffmanTree` can make on a queue holding the nodes `F`,
whatever node the queue returns among those of least weight: `node1` is a node of least
weight, `node2` a node of least weight among the others, and their merge is the result when
nothing else is left, else it joins the others. -/
inductive Merges : List HuffmanTreeNode → HuffmanTreeNode → Prop
  | last {F : List HuffmanTreeNode} {node1 node2 : HuffmanTreeNode} :
      F.Perm [node1, node2] → node1.weight ≤ node2.weight →
      Merges F (mergeNode node1 node2)
  | step {F rest : List HuffmanTreeNode} {node1 node2 root : HuffmanTreeNode} :
      F.Perm (node1 :: node2 :: rest) → rest ≠ [] →
      (∀ y ∈ node2 :: rest, node1.weight ≤ y.weight) →
      (∀ y ∈ rest, node2.weight ≤ y.weight) →
      Merges (mergeNode node1 node2 :: rest) root → Merges F root

/-- The character `initCodePoint` appends for a turn: `'0'` to the left, `'1'` to the
right. -/
def bitChar (turn : Bool) : Char := if turn then '1' else '0'

/-- The string of the turns of a path. -/
def pathString (path : List Bool) : String := String.mk (path.map bitChar)

/-- The code register after the turns of a path, starting from `new_code`: each turn shifts
the register and a right turn adds 1, in `CodeType` arithmetic. -/
def codeAfter (new_code : Nat) (path : List Bool) : Nat :=
  path.foldl (fun code turn => ((code <<< 1) % kCodeTypeMod + turn.toNat) % kCodeTypeMod)
    new_code

/-- The bits `length - 1` down to 0 of a register, the most significant first: the order in
which `compress` packs them. -/
def codeBits (new_code : Nat) : Nat → List Bool
  | 0 => []
  | length + 1 => new_code.testBit length :: codeBits new_code length

/-- The bits that the loop of `compress` reads from a register for a code of a given
length, the first one read first: bit `i` of the code is read at the shift count `i`, taken
modulo 64. For a length of at most 64 they are the bits `codeBits` gives. -/
def registerBits (new_code : Nat) : Nat → List Bool
  | 0 => []
  | length + 1 => new_code.testBit (length % 64) :: registerBits new_code length

/-- The eight bits of a byte, from the most significant one. -/
def byteBits (byte : Nat) : List Bool := codeBits byte 8

/-- The number `T` of code bits of an input: the sum of the code lengths of its bytes. -/
def codeLengthSum (points : Points) (input : List Byte) : Nat :=
  (input.map fun input_byte => (points.get input_byte).length).sum

/-- A binary tree that carries only the weights of its leaves: the shape of a code, apart
from the symbols. -/
inductive WTree where
  | leaf (w : Nat) : WTree
  | node (l r : WTree) : WTree

namespace WTree

/-- The sum of the weights of the leaves. -/
def weight : WTree → Nat
  | leaf w => w
  | node l r => weight l + weight r

/-- The weighted length of the code: the sum over the leaves of weight times depth. One
level more costs every leaf below it its weight once. -/
def cost : WTree → Nat
  | leaf _ => 0
  | node l r => cost l + cost r + weight l + weight r

/-- The weights of the leaves. -/
def leaves : WTree → Multiset Nat
  | leaf w => {w}
  | node l r => leaves l + leaves r

/-- The depth of the deepest leaf. -/
def height : WTree → Nat
  | leaf _ => 0
  | node l r => max (height l) (height r) + 1

end WTree

/-- The frequency of a symbol in the table. -/
def frequencyOf (points : Points) (s : Byte) : Nat := (points.get s).frequency

namespace HuffmanTreeNode

/-- The weighted depth of a tree whose root lies at depth `d`: the sum over its leaves of
the symbol's frequency times the leaf's depth. -/
def weightedDepth (freq : Byte → Nat) : HuffmanTreeNode → Nat → Nat
  | nullptr, _ => 0
  | mk _ (some p) _ _, d => freq p * d
  | mk _ none l r, d => weightedDepth freq l (d + 1) + weightedDepth freq r (d + 1)

/-- The sum of the frequencies of the leaves of a tree. -/
def leafWeight (freq : Byte → Nat) : HuffmanTreeNode → Nat
  | nullptr => 0
  | mk _ (some p) _ _ => freq p
  | mk _ none l r => leafWeight freq l + leafWeight freq r

/-- The shape of a tree with the frequencies of its leaves. -/
def toWTree (freq : Byte → Nat) : HuffmanTreeNode → WTree
  | nullptr => .leaf 0
  | mk _ (some p) _ _ => .leaf (freq p)
  | mk _ none l r => .node (toWTree freq l) (toWTree freq r)

end HuffmanTreeNode

/-- The weighted length of the codes of a table: the sum over all symbols of frequency
times code length. -/
def weightedLength (points : Points) : Nat :=
  ((List.finRange 256).map fun s => (points.get s).frequency * (points.get s).length).sum

/-- The weight of the node at an index of the heap's vector. -/
def weightAt (first : List HuffmanTreeNode) (i : Nat) : Nat :=
  (first.getD i .nullptr).weight

/-- The heap order on the first `len` elements of a vector: no element is lighter than its
parent, the element at index `(i - 1) / 2`. -/
def HeapOn (first : List HuffmanTreeNode) (len : Nat) : Prop :=
  ∀ i, 0 < i → i < len → weightAt first ((i - 1) / 2) ≤ weightAt first i

/-- The heap order around a hole: it holds between the elements other than the hole, and
the children of the hole are not lighter than the hole's parent. -/
def HeapAround (first : List HuffmanTreeNode) (len hole : Nat) : Prop :=
  (∀ i, 0 < i → i < len → i ≠ hole → (i - 1) / 2 ≠ hole →
    weightAt first ((i - 1) / 2) ≤ weightAt first i) ∧
  (∀ i, 0 < i → i < len → (i - 1) / 2 = hole → 0 < hole →
    weightAt first ((hole - 1) / 2) ≤ weightAt first i)

namespace HuffmanTreeNode

/-- The number of left turns from a node down to a leaf. -/
def leftDepth : HuffmanTreeNode → Nat
  | nullptr => 0
  | mk _ (some _) _ _ => 0
  | mk _ none l _ => leftDepth l + 1

/-- The number of left turns from a node down to a leaf, counted up to 9. -/
def spineKey (t : HuffmanTreeNode) : Nat := min t.leftDepth 9

end HuffmanTreeNode

/-- A list of numbers below 16 as one number, four bits per element, the first element in
the lowest bits. -/
def encodeSlots : List Nat → Nat
  | [] => 0
  | x :: xs => x + 16 * encodeSlots xs

/-- The element at an index of an encoded list. -/
def slotGet (h i : Nat) : Nat := (h / 16 ^ i) % 16

/-- The encoded list with the element at an index replaced. -/
def slotSet (h i v : Nat) : Nat := h % 16 ^ i + v * 16 ^ i + h / 16 ^ (i + 1) * 16 ^ (i + 1)

/-- The loop of `adjustHeapDown` on an encoded vector of nodes of equal weight: the hole
moves to the second child. -/
def spineDown (len : Nat) : Nat → Nat → Nat → Nat × Nat
  | 0, h, holeIndex => (h, holeIndex)
  | fuel + 1, h, holeIndex =>
    if holeIndex < (len - 1) / 2 then
      spineDown len fuel (slotSet h holeIndex (slotGet h (2 * (holeIndex + 1))))
        (2 * (holeIndex + 1))
    else (h, holeIndex)

/-- The function `adjustHeap` on an encoded vector of nodes of equal weight. -/
def spineAdjust (h len value : Nat) : Nat :=
  let down := spineDown len len h 0
  let last :=
    if len % 2 = 0 ∧ down.2 = (len - 2) / 2 then
      (slotSet down.1 down.2 (slotGet down.1 (2 * (down.2 + 1) - 1)), 2 * (down.2 + 1) - 1)
    else down
  slotSet last.1 last.2 value

/-- The function `stdPop` on an encoded vector of `len` nodes of equal weight. -/
def spinePop (h len : Nat) : Nat :=
  if len > 1 then
    spineAdjust (slotSet h (len - 1) (slotGet h 0)) (len - 1) (slotGet h (len - 1)) %
      16 ^ (len - 1)
  else 0

/-- The loop of `buildHuffmanTree` on the libstdc++ queue, on an encoded vector of `len`
nodes of weight 0 of which only `spineKey` is kept: the key of a merged node is one more
than that of its left child, up to 9. -/
def spineLoop : Nat → Nat → Nat → Option Nat
  | 0, _, _ => none
  | fuel + 1, h, len =>
    if len < 2 then none
    else if len = 2 then some (min (slotGet h 0 + 1) 9)
    else
      spineLoop fuel
        (spinePop (spinePop h len) (len - 1) + min (slotGet h 0 + 1) 9 * 16 ^ (len - 2))
        (len - 1)

namespace HuffmanTreeNode

/-- All the leaves of the tree lie at the same given depth. -/
def uniformDepth : HuffmanTreeNode → Nat → Bool
  | nullptr, _ => false
  | mk _ (some _) _ _, d => decide (d = 0)
  | mk _ none _ _, 0 => false
  | mk _ none l r, d + 1 => uniformDepth l d && uniformDepth r d

end HuffmanTreeNode

/-! ## `equalFile` -/

/-- A `FILE*` open for reading: the bytes not yet read, and the end-of-file indicator that
`feof` tests, which a read sets when it finds no byte left. -/
structure FileStream where
  rest : List Byte
  eof : Bool
deriving DecidableEq, Repr

/-- The call `fread(&uch, 1, 1, fp)` on a variable that holds `uch`: the next byte is
stored and consumed; at the end of the file the variable is left as it is and the
end-of-file indicator is set. -/
def FileStream.fread (uch : Byte) (fp : FileStream) : Byte × FileStream :=
  match fp.rest with
  | [] => (uch, { fp with eof := true })
  | x :: rest => (x, { fp with rest := rest })

/-- The loop of `equalFile` and the `return` after it; the first argument bounds the
iterations (`none` when it is reached). `uch1` and `uch2` are set to 0 before each pair of
reads. -/
def equalFileLoop : Nat → FileStream → FileStream → Option Bool
  | 0, _, _ => none
  | fuel + 1, fp1, fp2 =>
    if fp1.eof = false ∧ fp2.eof = false then
      if ((fp1.fread 0).1 ≠ (fp2.fread 0).1) then some false
      else equalFileLoop fuel (fp1.fread 0).2 (fp2.fread 0).2
    else some (fp1.eof && fp2.eof)

/-- The function `HuffmanEncoder::equalFile` on the contents of the two files. -/
def equalFile (file1 file2 : List Byte) (fuel : Nat) : Option Bool :=
  equalFileLoop fuel { rest := file1, eof := false } { rest := file2, eof := false }

/-! ## The container and `run` -/

/-- Modelled from the spec: the constants of the container layout, which the header
`huffman_encoder.h` declares and which is not among the sources. The spec gives the layout
as a signature of `N1` bytes, the file name in `N2` bytes, the original size in `N3` bytes
and 256 frequencies of `N4` bytes each, then the packed bit stream: `kZipName` is the
signature (the characters of a C string, none of them 0) and the five lengths are the
constants that `compress`, `run` and `uncompress` pass to `fwrite`, `fread` and `fseek`. -/
structure ZipLayout where
  kZipName : List Byte
  kLenOfZipName : Nat
  kLenOfFileName : Nat
  kLenOfFileSize : Nat
  kLenOfCodeFrequency : Nat
  kLenOfZipHeader : Nat

/-- The `n` bytes that `fwrite(s, n, 1, fp)` writes from the address of a C string: its
characters, the terminating 0, and after it what the memory holds there (`memory i` at
offset `i`). -/
def cBytes (s : List Byte) (memory : Nat → Byte) (n : Nat) : List Byte :=
  (List.range n).map fun i => if i < s.length then s.getD i 0 else if i = s.length then 0
    else memory i

/-- The C string at the start of an array of characters: the characters before the
first 0. -/
def cString (array : List Byte) : List Byte := array.takeWhile fun ch => decide (ch ≠ 0)

/-- The `n` bytes that `fwrite(&x, n, 1, fp)` writes for an unsigned integer `x`: its `n`
low bytes, the lowest first (the byte order of the machines the program is built for). -/
def leBytes (x : Nat) (n : Nat) : List Byte :=
  (List.range n).map fun i => Fin.ofNat (x / 256 ^ i)

/-- The value that `fread(&x, n, 1, fp)` leaves in an unsigned integer `x` that was 0, from
the bytes read. -/
def leValue : List Byte → Nat
  | [] => 0
  | b :: rest => b.val + 256 * leValue rest

/-- The header that `compress` writes before the packed bytes: `kZipName`, the name of the
input file, `input_filesize_` and the 256 frequencies. -/
def writeHeader (L : ZipLayout) (input_filename_ : List Byte) (memory : Nat → Byte)
    (header : ZipHeader) : List Byte :=
  cBytes L.kZipName memory L.kLenOfZipName ++
    cBytes input_filename_ memory L.kLenOfFileName ++
    leBytes header.original_size L.kLenOfFileSize ++
    (List.finRange 256).flatMap fun i => leBytes (header.frequency.get i) L.kLenOfCodeFrequency

/-- The bytes of the file that `compress` writes. -/
def writeFile (L : ZipLayout) (input_filename_ : List Byte) (memory : Nat → Byte)
    (file : ZipFile) : List Byte :=
  writeHeader L input_filename_ memory file.header ++ file.packed.map fun byte => Fin.ofNat byte

/-- The test `std::string_view{zip_name.data()} == kZipName` of `run`, `zip_name` being a
zeroed array into which the first `kLenOfZipName` bytes of the input file are read. -/
def hasSignature (L : ZipLayout) (input : List Byte) : Bool :=
  decide (cString (input.take L.kLenOfZipName) = L.kZipName)

/-- The reads of the decompression path of `run` after the signature: the name of the
original file (a C string in `kLenOfFileName` bytes), `output_filesize_` and the 256
frequencies. The input is taken to hold a whole header: where it is shorter, a read gives
what is left of it. -/
def parseHeader (L : ZipLayout) (input : List Byte) : List Byte × ZipHeader :=
  (cString ((input.drop L.kLenOfZipName).take L.kLenOfFileName),
   { original_size :=
       leValue ((input.drop (L.kLenOfZipName + L.kLenOfFileName)).take L.kLenOfFileSize)
     frequency := Mathlib.Vector.ofFn fun i =>
       leValue ((input.drop (L.kLenOfZipName + L.kLenOfFileName + L.kLenOfFileSize +
         i.val * L.kLenOfCodeFrequency)).take L.kLenOfCodeFrequency) })

/-- What a run of the codec writes: the compressed file, or the original file under the
name read from the header. -/
inductive RunOutput where
  | compressed (output : List Byte)
  | uncompressed (output_filename_ : List Byte) (output : List Byte)
deriving DecidableEq, Repr

/-- The first branch of `run`: `statisticalFrequency`, `buildHuffmanTree`, `initCodePoint`
and `compress`, which writes the header and the packed bytes. -/
def compressBranch (L : ZipLayout) (pq : PriorityQueue) (fuel : Nat)
    (input_filename_ : List Byte) (memory : Nat → Byte) (input : List Byte) :
    Except RunError RunOutput :=
  match runCompress pq fuel input with
  | .error err => .error err
  | .ok file => .ok (.compressed (writeFile L input_filename_ memory file))

/-- The second branch of `run`: the header is read, then `buildHuffmanTree`,
`initCodePoint` and `uncompress`, which starts at offset `kLenOfZipHeader`. -/
def uncompressBranch (L : ZipLayout) (pq : PriorityQueue) (fuel : Nat) (input : List Byte) :
    Except RunError RunOutput :=
  match runUncompress pq fuel
      { header := (parseHeader L input).2
        packed := (input.drop L.kLenOfZipHeader).map fun byte => byte.val } with
  | .error err => .error err
  | .ok out => .ok (.uncompressed (parseHeader L input).1 out)

/-- The function `HuffmanEncoder::run` on the contents of the input file: the first branch
is taken when `is_compressed_ || std::string_view{zip_name.data()} == kZipName` holds. -/
def run (L : ZipLayout) (pq : PriorityQueue) (fuel : Nat) (is_compressed_ : Bool)
    (input_filename_ : List Byte) (memory : Nat → Byte) (input : List Byte) :
    Except RunError RunOutput :=
  if (is_compressed_ || hasSignature L input) = true then
    compressBranch L pq fuel input_filename_ memory input
  else uncompressBranch L pq fuel input

/-! ## The decoder on a bit sequence -/

/-- How the decoding of a sequence of bits ends: the bits ran out, or the loop was left on
the count of bytes written, with bits not yet read. -/
inductive WalkResult where
  | more (st : UnpackState)
  | stopped (st : UnpackState) (unread : List Bool)

/-- The state in which the decoding of a sequence of bits ends. -/
def WalkResult.state : WalkResult → UnpackState
  | .more st => st
  | .stopped st _ => st

/-- The loop `while (findNode(node, input_byte, pos))` of `uncompress`, seen on the bits
still to read of the byte, when the tree pointer is on an internal node: each bit is a step
to a child; on a leaf the byte of its slot is written, and the loop is left when the count
equals `output_filesize_`, else the tree pointer goes back to the root. -/
def walk (root : HuffmanTreeNode) (points : Points) (output_filesize : Nat) :
    List Bool → UnpackState → WalkResult
  | [], st => .more st
  | turn :: rest, st =>
    match (st.node.descend [turn]).point with
    | none => walk root points output_filesize rest { st with node := st.node.descend [turn] }
    | some p =>
      if (st.cur_output_size + 1) % kCodeTypeMod = output_filesize then
        .stopped
          { node := st.node.descend [turn]
            cur_output_size := (st.cur_output_size + 1) % kCodeTypeMod
            written := st.written ++ [(points.get p).old_code] } rest
      else
        walk root points output_filesize rest
          { node := root, cur_output_size := (st.cur_output_size + 1) % kCodeTypeMod,
            written := st.written ++ [(points.get p).old_code] }

/-- The state of the packing loop is sound: fewer than 8 bits are buffered and the buffer
holds no bit above them. -/
def PackState.Sound (st : PackState) : Prop :=
  st.cnt < 8 ∧ st.output_byte < 2 ^ st.cnt

/-- The bits a packing state stands for: those of the bytes written, then the buffered
ones. -/
def PackState.bits (st : PackState) : List Bool :=
  st.written.flatMap byteBits ++ codeBits st.output_byte st.cnt

/-- The counter `output_filesize_` counts the bytes written, from `base`, in `CodeType`
arithmetic. -/
def PackState.Counted (base : Nat) (st : PackState) : Prop :=
  st.output_filesize_ % kCodeTypeMod = (base + st.written.length) % kCodeTypeMod

namespace WTree

/-- The statement of the exchange step for trees with fewer than `N` leaves: two least
weights `a` and `b` can be brought together and replaced by a single leaf of weight
`a + b`, and the cost falls by at least `a + b`. -/
def ExchangeBelow (N : Nat) : Prop :=
  ∀ (U : WTree) (a b : Nat) (M : Multiset Nat), Multiset.card U.leaves < N →
    U.leaves = a ::ₘ b ::ₘ M → (∀ x ∈ M, a ≤ x ∧ b ≤ x) →
    ∃ V : WTree, V.leaves = (a + b) ::ₘ M ∧ V.cost + a + b ≤ U.cost ∧ V.weight = U.weight

end WTree

/-- The test that a list of weights makes a chain to the right below an accumulated node
of weight `a`: each weight in turn is lighter than the accumulated node, which is lighter
than all the later ones, and the sums stay in the range of `CodeType`. -/
def rightChain (a : Nat) : List Nat → Bool
  | [] => true
  | l :: ls =>
    decide (l < a) && ls.all (fun y => decide (a < y)) && decide (a + l < kCodeTypeMod) &&
      rightChain (a + l) ls

/-- A skewed frequency table: the frequencies of the symbols 0 to 69 (the Lucas numbers
2, 3, 4, 7, 11, ...: each is the sum of the two before it, from the fourth on); the other
symbols have frequency 0. The sum of the table is 1114577054219520, below `2^64`. -/
def skewedFrequencies : List Nat :=
  [2, 3, 4, 7, 11, 18, 29, 47, 76, 123, 199, 322, 521, 843, 1364, 2207, 3571, 5778, 9349,
   15127, 24476, 39603, 64079, 103682, 167761, 271443, 439204, 710647, 1149851, 1860498,
   3010349, 4870847, 7881196, 12752043, 20633239, 33385282, 54018521, 87403803, 141422324,
   228826127, 370248451, 599074578, 969323029, 1568397607, 2537720636, 4106118243, 6643838879,
   10749957122, 17393796001, 28143753123, 45537549124, 73681302247, 119218851371, 192900153618,
   312119004989, 505019158607, 817138163596, 1322157322203, 2139295485799, 3461452808002,
   5600748293801, 9062201101803, 14662949395604, 23725150497407, 38388099893011,
   62113250390418, 100501350283429, 162614600673847, 263115950957276, 425730551631123]

/-- The symbol table with the frequencies `skewedFrequencies`: what `statisticalFrequency`
leaves for a file with these counts, and what the decompression path reads from a header
holding them. -/
def skewedPoints : Points :=
  Mathlib.Vector.ofFn fun i =>
    { old_code := i, frequency := skewedFrequencies.getD i.val 0, new_code := 0,
      new_code_str := "", length := 0 }

/-- The symbols of non-zero frequency in `skewedPoints`. -/
def skewedSymbols : List Byte :=
  [0, 1, 2, 3, 4, 5, 6, 7, 8, 9, 10, 11, 12, 13, 14, 15, 16, 17, 18, 19, 20, 21, 22, 23, 24,
   25, 26, 27, 28, 29, 30, 31, 32, 33, 34, 35, 36, 37, 38, 39, 40, 41, 42, 43, 44, 45, 46, 47,
   48, 49, 50, 51, 52, 53, 54, 55, 56, 57, 58, 59, 60, 61, 62, 63, 64, 65, 66, 67, 68, 69]

/-- The path to the leaf of symbol 0 in the tree of `skewedPoints`: 68 turns to the right,
one to the left, one to the right. -/
def skewedPath : List Bool := List.replicate 68 true ++ [false, true]

/-- The encoded keys of a vector of nodes. -/
def spineCode (first : List HuffmanTreeNode) : Nat :=
  encodeSlots (first.map HuffmanTreeNode.spineKey)

/-- Every node of the vector has weight 0. -/
def AllZero (c : List HuffmanTreeNode) : Prop := ∀ x ∈ c, x.weight = 0

/-- A container layout with a signature of two characters in 8 bytes, names of up to 255
characters, and sizes and frequencies of 8 bytes. -/
def sampleLayout : ZipLayout where
  kZipName := [122, 76]
  kLenOfZipName := 8
  kLenOfFileName := 256
  kLenOfFileSize := 8
  kLenOfCodeFrequency := 8
  kLenOfZipHeader := 2320

/-- A compressed file of three bytes `a`: the frequency 3 for the symbol 97 and one packed
byte. -/
def sampleFile : ZipFile where
  header :=
    { original_size := 3
      frequency := Mathlib.Vector.ofFn fun i => if i.val = 97 then 3 else 0 }
  packed := [224]

/-! ## Theorems -/

section

theorem cmp_false_iff (x y : HuffmanTreeNode) :
    CmparatorOfHuffmanTreeNode x y = false ↔ x.weight ≤ y.weight := by
  simp [CmparatorOfHuffmanTreeNode]

theorem Merges.of_perm {F G : List HuffmanTreeNode} {root : HuffmanTreeNode}
    (h : Merges F root) (hp : G.Perm F) : Merges G root := by
  cases h with
  | last h1 h2 => exact Merges.last (hp.trans h1) h2
  | step h1 h2 h3 h4 h5 => exact Merges.step (hp.trans h1) h2 h3 h4 h5

/-- The loop of `buildHuffmanTree` on a lawful queue holding `n + 2` nodes: it makes exactly
`n + 1` merges, never reads the top of an empty queue, and its result is one of the trees
that merging two nodes of least weight can give. -/
theorem mergeLoop_spec (pq : PriorityQueue) (I : pq.Q → Prop)
    (hpush : ∀ q x, I q → I (pq.push q x) ∧ (pq.c (pq.push q x)).Perm (x :: pq.c q))
    (hempty : ∀ q, I q → (pq.empty q = true ↔ pq.c q = []))
    (htop : ∀ q, I q → pq.c q ≠ [] → ∃ x, pq.top q = some x ∧
      (∀ y ∈ pq.c q, CmparatorOfHuffmanTreeNode x y = false) ∧
      I (pq.pop q) ∧ (pq.c q).Perm (x :: pq.c (pq.pop q))) :
    ∀ (n fuel : Nat) (q : pq.Q), I q → (pq.c q).length = n + 2 →
      (fuel < n + 1 → mergeLoop pq fuel q = .error .outOfFuel) ∧
      (n + 1 ≤ fuel → ∃ root, mergeLoop pq fuel q = .ok root ∧ Merges (pq.c q) root) := by
  intro n
  induction n with
  | zero =>
    intro fuel q hI hlen
    have hne : pq.c q ≠ [] := by intro h; simp [h] at hlen
    obtain ⟨x, hx, hmin, hI1, hp1⟩ := htop q hI hne
    have hlen1 : (pq.c (pq.pop q)).length = 1 := by
      have := hp1.length_eq; simp at this; omega
    have hne1 : pq.c (pq.pop q) ≠ [] := by intro h; simp [h] at hlen1
    obtain ⟨y, hy, hmin1, hI2, hp2⟩ := htop _ hI1 hne1
    have hlen2 : (pq.c (pq.pop (pq.pop q))).length = 0 := by
      have := hp2.length_eq; simp at this; omega
    have hnil : pq.c (pq.pop (pq.pop q)) = [] := List.length_eq_zero.mp hlen2
    have he : pq.empty (pq.pop (pq.pop q)) = true := (hempty _ hI2).2 hnil
    constructor
    · intro hf
      have : fuel = 0 := by omega
      subst this; rfl
    · intro hf
      obtain ⟨f, rfl⟩ : ∃ f, fuel = f + 1 := ⟨fuel - 1, by omega⟩
      refine ⟨mergeNode x y, ?_, ?_⟩
      · simp [mergeLoop, hx, hy, he]
      · refine Merges.last ?_ ?_
        · rw [hnil] at hp2
          exact hp1.trans (List.Perm.cons _ hp2)
        · have hymem : y ∈ pq.c q := by
            have : y ∈ pq.c (pq.pop q) := hp2.symm.subset (List.mem_cons_self _ _)
            exact hp1.symm.subset (List.mem_cons_of_mem _ this)
          exact (cmp_false_iff _ _).1 (hmin y hymem)
  | succ n ih =>
    intro fuel q hI hlen
    have hne : pq.c q ≠ [] := by intro h; simp [h] at hlen
    obtain ⟨x, hx, hmin, hI1, hp1⟩ := htop q hI hne
    have hlen1 : (pq.c (pq.pop q)).length = n + 2 := by
      have := hp1.length_eq; simp at this; omega
    have hne1 : pq.c (pq.pop q) ≠ [] := by intro h; simp [h] at hlen1
    obtain ⟨y, hy, hmin1, hI2, hp2⟩ := htop _ hI1 hne1
    have hlen2 : (pq.c (pq.pop (pq.pop q))).length = n + 1 := by
      have := hp2.length_eq; simp at this; omega
    have hne2 : pq.c (pq.pop (pq.pop q)) ≠ [] := by intro h; simp [h] at hlen2
    have he : pq.empty (pq.pop (pq.pop q)) = false := by
      cases h : pq.empty (pq.pop (pq.pop q)) with
      | false => rfl
      | true => exact absurd ((hempty _ hI2).1 h) hne2
    obtain ⟨hI3, hp3⟩ := hpush (pq.pop (pq.pop q)) (mergeNode x y) hI2
    have hlen3 : (pq.c (pq.push (pq.pop (pq.pop q)) (mergeNode x y))).length = n + 2 := by
      have := hp3.length_eq; simp at this; omega
    have hperm : (pq.c q).Perm (x :: y :: pq.c (pq.pop (pq.pop q))) :=
      hp1.trans (List.Perm.cons _ hp2)
    constructor
    · intro hf
      cases fuel with
      | zero => rfl
      | succ f =>
        have := (ih f _ hI3 hlen3).1 (by omega)
        simp [mergeLoop, hx, hy, he, this]
    · intro hf
      obtain ⟨f, rfl⟩ : ∃ f, fuel = f + 1 := ⟨fuel - 1, by omega⟩
      obtain ⟨root, hroot, hm⟩ := (ih f _ hI3 hlen3).2 (by omega)
      refine ⟨root, ?_, ?_⟩
      · simp [mergeLoop, hx, hy, he, hroot]
      · refine Merges.step hperm hne2 ?_ ?_ ?_
        · intro z hz
          have : z ∈ pq.c q := hp1.symm.subset (List.mem_cons_of_mem _ (hp2.symm.subset hz))
          exact (cmp_false_iff _ _).1 (hmin z this)
        · intro z hz
          have : z ∈ pq.c (pq.pop q) := hp2.symm.subset (List.mem_cons_of_mem _ hz)
          exact (cmp_false_iff _ _).1 (hmin1 z this)
        · exact hm.of_perm hp3.symm

theorem mergeLoop_mono (pq : PriorityQueue) :
    ∀ (fuel : Nat) (q : pq.Q) (root : HuffmanTreeNode), mergeLoop pq fuel q = .ok root →
      ∀ fuel2, fuel ≤ fuel2 → mergeLoop pq fuel2 q = .ok root := by
  intro fuel
  induction fuel with
  | zero => intro q root h; simp [mergeLoop] at h
  | succ f ih =>
    intro q root h fuel2 hle
    obtain ⟨g, rfl⟩ : ∃ g, fuel2 = g + 1 := ⟨fuel2 - 1, by omega⟩
    simp only [mergeLoop] at h ⊢
    cases h1 : pq.top q with
    | none => simp [h1] at h
    | some node1 =>
      simp only [h1] at h ⊢
      cases h2 : pq.top (pq.pop q) with
      | none => simp [h2] at h
      | some node2 =>
        simp only [h2] at h ⊢
        by_cases he : pq.empty (pq.pop (pq.pop q)) = true
        · simpa [he] using h
        · simp only [he, if_false] at h ⊢
          exact ih _ _ h g (by omega)

theorem pushLeaves_spec (pq : PriorityQueue) (I : pq.Q → Prop)
    (hpush : ∀ q x, I q → I (pq.push q x) ∧ (pq.c (pq.push q x)).Perm (x :: pq.c q))
    (points : Points) :
    ∀ (l : List Byte) (q : pq.Q), I q →
      I (pushLeaves pq points l q) ∧
      (pq.c (pushLeaves pq points l q)).Perm (l.map (leafNode points) ++ pq.c q) := by
  intro l
  induction l with
  | nil => intro q hI; exact ⟨hI, by simp [pushLeaves]⟩
  | cons i rest ih =>
    intro q hI
    obtain ⟨hI1, hp1⟩ := hpush q (leafNode points i) hI
    obtain ⟨hI2, hp2⟩ := ih _ hI1
    refine ⟨hI2, ?_⟩
    simp only [pushLeaves, List.map_cons, List.cons_append]
    refine hp2.trans ?_
    refine (List.Perm.append_left _ hp1).trans ?_
    exact List.perm_middle

/-- On a lawful queue `buildHuffmanTree` makes exactly 255 merges and returns one of the
trees that merging two nodes of least weight can give from the 256 leaves. -/
theorem buildHuffmanTree_spec (pq : PriorityQueue) (h : pq.Lawful) (points : Points) :
    buildHuffmanTree pq points 254 = .error .outOfFuel ∧
    ∃ root, Merges ((List.finRange 256).map (leafNode points)) root ∧
      ∀ fuel, 255 ≤ fuel → buildHuffmanTree pq points fuel = .ok root := by
  obtain ⟨I, ⟨hI0, hc0⟩, hpush, hempty, htop⟩ := h.spec
  obtain ⟨hI1, hp1⟩ := pushLeaves_spec pq I hpush points (List.finRange 256) pq.init hI0
  rw [hc0, List.append_nil] at hp1
  have hlen : (pq.c (pushLeaves pq points (List.finRange 256) pq.init)).length = 254 + 2 := by
    rw [hp1.length_eq]; simp
  have key := mergeLoop_spec pq I hpush hempty htop 254
  refine ⟨(key 254 _ hI1 hlen).1 (by omega), ?_⟩
  obtain ⟨root, hroot, hm⟩ := (key 255 _ hI1 hlen).2 (by omega)
  refine ⟨root, hm.of_perm hp1.symm, ?_⟩
  intro fuel hf
  exact mergeLoop_mono pq 255 _ root hroot fuel hf

end

section

open HuffmanTreeNode

theorem leaves_mergeNode (a b : HuffmanTreeNode) :
    (mergeNode a b).leaves = a.leaves ++ b.leaves := rfl

theorem isTree_mergeNode (a b : HuffmanTreeNode) :
    (mergeNode a b).isTree = (a.isTree && b.isTree) := rfl

theorem internalCount_mergeNode (a b : HuffmanTreeNode) :
    (mergeNode a b).internalCount = a.internalCount + b.internalCount + 1 := rfl

theorem weight_mergeNode (a b : HuffmanTreeNode) :
    (mergeNode a b).weight = (a.weight + b.weight) % kCodeTypeMod := rfl

/-- Merging keeps the leaves: the leaves of the result are those of the nodes merged. -/
theorem Merges.leaves_perm {F : List HuffmanTreeNode} {root : HuffmanTreeNode}
    (h : Merges F root) : root.leaves.Perm (F.flatMap leaves) := by
  induction h with
  | last hp _ =>
    refine List.Perm.trans ?_ (List.Perm.flatMap_right _ hp.symm)
    simp [leaves_mergeNode]
  | step hp _ _ _ _ ih =>
    refine ih.trans (List.Perm.trans ?_ (List.Perm.flatMap_right _ hp.symm))
    simp [leaves_mergeNode]

/-- Merging trees gives a tree. -/
theorem Merges.isTree {F : List HuffmanTreeNode} {root : HuffmanTreeNode}
    (h : Merges F root) (hF : ∀ t ∈ F, t.isTree = true) : root.isTree = true := by
  induction h with
  | @last F a b hp _ =>
    have ha := hF a (hp.symm.subset (by simp))
    have hb := hF b (hp.symm.subset (by simp))
    simp [isTree_mergeNode, ha, hb]
  | @step F rest a b root hp _ _ _ _ ih =>
    apply ih
    intro t ht
    have ha := hF a (hp.symm.subset (by simp))
    have hb := hF b (hp.symm.subset (by simp))
    rcases List.mem_cons.1 ht with rfl | ht
    · simp [isTree_mergeNode, ha, hb]
    · exact hF t (hp.symm.subset (by simp [ht]))

/-- Every merge adds one internal node. -/
theorem Merges.internalCount {F : List HuffmanTreeNode} {root : HuffmanTreeNode}
    (h : Merges F root) :
    root.internalCount + 1 = (F.map HuffmanTreeNode.internalCount).sum + F.length := by
  induction h with
  | last hp _ =>
    rw [(hp.map _).sum_eq, hp.length_eq]
    simp [internalCount_mergeNode]
  | step hp _ _ _ _ ih =>
    rw [ih, (hp.map _).sum_eq, hp.length_eq]
    simp [internalCount_mergeNode]
    omega

/-- The result of merging is an internal node. -/
theorem Merges.point_eq_none {F : List HuffmanTreeNode} {root : HuffmanTreeNode}
    (h : Merges F root) : root.point = none := by
  induction h with
  | last _ _ => rfl
  | step _ _ _ _ _ ih => exact ih

theorem flatMap_leaves_leafNode (points : Points) (l : List Byte) :
    (l.map (leafNode points)).flatMap leaves = l := by
  induction l with
  | nil => rfl
  | cons i rest ih =>
    simp only [List.map_cons, List.flatMap_cons, ih]
    rfl

theorem sum_internalCount_leafNode (points : Points) (l : List Byte) :
    ((l.map (leafNode points)).map HuffmanTreeNode.internalCount).sum = 0 := by
  induction l with
  | nil => rfl
  | cons i rest ih =>
    simp only [List.map_cons, List.sum_cons, ih]
    rfl

/-- The tree `buildHuffmanTree` returns on a lawful queue. -/
theorem buildHuffmanTree_shape (pq : PriorityQueue) (h : pq.Lawful) (points : Points) :
    buildHuffmanTree pq points 254 = .error .outOfFuel ∧
    ∃ root, (∀ fuel, 255 ≤ fuel → buildHuffmanTree pq points fuel = .ok root) ∧
      Merges ((List.finRange 256).map (leafNode points)) root ∧
      root.isTree = true ∧ root.point = none ∧
      root.leaves.Perm (List.finRange 256) ∧ root.internalCount = 255 := by
  obtain ⟨h254, root, hm, hroot⟩ := buildHuffmanTree_spec pq h points
  refine ⟨h254, root, hroot, hm, ?_, hm.point_eq_none, ?_, ?_⟩
  · apply hm.isTree
    intro t ht
    obtain ⟨i, -, rfl⟩ := List.mem_map.1 ht
    rfl
  · have := hm.leaves_perm
    rwa [flatMap_leaves_leafNode] at this
  · have := hm.internalCount
    rw [sum_internalCount_leafNode] at this
    simp at this
    omega

end

section

open HuffmanTreeNode

theorem isNull_of_isTree {t : HuffmanTreeNode} (h : t.isTree = true) : t.isNull = false := by
  cases t with
  | nullptr => simp [isTree] at h
  | mk w p l r => rfl

theorem pathString_nil : pathString [] = "" := rfl

theorem pathString_cons (turn : Bool) (path : List Bool) :
    pathString (turn :: path) = (if turn then "1" else "0") ++ pathString path := by
  cases turn <;> rfl

theorem codeAfter_cons (c : Nat) (turn : Bool) (path : List Bool) :
    codeAfter c (turn :: path) =
      codeAfter (((c <<< 1) % kCodeTypeMod + turn.toNat) % kCodeTypeMod) path := rfl

/-- What `initCodePoint` stores: the slots of the symbols outside the tree are untouched,
and the slot of each symbol of the tree gets the register, the string and the length of the
path that leads to its leaf. -/
theorem initCodePoint_spec :
    ∀ (t : HuffmanTreeNode), t.isTree = true → t.leaves.Nodup →
    ∀ (c : Nat) (str : String) (len : Nat) (pts : Points),
      (∀ s, s ∉ t.leaves → (initCodePoint t c str len pts).get s = pts.get s) ∧
      (∀ s, s ∈ t.leaves → ∃ path : List Bool, (t.descend path).point = some s ∧
        (initCodePoint t c str len pts).get s =
          { pts.get s with
            new_code := codeAfter c path
            new_code_str := str ++ pathString path
            length := len + path.length }) := by
  intro t
  induction t with
  | nullptr => intro h; simp [isTree] at h
  | mk w p l r ihl ihr =>
    intro ht hnd c str len pts
    cases p with
    | some p =>
      constructor
      · intro s hs
        have hne : p ≠ s := by
          intro h; apply hs; simp [leaves, h]
        simp [initCodePoint, Mathlib.Vector.get_set_of_ne hne]
      · intro s hs
        have hsp : s = p := by simpa [leaves] using hs
        subst hsp
        refine ⟨[], rfl, ?_⟩
        simp [initCodePoint, Mathlib.Vector.get_set_same, codeAfter, pathString_nil]
    | none =>
      simp only [isTree, Bool.and_eq_true] at ht
      obtain ⟨hl, hr⟩ := ht
      simp only [leaves] at hnd
      have hndl : l.leaves.Nodup := (List.nodup_append.1 hnd).1
      have hndr : r.leaves.Nodup := (List.nodup_append.1 hnd).2.1
      have hdisj := (List.nodup_append.1 hnd).2.2
      have hinit : initCodePoint (mk w none l r) c str len pts =
          initCodePoint r (((c <<< 1) % kCodeTypeMod + 1) % kCodeTypeMod) (str ++ "1") (len + 1)
            (initCodePoint l ((c <<< 1) % kCodeTypeMod) (str ++ "0") (len + 1) pts) := by
        simp [initCodePoint, isNull_of_isTree hl, isNull_of_isTree hr]
      rw [hinit]
      obtain ⟨l1, l2⟩ := ihl hl hndl ((c <<< 1) % kCodeTypeMod) (str ++ "0") (len + 1) pts
      obtain ⟨r1, r2⟩ := ihr hr hndr (((c <<< 1) % kCodeTypeMod + 1) % kCodeTypeMod)
        (str ++ "1") (len + 1)
        (initCodePoint l ((c <<< 1) % kCodeTypeMod) (str ++ "0") (len + 1) pts)
      constructor
      · intro s hs
        simp only [leaves, List.mem_append, not_or] at hs
        rw [r1 s hs.2, l1 s hs.1]
      · intro s hs
        simp only [leaves, List.mem_append] at hs
        rcases hs with hs | hs
        · have hsr : s ∉ r.leaves := fun h => hdisj hs h
          obtain ⟨path, hp1, hp2⟩ := l2 s hs
          refine ⟨false :: path, hp1, ?_⟩
          rw [r1 s hsr, hp2]
          simp [codeAfter_cons, pathString_cons, String.append_assoc, Nat.mod_mod]
          omega
        · have hsl : s ∉ l.leaves := fun h => hdisj h hs
          obtain ⟨path, hp1, hp2⟩ := r2 s hs
          refine ⟨true :: path, hp1, ?_⟩
          rw [hp2, l1 s hsl]
          simp [codeAfter_cons, pathString_cons, String.append_assoc]
          omega

end

section

open HuffmanTreeNode

theorem descend_nullptr (path : List Bool) : descend nullptr path = nullptr := by
  induction path with
  | nil => rfl
  | cons turn path ih => cases turn <;> simpa [descend, HuffmanTreeNode.left, HuffmanTreeNode.right] using ih

theorem descend_append (t : HuffmanTreeNode) (p q : List Bool) :
    descend t (p ++ q) = descend (descend t p) q := by
  induction p generalizing t with
  | nil => rfl
  | cons turn p ih => cases turn <;> simp [descend, ih]

/-- Below a leaf of a tree there is nothing: its children are null. -/
theorem descend_leaf {t : HuffmanTreeNode} {s : Byte} (ht : t.isTree = true)
    (hs : t.point = some s) {q : List Bool} (hq : q ≠ []) : descend t q = nullptr := by
  cases t with
  | nullptr => exact descend_nullptr q
  | mk w p l r =>
    simp only [HuffmanTreeNode.point] at hs
    subst hs
    simp only [isTree, Bool.and_eq_true] at ht
    have hl : l = nullptr := by cases l <;> simp_all [isNull]
    have hr : r = nullptr := by cases r <;> simp_all [isNull]
    subst hl hr
    cases q with
    | nil => exact absurd rfl hq
    | cons turn q => cases turn <;> simp [descend, HuffmanTreeNode.left, HuffmanTreeNode.right, descend_nullptr]

/-- A node reached in a tree is null or a tree. -/
theorem descend_isTree {t : HuffmanTreeNode} (ht : t.isTree = true) (p : List Bool) :
    descend t p = nullptr ∨ (descend t p).isTree = true := by
  induction p generalizing t with
  | nil => exact Or.inr ht
  | cons turn p ih =>
    cases t with
    | nullptr => simp [isTree] at ht
    | mk w pt l r =>
      cases pt with
      | some s =>
        left
        exact descend_leaf ht rfl (List.cons_ne_nil _ _)
      | none =>
        simp only [isTree, Bool.and_eq_true] at ht
        cases turn
        · exact ih ht.1
        · exact ih ht.2

/-- Two paths of a tree that end in leaves, one a prefix of the other, are the same path. -/
theorem initial_path_eq {t : HuffmanTreeNode} (ht : t.isTree = true) {a b : Byte}
    {p q : List Bool} (hp : (descend t p).point = some a) (hq : (descend t q).point = some b)
    (hpq : p <+: q) : p = q := by
  obtain ⟨r, rfl⟩ := hpq
  by_cases hr : r = []
  · simp [hr]
  · exfalso
    rw [descend_append] at hq
    have hleaf : (descend t p).isTree = true := by
      rcases descend_isTree ht p with h | h
      · rw [h] at hp; simp [HuffmanTreeNode.point] at hp
      · exact h
    rw [descend_leaf hleaf hp hr] at hq
    simp [HuffmanTreeNode.point] at hq

/-- A path to a leaf passes one internal node per turn. -/
theorem path_length_le {t : HuffmanTreeNode} (ht : t.isTree = true) {s : Byte}
    {p : List Bool} (hp : (descend t p).point = some s) : p.length ≤ t.internalCount := by
  induction p generalizing t with
  | nil => exact Nat.zero_le _
  | cons turn p ih =>
    cases t with
    | nullptr => simp [isTree] at ht
    | mk w pt l r =>
      cases pt with
      | some s2 =>
        rw [descend_leaf ht rfl (List.cons_ne_nil _ _)] at hp
        simp [HuffmanTreeNode.point] at hp
      | none =>
        simp only [isTree, Bool.and_eq_true] at ht
        cases turn
        · have := ih ht.1 hp
          simp only [internalCount, List.length_cons]; omega
        · have := ih ht.2 hp
          simp only [internalCount, List.length_cons]; omega

theorem bitChar_injective : Function.Injective bitChar := by
  intro a b h
  cases a <;> cases b <;> simp [bitChar] at h ⊢

theorem pathString_data (p : List Bool) : (pathString p).data = p.map bitChar := rfl

theorem empty_append_string (s : String) : "" ++ s = s := by
  cases s; rfl

/-- The codes of a tree on a lawful queue: for every symbol the slot written by
`initCodePoint(root, 0, "", 0)` holds the path to the symbol's leaf. -/
theorem codes_of_build (pq : PriorityQueue) (h : pq.Lawful) (points : Points) :
    ∃ root, (∀ fuel, 255 ≤ fuel → buildHuffmanTree pq points fuel = .ok root) ∧
      root.isTree = true ∧ root.internalCount = 255 ∧
      ∀ s : Byte, ∃ path : List Bool, (root.descend path).point = some s ∧
        1 ≤ path.length ∧ path.length ≤ 255 ∧
        (initCodePoint root 0 "" 0 points).get s =
          { points.get s with
            new_code := codeAfter 0 path
            new_code_str := pathString path
            length := path.length } := by
  obtain ⟨-, root, hroot, -, htree, hpoint, hleaves, hcount⟩ := buildHuffmanTree_shape pq h points
  refine ⟨root, hroot, htree, hcount, ?_⟩
  intro s
  have hnd : root.leaves.Nodup := hleaves.nodup_iff.2 (List.nodup_finRange 256)
  have hs : s ∈ root.leaves := hleaves.symm.subset (List.mem_finRange s)
  obtain ⟨path, hp1, hp2⟩ := (initCodePoint_spec root htree hnd 0 "" 0 points).2 s hs
  refine ⟨path, hp1, ?_, ?_, ?_⟩
  · cases path with
    | nil => simp [descend, hpoint] at hp1
    | cons _ _ => simp
  · have := path_length_le htree hp1
    omega
  · rw [hp2]; simp [empty_append_string]

end

section

theorem shift_and_one (x i : Nat) : (x >>> i) &&& 1 = (x.testBit i).toNat := by
  rw [Nat.testBit_to_div_mod, Nat.shiftRight_eq_div_pow, Nat.and_one_is_mod]
  rcases Nat.mod_two_eq_zero_or_one (x / 2 ^ i) with h | h <;> simp [h]

theorem codeBits_length (x n : Nat) : (codeBits x n).length = n := by
  induction n with
  | zero => rfl
  | succ n ih => simp [codeBits, ih]

theorem codeBits_congr {x y : Nat} :
    ∀ n : Nat, (∀ j, j < n → x.testBit j = y.testBit j) → codeBits x n = codeBits y n := by
  intro n
  induction n with
  | zero => intro _; rfl
  | succ n ih =>
    intro h
    simp only [codeBits]
    rw [h n (Nat.lt_succ_self n), ih (fun j hj => h j (Nat.lt_succ_of_lt hj))]

/-- Shifting a bit in below a register appends it to the bits read. -/
theorem codeBits_shift_in (x : Nat) (b : Bool) (n : Nat) :
    codeBits (2 * x + b.toNat) (n + 1) = codeBits x n ++ [b] := by
  induction n with
  | zero =>
    cases b
    · simp [codeBits, Nat.testBit_zero]
    · simp [codeBits, Nat.testBit_zero]; omega
  | succ n ih =>
    rw [codeBits, ih, codeBits]
    have : (2 * x + b.toNat).testBit (n + 1) = x.testBit n := by
      rw [Nat.testBit_succ]
      congr 1
      cases b
      · simp
      · simp; omega
    rw [this]; rfl

/-- Shifting a register left appends zero bits to the bits read. -/
theorem codeBits_shiftLeft (x n j : Nat) :
    codeBits (x * 2 ^ j) (n + j) = codeBits x n ++ List.replicate j false := by
  induction j with
  | zero => simp
  | succ j ih =>
    have h1 : x * 2 ^ (j + 1) = 2 * (x * 2 ^ j) + (false).toNat := by
      simp [pow_succ]; ring
    rw [← Nat.add_assoc, h1, codeBits_shift_in, ih, List.replicate_succ']
    simp

end

section

theorem codeBits_succ (x n : Nat) : codeBits x (n + 1) = x.testBit n :: codeBits x n := rfl

theorem registerBits_succ (x n : Nat) :
    registerBits x (n + 1) = x.testBit (n % 64) :: registerBits x n := rfl

theorem registerBits_length (x n : Nat) : (registerBits x n).length = n := by
  induction n with
  | zero => rfl
  | succ n ih => simp [registerBits, ih]

/-- For a code of at most 64 bits the loop of `compress` reads the bits of the code. -/
theorem registerBits_eq_codeBits (x : Nat) :
    ∀ n : Nat, n ≤ 64 → registerBits x n = codeBits x n := by
  intro n
  induction n with
  | zero => intro _; rfl
  | succ n ih =>
    intro hn
    rw [registerBits_succ, codeBits_succ, ih (by omega), Nat.mod_eq_of_lt (by omega)]

theorem packCode_spec (new_code base : Nat) :
    ∀ (length : Nat) (st : PackState), st.Sound → st.Counted base →
      (packCode new_code length st).Sound ∧
      (packCode new_code length st).Counted base ∧
      (packCode new_code length st).bits = st.bits ++ registerBits new_code length ∧
      8 * (packCode new_code length st).written.length + (packCode new_code length st).cnt =
        8 * st.written.length + st.cnt + length := by
  intro length
  induction length with
  | zero => intro st h hcnt; simp [packCode, h, hcnt, registerBits]
  | succ n ih =>
    intro st h hcnt
    obtain ⟨hc, hb⟩ := h
    have hb7 : st.output_byte < 2 ^ 7 :=
      lt_of_lt_of_le hb (Nat.pow_le_pow_right (by norm_num) (by omega))
    have hbit : (new_code.testBit (n % 64)).toNat ≤ 1 := by
      cases new_code.testBit (n % 64) <;> simp
    have hval : ((st.output_byte <<< 1) % 256 + ((new_code >>> (n % 64)) &&& 1)) % 256 =
        2 * st.output_byte + (new_code.testBit (n % 64)).toNat := by
      rw [shift_and_one, Nat.shiftLeft_eq]
      have : st.output_byte * 2 ^ 1 % 256 = 2 * st.output_byte := by
        rw [Nat.mod_eq_of_lt] <;> omega
      rw [this, Nat.mod_eq_of_lt]
      omega
    by_cases h8 : st.cnt + 1 = 8
    · have hstep : packCode new_code (n + 1) st = packCode new_code n
          { output_byte := 0, cnt := 0,
            written := st.written ++ [2 * st.output_byte + (new_code.testBit (n % 64)).toNat],
            output_filesize_ := (st.output_filesize_ + 1) % kCodeTypeMod } := by
        rw [packCode]; simp only [h8, if_true, hval]
      rw [hstep]
      have hcnt2 : PackState.Counted base
          { output_byte := 0, cnt := 0,
            written := st.written ++ [2 * st.output_byte + (new_code.testBit (n % 64)).toNat],
            output_filesize_ := (st.output_filesize_ + 1) % kCodeTypeMod } := by
        unfold PackState.Counted at hcnt ⊢
        simp only [List.length_append, List.length_singleton, Nat.mod_mod]
        rw [Nat.add_mod, hcnt, ← Nat.add_mod, Nat.add_assoc]
      obtain ⟨i1, i2, i3, i4⟩ := ih _ (show PackState.Sound _ from ⟨by simp, by simp⟩) hcnt2
      refine ⟨i1, i2, ?_, ?_⟩
      · rw [i3, registerBits_succ new_code n]
        have hc7 : st.cnt = 7 := by omega
        simp only [PackState.bits, List.flatMap_append, List.flatMap_singleton, byteBits]
        rw [show (8 : Nat) = 7 + 1 from rfl, codeBits_shift_in, hc7]
        simp [codeBits]
      · rw [i4]; simp; omega
    · have hstep : packCode new_code (n + 1) st = packCode new_code n
          { st with output_byte := 2 * st.output_byte + (new_code.testBit (n % 64)).toNat,
                    cnt := st.cnt + 1 } := by
        rw [packCode]; simp only [h8, if_false, hval]
      rw [hstep]
      have hs : PackState.Sound { st with
          output_byte := 2 * st.output_byte + (new_code.testBit (n % 64)).toNat,
          cnt := st.cnt + 1 } := by
        refine ⟨by simp; omega, ?_⟩
        simp only [pow_succ]
        omega
      obtain ⟨i1, i2, i3, i4⟩ := ih _ hs hcnt
      refine ⟨i1, i2, ?_, ?_⟩
      · rw [i3, registerBits_succ new_code n]
        simp only [PackState.bits, codeBits_shift_in]
        simp
      · rw [i4]; simp; omega

theorem packBytes_spec (points : Points) (base : Nat) :
    ∀ (input : List Byte) (st : PackState), st.Sound → st.Counted base →
      (packBytes points input st).Sound ∧
      (packBytes points input st).Counted base ∧
      (packBytes points input st).bits = st.bits ++
        input.flatMap (fun b => registerBits (points.get b).new_code (points.get b).length) ∧
      8 * (packBytes points input st).written.length + (packBytes points input st).cnt =
        8 * st.written.length + st.cnt + codeLengthSum points input := by
  intro input
  induction input with
  | nil => intro st h hc; simp [packBytes, h, hc, codeLengthSum]
  | cons b rest ih =>
    intro st h hc
    obtain ⟨p1, p2, p3, p4⟩ := packCode_spec (points.get b).new_code base
      (points.get b).length st h hc
    obtain ⟨i1, i2, i3, i4⟩ := ih _ p1 p2
    refine ⟨i1, i2, ?_, ?_⟩
    · simp only [packBytes]; rw [i3, p3]; simp
    · simp only [packBytes]; rw [i4, p4]
      simp [codeLengthSum]; omega

end

section

open HuffmanTreeNode

/-- The symbol at the end of a path of a tree is one of its leaves. -/
theorem mem_leaves_of_descend {t : HuffmanTreeNode} (ht : t.isTree = true) {s : Byte}
    {p : List Bool} (hp : (descend t p).point = some s) : s ∈ t.leaves := by
  induction p generalizing t with
  | nil =>
    cases t with
    | nullptr => simp [isTree] at ht
    | mk w pt l r =>
      simp only [descend, HuffmanTreeNode.point] at hp
      subst hp
      simp [leaves]
  | cons turn p ih =>
    cases t with
    | nullptr => simp [isTree] at ht
    | mk w pt l r =>
      cases pt with
      | some s2 =>
        rw [descend_leaf ht rfl (List.cons_ne_nil _ _)] at hp
        simp [HuffmanTreeNode.point] at hp
      | none =>
        simp only [isTree, Bool.and_eq_true] at ht
        cases turn
        · exact List.mem_append_left _ (ih ht.1 hp)
        · exact List.mem_append_right _ (ih ht.2 hp)

/-- In a tree whose leaves carry distinct symbols, a symbol has one path. -/
theorem path_unique {t : HuffmanTreeNode} (ht : t.isTree = true) (hnd : t.leaves.Nodup)
    {s : Byte} {p q : List Bool} (hp : (descend t p).point = some s)
    (hq : (descend t q).point = some s) : p = q := by
  induction p generalizing t q with
  | nil =>
    exact initial_path_eq ht hp hq (List.nil_prefix)
  | cons turn p ih =>
    cases q with
    | nil => exact (initial_path_eq ht hq hp (List.nil_prefix)).symm
    | cons turn2 q =>
      cases t with
      | nullptr => simp [isTree] at ht
      | mk w pt l r =>
        cases pt with
        | some s2 =>
          rw [descend_leaf ht rfl (List.cons_ne_nil _ _)] at hp
          simp [HuffmanTreeNode.point] at hp
        | none =>
          simp only [isTree, Bool.and_eq_true] at ht
          simp only [leaves] at hnd
          have hndl := (List.nodup_append.1 hnd).1
          have hndr := (List.nodup_append.1 hnd).2.1
          have hdisj := (List.nodup_append.1 hnd).2.2
          cases turn <;> cases turn2
          · rw [ih ht.1 hndl hp hq]
          · exact absurd (mem_leaves_of_descend ht.2 hq)
              (fun h => hdisj (mem_leaves_of_descend ht.1 hp) h)
          · exact absurd (mem_leaves_of_descend ht.2 hp)
              (fun h => hdisj (mem_leaves_of_descend ht.1 hq) h)
          · rw [ih ht.2 hndr hp hq]

end

section

namespace WTree

theorem card_leaves_pos (U : WTree) : 0 < Multiset.card U.leaves := by
  induction U with
  | leaf w => simp [leaves]
  | node l r ihl _ => simp [leaves]; omega

theorem height_eq_zero {U : WTree} (h : U.height = 0) : ∃ w, U = leaf w := by
  cases U with
  | leaf w => exact ⟨w, rfl⟩
  | node l r => simp [height] at h

/-- An element of a sum of two multisets comes from one of them. -/
theorem split_cons {s t M : Multiset Nat} {a : Nat} (h : s + t = a ::ₘ M) :
    (∃ s2, s = a ::ₘ s2 ∧ M = s2 + t) ∨ (∃ t2, t = a ::ₘ t2 ∧ M = s + t2) := by
  have ha : a ∈ s + t := by rw [h]; exact Multiset.mem_cons_self a M
  rcases Multiset.mem_add.1 ha with hs | ht
  · left
    obtain ⟨s2, rfl⟩ := Multiset.exists_cons_of_mem hs
    refine ⟨s2, rfl, ?_⟩
    rw [Multiset.cons_add] at h
    exact ((Multiset.cons_inj_right a).1 h).symm
  · right
    obtain ⟨t2, rfl⟩ := Multiset.exists_cons_of_mem ht
    refine ⟨t2, rfl, ?_⟩
    rw [Multiset.add_cons] at h
    exact ((Multiset.cons_inj_right a).1 h).symm

theorem singleton_eq_cons {w a : Nat} {M : Multiset Nat} (h : ({w} : Multiset Nat) = a ::ₘ M) :
    w = a ∧ M = 0 := by
  have hc : Multiset.card ({w} : Multiset Nat) = Multiset.card (a ::ₘ M) := by rw [h]
  rw [Multiset.card_singleton, Multiset.card_cons] at hc
  have hM : M = 0 := Multiset.card_eq_zero.1 (by omega)
  subst hM
  have : a ∈ ({w} : Multiset Nat) := by rw [h]; simp
  exact ⟨(Multiset.mem_singleton.1 this).symm, rfl⟩

/-- A leaf of weight `b` can be made heavier by `δ`: the cost grows by at most `δ` per
level. -/
theorem raise_leaf (U : WTree) (δ : Nat) :
    ∀ (b : Nat) (M : Multiset Nat), U.leaves = b ::ₘ M →
    ∃ V : WTree, V.leaves = (b + δ) ::ₘ M ∧ V.weight = U.weight + δ ∧
      V.cost ≤ U.cost + δ * U.height := by
  induction U with
  | leaf w =>
    intro b M h
    obtain ⟨rfl, rfl⟩ := singleton_eq_cons h
    exact ⟨leaf (w + δ), by simp [leaves], by simp [weight], by simp [cost]⟩
  | node l r ihl ihr =>
    intro b M h
    rcases split_cons h with ⟨s2, hs, hM⟩ | ⟨t2, ht, hM⟩
    · obtain ⟨V, h1, h2, h3⟩ := ihl b s2 hs
      refine ⟨node V r, ?_, ?_, ?_⟩
      · simp only [leaves, h1, hM, Multiset.cons_add]
      · simp only [weight, h2]; omega
      · simp only [cost, weight, height, h2]
        have : δ * l.height ≤ δ * max l.height r.height :=
          Nat.mul_le_mul_left _ (le_max_left _ _)
        rw [Nat.mul_add]
        omega
    · obtain ⟨V, h1, h2, h3⟩ := ihr b t2 ht
      refine ⟨node l V, ?_, ?_, ?_⟩
      · simp only [leaves, h1, hM, Multiset.add_cons]
      · simp only [weight, h2]; omega
      · simp only [cost, weight, height, h2]
        have : δ * r.height ≤ δ * max l.height r.height :=
          Nat.mul_le_mul_left _ (le_max_right _ _)
        rw [Nat.mul_add]
        omega

/-- In a tree with more than one leaf, a deepest leaf other than a given leaf `a` can be
made lighter: the cost falls by the difference at every level. -/
theorem lower_deepest (U : WTree) (hU : 0 < U.height) :
    ∀ (a : Nat) (M : Multiset Nat), U.leaves = a ::ₘ M →
    ∃ (e : Nat) (M2 : Multiset Nat), M = e ::ₘ M2 ∧ ∀ b δ : Nat, e = b + δ →
      ∃ V : WTree, V.leaves = a ::ₘ b ::ₘ M2 ∧ V.weight + δ = U.weight ∧
        V.cost + δ * U.height = U.cost := by
  induction U with
  | leaf w => simp [height] at hU
  | node l r ihl ihr =>
    intro a M h
    simp only [leaves] at h
    by_cases hlr : r.height ≤ l.height
    · by_cases hl0 : l.height = 0
      · obtain ⟨x, rfl⟩ := height_eq_zero hl0
        obtain ⟨y, rfl⟩ := height_eq_zero (by omega : r.height = 0)
        simp only [leaves] at h
        rcases split_cons h with ⟨s2, hs, hM⟩ | ⟨t2, ht, hM⟩
        · obtain ⟨rfl, rfl⟩ := singleton_eq_cons hs
          refine ⟨y, 0, by simp [hM], ?_⟩
          intro b δ hy
          refine ⟨node (leaf x) (leaf b), by simp [leaves], ?_, ?_⟩
          · simp [weight]; omega
          · simp [cost, weight, height]; omega
        · obtain ⟨rfl, rfl⟩ := singleton_eq_cons ht
          refine ⟨x, 0, by simp [hM], ?_⟩
          intro b δ hx
          refine ⟨node (leaf b) (leaf y), ?_, ?_, ?_⟩
          · simp only [leaves, Multiset.singleton_add]
            exact Multiset.cons_swap _ _ _
          · simp [weight]; omega
          · simp [cost, weight, height]; omega
      · have hlpos : 0 < l.height := Nat.pos_of_ne_zero hl0
        rcases split_cons h with ⟨s2, hs, hM⟩ | ⟨t2, ht, hM⟩
        · obtain ⟨e, M2, hM2, hrep⟩ := ihl hlpos a s2 hs
          refine ⟨e, M2 + r.leaves, by simp [hM, hM2], ?_⟩
          intro b δ heb
          obtain ⟨V, h1, h2, h3⟩ := hrep b δ heb
          refine ⟨node V r, by simp [leaves, h1], ?_, ?_⟩
          · simp only [weight]; omega
          · simp only [cost, weight, height, max_eq_left hlr]
            rw [Nat.mul_add]
            omega
        · obtain ⟨a2, s2, hs⟩ : ∃ a2 s2, l.leaves = a2 ::ₘ s2 := by
            obtain ⟨a2, ha2⟩ := Multiset.card_pos_iff_exists_mem.1 (card_leaves_pos l)
            obtain ⟨s2, hs2⟩ := Multiset.exists_cons_of_mem ha2
            exact ⟨a2, s2, hs2⟩
          obtain ⟨e, M2, hM2, hrep⟩ := ihl hlpos a2 s2 hs
          refine ⟨e, a2 ::ₘ M2 + t2, ?_, ?_⟩
          · rw [hM, hs, hM2]
            simp only [Multiset.cons_add]
            exact Multiset.cons_swap _ _ _
          intro b δ heb
          obtain ⟨V, h1, h2, h3⟩ := hrep b δ heb
          refine ⟨node V r, ?_, ?_, ?_⟩
          · simp only [leaves, h1, ht, ← Multiset.singleton_add]
            abel
          · simp only [weight]; omega
          · simp only [cost, weight, height, max_eq_left hlr]
            rw [Nat.mul_add]
            omega
    · have hrl : l.height < r.height := Nat.lt_of_not_le hlr
      have hrpos : 0 < r.height := by omega
      rcases split_cons h with ⟨s2, hs, hM⟩ | ⟨t2, ht, hM⟩
      · obtain ⟨a2, t2, ht⟩ : ∃ a2 t2, r.leaves = a2 ::ₘ t2 := by
          obtain ⟨a2, ha2⟩ := Multiset.card_pos_iff_exists_mem.1 (card_leaves_pos r)
          obtain ⟨t2, ht2⟩ := Multiset.exists_cons_of_mem ha2
          exact ⟨a2, t2, ht2⟩
        obtain ⟨e, M2, hM2, hrep⟩ := ihr hrpos a2 t2 ht
        refine ⟨e, s2 + a2 ::ₘ M2, ?_, ?_⟩
        · rw [hM, ht, hM2]
          simp only [Multiset.add_cons]
          exact Multiset.cons_swap _ _ _
        intro b δ heb
        obtain ⟨V, h1, h2, h3⟩ := hrep b δ heb
        refine ⟨node l V, ?_, ?_, ?_⟩
        · simp only [leaves, h1, hs, ← Multiset.singleton_add]
          abel
        · simp only [weight]; omega
        · simp only [cost, weight, height, max_eq_right (le_of_lt hrl)]
          rw [Nat.mul_add]
          omega
      · obtain ⟨e, M2, hM2, hrep⟩ := ihr hrpos a t2 ht
        refine ⟨e, l.leaves + M2, by simp [hM, hM2], ?_⟩
        intro b δ heb
        obtain ⟨V, h1, h2, h3⟩ := hrep b δ heb
        refine ⟨node l V, ?_, ?_, ?_⟩
        · simp only [leaves, h1, Multiset.add_cons]
        · simp only [weight]; omega
        · simp only [cost, weight, height, max_eq_right (le_of_lt hrl)]
          rw [Nat.mul_add]
          omega

end WTree

end

section

namespace WTree

/-- The exchange step across two subtrees, the first at least as high as the second: the
least weight `p` is in the first and the least weight `q` in the second. -/
theorem exchange_cross (X Y : WTree) (hXY : Y.height ≤ X.height) (p q : Nat)
    (s t : Multiset Nat) (hX : X.leaves = p ::ₘ s) (hY : Y.leaves = q ::ₘ t)
    (hs : ∀ x ∈ s, p ≤ x ∧ q ≤ x)
    (ih : ExchangeBelow (Multiset.card X.leaves + Multiset.card Y.leaves)) :
    ∃ W : WTree, W.leaves = (p + q) ::ₘ (s + t) ∧
      W.cost + p + q ≤ X.cost + Y.cost + X.weight + Y.weight ∧
      W.weight = X.weight + Y.weight := by
  by_cases hX0 : X.height = 0
  · obtain ⟨x, rfl⟩ := height_eq_zero hX0
    obtain ⟨y, rfl⟩ := height_eq_zero (by omega : Y.height = 0)
    obtain ⟨rfl, rfl⟩ := singleton_eq_cons hX
    obtain ⟨rfl, rfl⟩ := singleton_eq_cons hY
    exact ⟨leaf (x + y), by simp [leaves], by simp [cost, weight], by simp [weight]⟩
  · obtain ⟨e, s2, hs2, hrep⟩ := lower_deepest X (Nat.pos_of_ne_zero hX0) p s hX
    have heq : q ≤ e := (hs e (by rw [hs2]; exact Multiset.mem_cons_self e s2)).2
    obtain ⟨X2, hX2, hwX2, hcX2⟩ := hrep q (e - q) (by omega)
    obtain ⟨Y2, hY2, hwY2, hcY2⟩ := raise_leaf Y (e - q) q t hY
    have hcard : Multiset.card X2.leaves < Multiset.card X.leaves + Multiset.card Y.leaves := by
      have : Multiset.card X2.leaves = Multiset.card X.leaves := by
        rw [hX2, hX, hs2]; simp
      have := card_leaves_pos Y
      omega
    obtain ⟨X3, hX3, hcX3, hwX3⟩ := ih X2 p q s2 hcard hX2
      (fun x hx => hs x (by rw [hs2]; exact Multiset.mem_cons_of_mem hx))
    refine ⟨node X3 Y2, ?_, ?_, ?_⟩
    · simp only [leaves, hX3, hY2, hs2, ← Multiset.singleton_add]
      rw [show q + (e - q) = e by omega]
      abel
    · simp only [cost, weight]
      have hmul : (e - q) * Y.height ≤ (e - q) * X.height := Nat.mul_le_mul_left _ hXY
      omega
    · simp only [weight]; omega

/-- The exchange step: in a tree whose two least leaf weights are `a` and `b`, there is a
tree on the other weights and `a + b` that costs at least `a + b` less. -/
theorem exchange_step : ∀ N : Nat, ExchangeBelow N := by
  intro N
  induction N using Nat.strong_induction_on with
  | _ N IH =>
    intro U a b M hcard hU hmin
    have ih : ExchangeBelow (Multiset.card U.leaves) :=
      fun U2 a2 b2 M2 hc => IH (Multiset.card U.leaves) hcard U2 a2 b2 M2
        (by have := hc; omega)
    cases U with
    | leaf w =>
      have hc : Multiset.card (leaf w).leaves = Multiset.card (a ::ₘ b ::ₘ M) := by rw [hU]
      simp [leaves] at hc
    | node l r =>
      simp only [leaves] at hU ih
      have hl := card_leaves_pos l
      have hr := card_leaves_pos r
      rcases split_cons hU with ⟨s2, hs, hM⟩ | ⟨t2, ht, hM⟩
      · rcases split_cons hM.symm with ⟨s3, hs3, hM3⟩ | ⟨t3, ht3, hM3⟩
        · -- both in the left subtree
          obtain ⟨V, h1, h2, h3⟩ := ih l a b s3 (by simp; omega) (by rw [hs, hs3])
            (fun x hx => hmin x (by rw [hM3]; exact Multiset.mem_add.2 (Or.inl hx)))
          refine ⟨node V r, ?_, ?_, ?_⟩
          · simp only [leaves, h1, hM3, Multiset.cons_add]
          · simp only [cost, weight]; omega
          · simp only [weight, h3]
        · -- a on the left, b on the right
          have hmin2 : ∀ x ∈ s2 + t3, a ≤ x ∧ b ≤ x := fun x hx => hmin x (by rw [hM3]; exact hx)
          by_cases hh : r.height ≤ l.height
          · obtain ⟨W, h1, h2, h3⟩ := exchange_cross l r hh a b s2 t3 hs ht3
              (fun x hx => hmin2 x (Multiset.mem_add.2 (Or.inl hx))) (by simpa using ih)
            exact ⟨W, by rw [h1, hM3], by simpa [cost] using h2, by simpa [weight] using h3⟩
          · obtain ⟨W, h1, h2, h3⟩ := exchange_cross r l (by omega) b a t3 s2 ht3 hs
              (fun x hx => (hmin2 x (Multiset.mem_add.2 (Or.inr hx))).symm)
              (by simpa [add_comm] using ih)
            refine ⟨W, ?_, ?_, ?_⟩
            · rw [h1, hM3, add_comm b a, add_comm t3 s2]
            · simp only [cost]; omega
            · simp only [weight]; omega
      · rcases split_cons hM.symm with ⟨s3, hs3, hM3⟩ | ⟨t3, ht3, hM3⟩
        · -- a on the right, b on the left
          have hmin2 : ∀ x ∈ s3 + t2, a ≤ x ∧ b ≤ x := fun x hx => hmin x (by rw [hM3]; exact hx)
          by_cases hh : r.height ≤ l.height
          · obtain ⟨W, h1, h2, h3⟩ := exchange_cross l r hh b a s3 t2 hs3 ht
              (fun x hx => (hmin2 x (Multiset.mem_add.2 (Or.inl hx))).symm) (by simpa using ih)
            refine ⟨W, ?_, ?_, ?_⟩
            · rw [h1, hM3, add_comm b a]
            · simp only [cost]; omega
            · simp only [weight]; omega
          · obtain ⟨W, h1, h2, h3⟩ := exchange_cross r l (by omega) a b t2 s3 ht hs3
              (fun x hx => hmin2 x (Multiset.mem_add.2 (Or.inr hx)))
              (by simpa [add_comm] using ih)
            refine ⟨W, ?_, ?_, ?_⟩
            · rw [h1, hM3, add_comm t2 s3]
            · simp only [cost]; omega
            · simp only [weight]; omega
        · -- both in the right subtree
          obtain ⟨V, h1, h2, h3⟩ := ih r a b t3 (by simp; omega) (by rw [ht, ht3])
            (fun x hx => hmin x (by rw [hM3]; exact Multiset.mem_add.2 (Or.inr hx)))
          refine ⟨node l V, ?_, ?_, ?_⟩
          · simp only [leaves, h1, hM3, Multiset.add_cons]
          · simp only [cost, weight]; omega
          · simp only [weight, h3]

end WTree

end

section

open HuffmanTreeNode

theorem weightedDepth_shift (freq : Byte → Nat) (t : HuffmanTreeNode) (d : Nat) :
    t.weightedDepth freq d = t.weightedDepth freq 0 + d * t.leafWeight freq := by
  induction t generalizing d with
  | nullptr => simp [weightedDepth, leafWeight]
  | mk w p l r ihl ihr =>
    cases p with
    | some p => simp [weightedDepth, leafWeight, Nat.mul_comm]
    | none =>
      simp only [weightedDepth, leafWeight]
      rw [ihl (d + 1), ihr (d + 1), ihl 1, ihr 1]
      ring

theorem cost_toWTree (freq : Byte → Nat) (t : HuffmanTreeNode) :
    (t.toWTree freq).cost = t.weightedDepth freq 0 ∧
    (t.toWTree freq).weight = t.leafWeight freq := by
  induction t with
  | nullptr => simp [toWTree, WTree.cost, WTree.weight, weightedDepth, leafWeight]
  | mk w p l r ihl ihr =>
    cases p with
    | some p => simp [toWTree, WTree.cost, WTree.weight, weightedDepth, leafWeight]
    | none =>
      simp only [toWTree, WTree.cost, WTree.weight, weightedDepth, leafWeight]
      rw [ihl.1, ihl.2, ihr.1, ihr.2, weightedDepth_shift freq l 1, weightedDepth_shift freq r 1]
      constructor
      · ring
      · trivial

theorem leaves_toWTree (freq : Byte → Nat) {t : HuffmanTreeNode} (ht : t.isTree = true) :
    (t.toWTree freq).leaves = ((t.leaves.map freq : List Nat) : Multiset Nat) := by
  induction t with
  | nullptr => simp [isTree] at ht
  | mk w p l r ihl ihr =>
    cases p with
    | some p => simp [toWTree, WTree.leaves, leaves]
    | none =>
      simp only [isTree, Bool.and_eq_true] at ht
      simp only [toWTree, WTree.leaves, leaves, ihl ht.1, ihr ht.2, List.map_append]
      rfl

theorem weightedDepth_mergeNode (freq : Byte → Nat) (a b : HuffmanTreeNode) :
    (mergeNode a b).weightedDepth freq 0 =
      a.weightedDepth freq 0 + b.weightedDepth freq 0 + a.leafWeight freq + b.leafWeight freq := by
  simp only [mergeNode, weightedDepth]
  rw [weightedDepth_shift freq a 1, weightedDepth_shift freq b 1]
  ring

theorem leafWeight_mergeNode (freq : Byte → Nat) (a b : HuffmanTreeNode) :
    (mergeNode a b).leafWeight freq = a.leafWeight freq + b.leafWeight freq := rfl

/-- The greedy merges are optimal: the weighted depth of the result is at most the weighted
depths of the nodes merged plus the cost of any tree over their weights. -/
theorem Merges.optimal (freq : Byte → Nat) {F : List HuffmanTreeNode} {root : HuffmanTreeNode}
    (h : Merges F root) :
    (∀ t ∈ F, t.isTree = true ∧ t.weight = t.leafWeight freq) →
    (F.map (leafWeight freq)).sum < kCodeTypeMod →
    ∀ U : WTree, U.leaves = ((F.map HuffmanTreeNode.weight : List Nat) : Multiset Nat) →
      root.weightedDepth freq 0 ≤ (F.map fun t => t.weightedDepth freq 0).sum + U.cost := by
  induction h with
  | @last F a b hp hab =>
    intro hF hsum U hU
    have hUl : U.leaves = a.weight ::ₘ b.weight ::ₘ 0 := by
      rw [hU, Multiset.coe_eq_coe.2 (hp.map _)]; rfl
    obtain ⟨V, -, hV, -⟩ := WTree.exchange_step (Multiset.card U.leaves + 1) U a.weight b.weight 0
      (by omega) hUl (by simp)
    have ha := (hF a (hp.symm.subset (by simp))).2
    have hb := (hF b (hp.symm.subset (by simp))).2
    rw [(hp.map _).sum_eq, weightedDepth_mergeNode]
    simp only [List.map_cons, List.map_nil, List.sum_cons, List.sum_nil]
    omega
  | @step F rest a b root hp hne hmina hminb hm ih =>
    intro hF hsum U hU
    have hUl : U.leaves = a.weight ::ₘ b.weight ::ₘ
        ((rest.map HuffmanTreeNode.weight : List Nat) : Multiset Nat) := by
      rw [hU, Multiset.coe_eq_coe.2 (hp.map _)]; rfl
    have hmin : ∀ x ∈ ((rest.map HuffmanTreeNode.weight : List Nat) : Multiset Nat),
        a.weight ≤ x ∧ b.weight ≤ x := by
      intro x hx
      obtain ⟨y, hy, rfl⟩ := List.mem_map.1 (Multiset.mem_coe.1 hx)
      exact ⟨hmina y (List.mem_cons_of_mem _ hy), hminb y hy⟩
    obtain ⟨V, hVl, hV, -⟩ := WTree.exchange_step (Multiset.card U.leaves + 1) U a.weight
      b.weight _ (by omega) hUl hmin
    have ha := hF a (hp.symm.subset (by simp))
    have hb := hF b (hp.symm.subset (by simp))
    have hsum2 : ((a :: b :: rest).map (leafWeight freq)).sum < kCodeTypeMod := by
      rw [← (hp.map _).sum_eq]; exact hsum
    simp only [List.map_cons, List.sum_cons] at hsum2
    have hw : (mergeNode a b).weight = a.weight + b.weight := by
      rw [weight_mergeNode, Nat.mod_eq_of_lt]
      rw [ha.2, hb.2]; omega
    have hF2 : ∀ t ∈ mergeNode a b :: rest,
        t.isTree = true ∧ t.weight = t.leafWeight freq := by
      intro t ht
      rcases List.mem_cons.1 ht with rfl | ht
      · refine ⟨by simp [isTree_mergeNode, ha.1, hb.1], ?_⟩
        rw [hw, leafWeight_mergeNode, ha.2, hb.2]
      · exact hF t (hp.symm.subset (by simp [ht]))
    have hsum3 : ((mergeNode a b :: rest).map (leafWeight freq)).sum < kCodeTypeMod := by
      simp only [List.map_cons, List.sum_cons, leafWeight_mergeNode]
      omega
    have hVl2 : V.leaves =
        (((mergeNode a b :: rest).map HuffmanTreeNode.weight : List Nat) : Multiset Nat) := by
      rw [hVl, List.map_cons, hw]; rfl
    have key := ih hF2 hsum3 V hVl2
    rw [(hp.map _).sum_eq]
    simp only [List.map_cons, List.sum_cons, weightedDepth_mergeNode] at key ⊢
    omega

end

section

open HuffmanTreeNode

/-- The function `initCodePoint` leaves the frequencies alone. -/
theorem initCodePoint_frequency (t : HuffmanTreeNode) :
    ∀ (c : Nat) (str : String) (len : Nat) (pts : Points) (s : Byte),
      ((initCodePoint t c str len pts).get s).frequency = (pts.get s).frequency := by
  induction t with
  | nullptr => intro c str len pts s; rfl
  | mk w p l r ihl ihr =>
    intro c str len pts s
    cases p with
    | some p =>
      simp only [initCodePoint, Mathlib.Vector.get_set_eq_if]
      split_ifs with h
      · subst h; rfl
      · rfl
    | none =>
      simp only [initCodePoint]
      split_ifs <;> simp [ihl, ihr]

theorem frequencyOf_initCodePoint (t : HuffmanTreeNode) (c : Nat) (str : String) (len : Nat)
    (pts : Points) : frequencyOf (initCodePoint t c str len pts) = frequencyOf pts := by
  funext s
  exact initCodePoint_frequency t c str len pts s

/-- The lengths `initCodePoint` stores are the depths of the leaves: summed with the
frequencies over the leaves of the tree they give its weighted depth. -/
theorem initCodePoint_weightedDepth :
    ∀ (t : HuffmanTreeNode), t.isTree = true → t.leaves.Nodup →
    ∀ (c : Nat) (str : String) (len : Nat) (pts : Points),
      (t.leaves.map fun s => ((initCodePoint t c str len pts).get s).frequency *
        ((initCodePoint t c str len pts).get s).length).sum =
      t.weightedDepth (frequencyOf pts) len := by
  intro t
  induction t with
  | nullptr => intro h; simp [isTree] at h
  | mk w p l r ihl ihr =>
    intro ht hnd c str len pts
    cases p with
    | some p =>
      simp [leaves, initCodePoint, weightedDepth, frequencyOf, Mathlib.Vector.get_set_same]
    | none =>
      simp only [isTree, Bool.and_eq_true] at ht
      obtain ⟨hl, hr⟩ := ht
      simp only [leaves] at hnd
      have hndl : l.leaves.Nodup := (List.nodup_append.1 hnd).1
      have hndr : r.leaves.Nodup := (List.nodup_append.1 hnd).2.1
      have hdisj := (List.nodup_append.1 hnd).2.2
      have hinit : initCodePoint (mk w none l r) c str len pts =
          initCodePoint r (((c <<< 1) % kCodeTypeMod + 1) % kCodeTypeMod) (str ++ "1") (len + 1)
            (initCodePoint l ((c <<< 1) % kCodeTypeMod) (str ++ "0") (len + 1) pts) := by
        simp [initCodePoint, isNull_of_isTree hl, isNull_of_isTree hr]
      rw [hinit]
      simp only [leaves, List.map_append, List.sum_append, weightedDepth]
      congr 1
      · rw [← ihl hl hndl ((c <<< 1) % kCodeTypeMod) (str ++ "0") (len + 1) pts]
        congr 1
        apply List.map_congr_left
        intro s hs
        have hsr : s ∉ r.leaves := fun h => hdisj hs h
        rw [(initCodePoint_spec r hr hndr _ _ _ _).1 s hsr]
      · rw [ihr hr hndr, frequencyOf_initCodePoint]

/-- The weighted length of the codes assigned to a tree with one leaf per symbol is the
weighted depth of the tree. -/
theorem weightedLength_initCodePoint {root : HuffmanTreeNode} (ht : root.isTree = true)
    (hl : root.leaves.Perm (List.finRange 256)) (points : Points) :
    weightedLength (initCodePoint root 0 "" 0 points) =
      root.weightedDepth (frequencyOf points) 0 := by
  have hnd : root.leaves.Nodup := hl.nodup_iff.2 (List.nodup_finRange 256)
  rw [← initCodePoint_weightedDepth root ht hnd 0 "" 0 points]
  exact ((hl.map _).sum_eq).symm

theorem sum_leafWeight_leafNode (points : Points) (l : List Byte) :
    ((l.map (leafNode points)).map (leafWeight (frequencyOf points))).sum =
      (l.map (frequencyOf points)).sum := by
  induction l with
  | nil => rfl
  | cons i rest ih =>
    simp only [List.map_cons, List.sum_cons, ih]
    rfl

theorem sum_weightedDepth_leafNode (points : Points) (l : List Byte) :
    ((l.map (leafNode points)).map fun t => t.weightedDepth (frequencyOf points) 0).sum = 0 := by
  induction l with
  | nil => rfl
  | cons i rest ih =>
    simp only [List.map_cons, List.sum_cons, ih]
    simp [leafNode, weightedDepth]

theorem map_weight_leafNode (points : Points) (l : List Byte) :
    (l.map (leafNode points)).map HuffmanTreeNode.weight = l.map (frequencyOf points) := by
  induction l with
  | nil => rfl
  | cons i rest ih =>
    simp only [List.map_cons, ih]
    rfl

/-- The tree of `buildHuffmanTree` has the least weighted depth among the trees with one
leaf per symbol, when the frequencies sum to less than `2^64`. -/
theorem buildHuffmanTree_optimal (pq : PriorityQueue) (h : pq.Lawful) (points : Points)
    (hsum : ((List.finRange 256).map (frequencyOf points)).sum < 2 ^ 64) :
    ∃ root, (∀ fuel, 255 ≤ fuel → buildHuffmanTree pq points fuel = .ok root) ∧
      ∀ t : HuffmanTreeNode, t.isTree = true → t.leaves.Perm (List.finRange 256) →
        weightedLength (initCodePoint root 0 "" 0 points) ≤
          t.weightedDepth (frequencyOf points) 0 := by
  obtain ⟨-, root, hroot, hm, htree, -, hleaves, -⟩ := buildHuffmanTree_shape pq h points
  refine ⟨root, hroot, ?_⟩
  intro t ht hlt
  rw [weightedLength_initCodePoint htree hleaves]
  have hF : ∀ u ∈ (List.finRange 256).map (leafNode points),
      u.isTree = true ∧ u.weight = u.leafWeight (frequencyOf points) := by
    intro u hu
    obtain ⟨i, -, rfl⟩ := List.mem_map.1 hu
    exact ⟨rfl, rfl⟩
  have hs : (((List.finRange 256).map (leafNode points)).map
      (leafWeight (frequencyOf points))).sum < kCodeTypeMod := by
    rw [sum_leafWeight_leafNode]; exact hsum
  have hU : (t.toWTree (frequencyOf points)).leaves =
      ((((List.finRange 256).map (leafNode points)).map HuffmanTreeNode.weight : List Nat) :
        Multiset Nat) := by
    rw [leaves_toWTree _ ht, map_weight_leafNode]
    exact Multiset.coe_eq_coe.2 (hlt.map _)
  have key := hm.optimal (frequencyOf points) hF hs (t.toWTree (frequencyOf points)) hU
  rw [sum_weightedDepth_leafNode, (cost_toWTree _ t).1] at key
  omega

end

section

theorem getD_set (first : List HuffmanTreeNode) (i j : Nat) (x : HuffmanTreeNode) :
    (first.set i x).getD j .nullptr =
      if i = j ∧ j < first.length then x else first.getD j .nullptr := by
  simp only [List.getD_eq_getElem?_getD, List.getElem?_set]
  by_cases h : i = j
  · subst h
    by_cases h2 : i < first.length
    · simp [h2]
    · simp [h2, List.getElem?_eq_none (Nat.le_of_not_lt h2)]
  · simp [h]

theorem weightAt_set (first : List HuffmanTreeNode) (i j : Nat) (x : HuffmanTreeNode) :
    weightAt (first.set i x) j =
      if i = j ∧ j < first.length then x.weight else weightAt first j := by
  unfold weightAt
  rw [getD_set]
  split_ifs <;> rfl

theorem getD_eq_getElem (first : List HuffmanTreeNode) (i : Nat) (h : i < first.length) :
    first.getD i .nullptr = first[i] := by
  simp [List.getD_eq_getElem?_getD, List.getElem?_eq_getElem h]

theorem set_getD_self (B : List HuffmanTreeNode) (i : Nat) :
    B.set i (B.getD i .nullptr) = B := by
  apply List.ext_getElem?
  intro n
  rw [List.getElem?_set]
  by_cases h : i = n
  · subst h
    by_cases h2 : i < B.length
    · simp [h2, List.getD_eq_getElem?_getD, List.getElem?_eq_getElem h2]
    · simp [h2, List.getElem?_eq_none (Nat.le_of_not_lt h2)]
  · simp [h]

theorem mem_of_getD (B : List HuffmanTreeNode) (i : Nat) (hi : i < B.length) :
    B.getD i .nullptr ∈ B := by
  rw [getD_eq_getElem B i hi]
  exact List.getElem_mem hi

/-- Storing an element in a vector changes the count of a node by the node stored and the
node overwritten. -/
theorem count_set_add (B : List HuffmanTreeNode) (i : Nat) (hi : i < B.length)
    (x b : HuffmanTreeNode) :
    (B.set i x).count b + (if B.getD i .nullptr = b then 1 else 0) =
      B.count b + (if x = b then 1 else 0) := by
  have e := List.count_set x b B i hi
  rw [getD_eq_getElem B i hi]
  have c1 : B[i] = b → 0 < B.count b := by
    intro hb
    rw [← hb]
    exact List.count_pos_iff.2 (List.getElem_mem hi)
  by_cases h1 : B[i] = b
  · have := c1 h1
    by_cases h2 : x = b
    · simp only [h1, h2, beq_self_eq_true, if_true] at e ⊢
      omega
    · have h2b : (x == b) = false := by simpa using h2
      simp only [h1, h2, h2b, beq_self_eq_true, if_true, if_false, Bool.false_eq_true] at e ⊢
      omega
  · have h1b : (B[i] == b) = false := by simpa using h1
    by_cases h2 : x = b
    · simp only [h1, h2, h1b, beq_self_eq_true, if_true, if_false, Bool.false_eq_true] at e ⊢
      omega
    · have h2b : (x == b) = false := by simpa using h2
      simp only [h1, h2, h1b, h2b, if_false, Bool.false_eq_true] at e ⊢
      omega

/-- Writing two elements of a vector into each other's places permutes it. -/
theorem swap_perm (B : List HuffmanTreeNode) (i j : Nat) (hi : i < B.length)
    (hj : j < B.length) :
    ((B.set i (B.getD j .nullptr)).set j (B.getD i .nullptr)).Perm B := by
  by_cases hij : i = j
  · subst hij
    rw [List.set_set, set_getD_self]
  · rw [List.perm_iff_count]
    intro b
    have e1 := count_set_add (B.set i (B.getD j .nullptr)) j (by simpa using hj)
      (B.getD i .nullptr) b
    have e2 := count_set_add B i hi (B.getD j .nullptr) b
    rw [getD_set] at e1
    simp only [hij, false_and, if_false] at e1
    omega

end

section

theorem cmp_true_iff (x y : HuffmanTreeNode) :
    CmparatorOfHuffmanTreeNode x y = true ↔ y.weight < x.weight := by
  simp [CmparatorOfHuffmanTreeNode]

/-- The loop of `std::__push_heap` restores the heap order: started at a hole whose
children are not lighter than `value`, in a vector that is a heap around the hole, it gives
a heap that holds `value` in place of the hole's content. -/
theorem pushHeap_spec (len : Nat) (value : HuffmanTreeNode) :
    ∀ (fuel hole : Nat) (first : List HuffmanTreeNode),
      hole < fuel → hole < len → len ≤ first.length →
      HeapAround first len hole →
      (∀ i, 0 < i → i < len → (i - 1) / 2 = hole → value.weight ≤ weightAt first i) →
      HeapOn (pushHeap first 0 value fuel hole) len ∧
      (pushHeap first 0 value fuel hole).Perm (first.set hole value) ∧
      (∀ j, len ≤ j →
        (pushHeap first 0 value fuel hole).getD j .nullptr = first.getD j .nullptr) := by
  intro fuel
  induction fuel with
  | zero => intro hole first h; omega
  | succ f ih =>
    intro hole first hf hlen hlen2 hA hB
    obtain ⟨hAa, hAc⟩ := hA
    have hholelt : hole < first.length := by omega
    by_cases hc : hole > 0 ∧
        CmparatorOfHuffmanTreeNode (first.getD ((hole - 1) / 2) .nullptr) value = true
    · have hstep : pushHeap first 0 value (f + 1) hole =
          pushHeap (first.set hole (first.getD ((hole - 1) / 2) .nullptr)) 0 value f
            ((hole - 1) / 2) := by
        rw [pushHeap]; simp only [hc, and_self, if_true]
      obtain ⟨hpos, hcmp⟩ := hc
      have hlt : value.weight < weightAt first ((hole - 1) / 2) := (cmp_true_iff _ _).1 hcmp
      have hp : (hole - 1) / 2 < hole := by omega
      have hwt : ∀ j, weightAt (first.set hole (first.getD ((hole - 1) / 2) .nullptr)) j =
          if hole = j then weightAt first ((hole - 1) / 2) else weightAt first j := by
        intro j
        rw [weightAt_set]
        by_cases hj : hole = j
        · subst hj; simp [hholelt, weightAt]
        · simp [hj]
      have key := ih ((hole - 1) / 2) (first.set hole (first.getD ((hole - 1) / 2) .nullptr))
        (by omega) (by omega) (by simpa using hlen2) ?_ ?_
      · rw [hstep]
        obtain ⟨k1, k2, k3⟩ := key
        refine ⟨k1, k2.trans ?_, ?_⟩
        · have hsw := swap_perm (first.set hole value) hole ((hole - 1) / 2)
            (by simpa using hholelt) (by simp; omega)
          rw [getD_set, getD_set, List.set_set] at hsw
          have hne : ¬ (hole = (hole - 1) / 2) := by omega
          simp only [hne, false_and, if_false, true_and, hholelt, if_true] at hsw
          exact hsw
        · intro j hj
          rw [k3 j hj, getD_set]
          have : ¬ (hole = j) := by omega
          simp [this]
      · -- the vector is a heap around the new hole
        constructor
        · intro i hi0 hilen hine hipne
          rw [hwt, hwt]
          have hih : ¬ (hole = i) := by
            intro h; subst h; exact hipne rfl
          simp only [hih, if_false]
          by_cases hpi : hole = (i - 1) / 2
          · simp only [hpi, if_true]
            rw [← hpi]
            exact hAc i hi0 hilen hpi.symm hpos
          · simp only [hpi, if_false]
            exact hAa i hi0 hilen (fun h => hih h.symm) (fun h => hpi h.symm)
        · intro i hi0 hilen hip hp0
          rw [hwt, hwt]
          have h1 : ¬ (hole = ((hole - 1) / 2 - 1) / 2) := by omega
          simp only [h1, if_false]
          have hpp : weightAt first (((hole - 1) / 2 - 1) / 2) ≤ weightAt first ((hole - 1) / 2) :=
            hAa _ hp0 (by omega) (by omega) (by omega)
          by_cases hih : hole = i
          · simp only [hih, if_true]
            rw [← hih]; exact hpp
          · simp only [hih, if_false]
            have := hAa i hi0 hilen (fun h => hih h.symm) (by omega)
            rw [hip] at this
            omega
      · intro i hi0 hilen hip
        rw [hwt]
        by_cases hih : hole = i
        · simp only [hih, if_true]
          rw [← hih]; omega
        · simp only [hih, if_false]
          have := hAa i hi0 hilen (fun h => hih h.symm) (by omega)
          rw [hip] at this
          omega
    · have hstep : pushHeap first 0 value (f + 1) hole = first.set hole value := by
        rw [pushHeap]; simp only [hc, if_false]
      rw [hstep]
      refine ⟨?_, List.Perm.refl _, ?_⟩
      · intro i hi0 hilen
        rw [weightAt_set, weightAt_set]
        by_cases hih : hole = i
        · subst hih
          have hne : ¬ (hole = (hole - 1) / 2) := by omega
          simp only [hne, false_and, if_false, true_and, hholelt, if_true]
          have : ¬ CmparatorOfHuffmanTreeNode (first.getD ((hole - 1) / 2) .nullptr) value
              = true := fun h => hc ⟨hi0, h⟩
          rw [cmp_true_iff] at this
          unfold weightAt
          omega
        · simp only [hih, false_and, if_false]
          by_cases hpi : hole = (i - 1) / 2
          · have hl : (i - 1) / 2 < first.length := by omega
            simp only [hpi, true_and, hl, if_true]
            exact hB i hi0 hilen hpi.symm
          · simp only [hpi, false_and, if_false]
            exact hAa i hi0 hilen (fun h => hih h.symm) (fun h => hpi h.symm)
      · intro j hj
        rw [getD_set]
        have : ¬ (hole = j) := by omega
        simp [this]

end

section

/-- Moving the lighter child into the hole keeps the vector a heap around the new hole. -/
theorem heapAround_move (first : List HuffmanTreeNode) (len hole ch : Nat)
    (hlen : len ≤ first.length) (hA : HeapAround first len hole)
    (hch : ch < len) (hpar : (ch - 1) / 2 = hole) (hch0 : 0 < ch)
    (hmin : ∀ i, 0 < i → i < len → (i - 1) / 2 = hole → weightAt first ch ≤ weightAt first i) :
    HeapAround (first.set hole (first.getD ch .nullptr)) len ch := by
  obtain ⟨hAa, hAc⟩ := hA
  have hhole : hole < ch := by omega
  have hholelt : hole < first.length := by omega
  have hwt : ∀ j, weightAt (first.set hole (first.getD ch .nullptr)) j =
      if hole = j then weightAt first ch else weightAt first j := by
    intro j
    rw [weightAt_set]
    by_cases hj : hole = j
    · subst hj; simp [hholelt, weightAt]
    · simp [hj]
  constructor
  · intro i hi0 hilen hine hipne
    rw [hwt, hwt]
    by_cases hih : hole = i
    · subst hih
      have h1 : ¬ (hole = (hole - 1) / 2) := by omega
      simp only [h1, if_false, if_true]
      exact hAc ch hch0 hch hpar hi0
    · simp only [hih, if_false]
      by_cases hpi : hole = (i - 1) / 2
      · simp only [hpi, if_true]
        exact hmin i hi0 hilen hpi.symm
      · simp only [hpi, if_false]
        exact hAa i hi0 hilen (fun h => hih h.symm) (fun h => hpi h.symm)
  · intro i hi0 hilen hip _
    rw [hwt, hwt]
    have h1 : hole = (ch - 1) / 2 := hpar.symm
    have h2 : ¬ (hole = i) := by omega
    simp only [h1, if_true]
    rw [← h1]
    simp only [h2, if_false]
    have := hAa i hi0 hilen (fun h => h2 h.symm) (by omega)
    rw [hip] at this
    exact this

/-- Moving a child into the hole moves the hole: with any value stored in the hole the
vectors before and after hold the same elements. -/
theorem move_perm (first : List HuffmanTreeNode) (hole ch : Nat) (hh : hole < first.length)
    (hc : ch < first.length) (hne : hole ≠ ch) (x : HuffmanTreeNode) :
    ((first.set hole (first.getD ch .nullptr)).set ch x).Perm (first.set hole x) := by
  have hsw := swap_perm (first.set hole x) hole ch (by simpa using hh) (by simpa using hc)
  rw [getD_set, getD_set, List.set_set] at hsw
  simp only [hne, false_and, if_false, true_and, hh, if_true] at hsw
  exact hsw

/-- The first loop of `std::__adjust_heap` takes the hole down to a node without two
children and keeps the vector a heap around it. -/
theorem adjustHeapDown_spec (len : Nat) :
    ∀ (fuel : Nat) (first : List HuffmanTreeNode) (hole : Nat),
      (len - 1) / 2 ≤ fuel + hole → hole < len → len ≤ first.length →
      HeapAround first len hole →
      hole ≤ (adjustHeapDown len fuel first hole).2 ∧
      (adjustHeapDown len fuel first hole).2 < len ∧
      ¬ ((adjustHeapDown len fuel first hole).2 < (len - 1) / 2) ∧
      HeapAround (adjustHeapDown len fuel first hole).1 len
        (adjustHeapDown len fuel first hole).2 ∧
      (adjustHeapDown len fuel first hole).1.length = first.length ∧
      (∀ x, ((adjustHeapDown len fuel first hole).1.set
          (adjustHeapDown len fuel first hole).2 x).Perm (first.set hole x)) ∧
      (∀ j, len ≤ j →
        (adjustHeapDown len fuel first hole).1.getD j .nullptr = first.getD j .nullptr) := by
  intro fuel
  induction fuel with
  | zero =>
    intro first hole hf hlen hlen2 hA
    have hstep : adjustHeapDown len 0 first hole = (first, hole) := rfl
    rw [hstep]
    exact ⟨le_refl _, hlen, by omega, hA, rfl, fun x => List.Perm.refl _, fun j _ => rfl⟩
  | succ f ih =>
    intro first hole hf hlen hlen2 hA
    by_cases hc : hole < (len - 1) / 2
    · -- the child the loop picks
      obtain ⟨ch, hstep, hch1, hch2, hmin⟩ : ∃ ch,
          adjustHeapDown len (f + 1) first hole =
            adjustHeapDown len f (first.set hole (first.getD ch .nullptr)) ch ∧
          (ch = 2 * hole + 1 ∨ ch = 2 * hole + 2) ∧ ch < len ∧
          (∀ i, 0 < i → i < len → (i - 1) / 2 = hole →
            weightAt first ch ≤ weightAt first i) := by
        by_cases hcmp : CmparatorOfHuffmanTreeNode (first.getD (2 * (hole + 1)) .nullptr)
            (first.getD (2 * (hole + 1) - 1) .nullptr) = true
        · refine ⟨2 * (hole + 1) - 1, ?_, by omega, by omega, ?_⟩
          · rw [adjustHeapDown]; simp only [hc, hcmp, if_true]
          · intro i hi0 hilen hip
            have hi : i = 2 * hole + 1 ∨ i = 2 * hole + 2 := by omega
            rw [cmp_true_iff] at hcmp
            rcases hi with rfl | rfl
            · exact le_of_eq (by congr 1)
            · have e1 : 2 * (hole + 1) - 1 = 2 * hole + 1 := by omega
              have e2 : 2 * (hole + 1) = 2 * hole + 2 := by omega
              rw [e1, e2] at hcmp
              rw [e1]
              unfold weightAt
              omega
        · refine ⟨2 * (hole + 1), ?_, by omega, by omega, ?_⟩
          · have hcmp2 : CmparatorOfHuffmanTreeNode (first.getD (2 * (hole + 1)) .nullptr)
                (first.getD (2 * (hole + 1) - 1) .nullptr) = false := by
              simpa using hcmp
            rw [adjustHeapDown]
            simp only [hc, hcmp2, if_true, if_false, Bool.false_eq_true]
          · intro i hi0 hilen hip
            have hi : i = 2 * hole + 1 ∨ i = 2 * hole + 2 := by omega
            have hle : (first.getD (2 * (hole + 1)) .nullptr).weight ≤
                (first.getD (2 * (hole + 1) - 1) .nullptr).weight := by
              have : ¬ ((first.getD (2 * (hole + 1) - 1) .nullptr).weight <
                  (first.getD (2 * (hole + 1)) .nullptr).weight) := by
                rw [← cmp_true_iff]; exact hcmp
              omega
            have e1 : 2 * (hole + 1) - 1 = 2 * hole + 1 := by omega
            have e2 : 2 * (hole + 1) = 2 * hole + 2 := by omega
            rw [e1, e2] at hle
            rw [e2]
            rcases hi with rfl | rfl
            · exact hle
            · exact le_refl _
      have hpar : (ch - 1) / 2 = hole := by omega
      have hA2 := heapAround_move first len hole ch hlen2 hA hch2 hpar (by omega) hmin
      obtain ⟨k1, k2, k3, k4, k5, k6, k7⟩ :=
        ih (first.set hole (first.getD ch .nullptr)) ch (by omega) hch2 (by simpa using hlen2) hA2
      rw [hstep]
      refine ⟨by omega, k2, k3, k4, by simpa using k5, ?_, ?_⟩
      · intro x
        exact (k6 x).trans (move_perm first hole ch (by omega) (by omega) (by omega) x)
      · intro j hj
        rw [k7 j hj, getD_set]
        have : ¬ (hole = j) := by omega
        simp [this]
    · have hstep : adjustHeapDown len (f + 1) first hole = (first, hole) := by
        rw [adjustHeapDown]; simp only [hc, if_false]
      rw [hstep]
      exact ⟨le_refl _, hlen, hc, hA, rfl, fun x => List.Perm.refl _, fun j _ => rfl⟩

end

section

/-- The function `std::__adjust_heap`, called with the hole at the top of a vector that is
a heap below it, gives a heap on the first `len` elements in which `value` has taken the
place of the top; the elements after them are untouched. -/
theorem adjustHeap_spec (first : List HuffmanTreeNode) (len : Nat) (value : HuffmanTreeNode)
    (hlen : 0 < len) (hlen2 : len ≤ first.length) (hA : HeapAround first len 0) :
    HeapOn (adjustHeap first len value) len ∧
    (adjustHeap first len value).Perm (first.set 0 value) ∧
    (∀ j, len ≤ j → (adjustHeap first len value).getD j .nullptr = first.getD j .nullptr) := by
  obtain ⟨-, k2, k3, k4, k5, k6, k7⟩ :=
    adjustHeapDown_spec len len first 0 (by omega) hlen hlen2 hA
  unfold adjustHeap
  simp only
  generalize adjustHeapDown len len first 0 = down at k2 k3 k4 k5 k6 k7
  obtain ⟨R1, h1⟩ := down
  simp only at k2 k3 k4 k5 k6 k7 ⊢
  by_cases hs : len % 2 = 0 ∧ h1 = (len - 2) / 2
  · simp only [hs, and_self, if_true]
    rw [← hs.2]
    have hch : 2 * (h1 + 1) - 1 < len := by omega
    have hA2 := heapAround_move R1 len h1 (2 * (h1 + 1) - 1) (by omega) k4 hch (by omega)
      (by omega) (by
        intro i hi0 hilen hip
        have : i = 2 * (h1 + 1) - 1 := by omega
        rw [this])
    obtain ⟨p1, p2, p3⟩ := pushHeap_spec len value (2 * (h1 + 1) - 1 + 1) (2 * (h1 + 1) - 1)
      (R1.set h1 (R1.getD (2 * (h1 + 1) - 1) .nullptr)) (by omega) hch (by simp; omega) hA2
      (by intro i hi0 hilen hip; omega)
    refine ⟨p1, ?_, ?_⟩
    · refine p2.trans ((move_perm R1 h1 (2 * (h1 + 1) - 1) (by omega) (by omega) (by omega)
        value).trans (k6 value))
    · intro j hj
      rw [p3 j hj, getD_set]
      have : ¬ (h1 = j) := by omega
      simp only [this, false_and, if_false]
      exact k7 j hj
  · simp only [hs, if_false]
    obtain ⟨p1, p2, p3⟩ := pushHeap_spec len value (h1 + 1) h1 R1 (by omega) k2 (by omega) k4
      (by intro i hi0 hilen hip; omega)
    refine ⟨p1, p2.trans (k6 value), ?_⟩
    intro j hj
    rw [p3 j hj]
    exact k7 j hj

theorem weightAt_append_left (c : List HuffmanTreeNode) (x : HuffmanTreeNode) (i : Nat)
    (hi : i < c.length) : weightAt (c ++ [x]) i = weightAt c i := by
  unfold weightAt
  simp [List.getD_eq_getElem?_getD, List.getElem?_append_left hi]

/-- The call `push_back` and `push_heap` keeps the heap order and adds the node. -/
theorem stdPush_spec (c : List HuffmanTreeNode) (x : HuffmanTreeNode)
    (hc : HeapOn c c.length) :
    HeapOn (stdPush c x) (stdPush c x).length ∧ (stdPush c x).Perm (x :: c) := by
  have hA : HeapAround (c ++ [x]) (c.length + 1) c.length := by
    constructor
    · intro i hi0 hilen hine hipne
      rw [weightAt_append_left c x i (by omega), weightAt_append_left c x _ (by omega)]
      exact hc i hi0 (by omega)
    · intro i hi0 hilen hip hpos
      omega
  obtain ⟨p1, p2, -⟩ := pushHeap_spec (c.length + 1) x (c.length + 1) c.length (c ++ [x])
    (by omega) (by omega) (by simp) hA (by intro i hi0 hilen hip; omega)
  have hset : (c ++ [x]).set c.length x = c ++ [x] := by
    rw [List.set_append_right _ _ (le_refl _)]
    simp
  rw [hset] at p2
  have hl : (stdPush c x).length = c.length + 1 := by
    have := p2.length_eq
    simpa [stdPush] using this
  refine ⟨?_, ?_⟩
  · rw [hl]; exact p1
  · exact p2.trans (List.perm_append_singleton x c)

end

section

/-- The top of a heap is a node of least weight. -/
theorem heap_top_min (c : List HuffmanTreeNode) (hc : HeapOn c c.length) :
    ∀ i, i < c.length → weightAt c 0 ≤ weightAt c i := by
  intro i
  induction i using Nat.strong_induction_on with
  | _ i ih =>
    intro hi
    by_cases h0 : i = 0
    · subst h0; exact le_refl _
    · have h1 := hc i (by omega) hi
      have h2 := ih ((i - 1) / 2) (by omega) (by omega)
      omega

theorem weightAt_dropLast (c : List HuffmanTreeNode) (i : Nat) (hi : i < c.length - 1) :
    weightAt c.dropLast i = weightAt c i := by
  unfold weightAt
  rw [List.getD_eq_getElem?_getD, List.getD_eq_getElem?_getD, List.getElem?_dropLast]
  simp only [hi, if_true]

theorem dropLast_append_getD (c : List HuffmanTreeNode) (hne : c ≠ []) :
    c = c.dropLast ++ [c.getD (c.length - 1) .nullptr] := by
  have h := (List.dropLast_append_getLast hne).symm
  have hl : c.getLast hne = c.getD (c.length - 1) .nullptr := by
    rw [List.getLast_eq_getElem]
    rw [List.getD_eq_getElem?_getD, List.getElem?_eq_getElem]
    rfl
  rw [hl] at h
  exact h

/-- The call `pop_heap` and `pop_back` keeps the heap order and removes the top. -/
theorem stdPop_spec (c : List HuffmanTreeNode) (hc : HeapOn c c.length) (hne : c ≠ []) :
    HeapOn (stdPop c) (stdPop c).length ∧ c.Perm (c.getD 0 .nullptr :: stdPop c) := by
  have hpos : 0 < c.length := List.length_pos.2 hne
  by_cases h1 : c.length > 1
  · have hA : HeapAround (c.set (c.length - 1) (c.getD 0 .nullptr)) (c.length - 1) 0 := by
      constructor
      · intro i hi0 hilen _ _
        rw [weightAt_set, weightAt_set]
        have e1 : ¬ (c.length - 1 = i) := by omega
        have e2 : ¬ (c.length - 1 = (i - 1) / 2) := by omega
        simp only [e1, e2, false_and, if_false]
        exact hc i hi0 (by omega)
      · intro i _ _ _ h; omega
    obtain ⟨p1, p2, p3⟩ := adjustHeap_spec (c.set (c.length - 1) (c.getD 0 .nullptr))
      (c.length - 1) (c.getD (c.length - 1) .nullptr) (by omega) (by simp) hA
    have hstep : stdPop c = (adjustHeap (c.set (c.length - 1) (c.getD 0 .nullptr))
        (c.length - 1) (c.getD (c.length - 1) .nullptr)).dropLast := by
      unfold stdPop; simp only [h1, if_true]
    generalize adjustHeap (c.set (c.length - 1) (c.getD 0 .nullptr))
        (c.length - 1) (c.getD (c.length - 1) .nullptr) = R at p1 p2 p3 hstep
    have hRl : R.length = c.length := by
      have := p2.length_eq; simpa using this
    have hRne : R ≠ [] := by
      intro h; rw [h] at hRl; simp at hRl; omega
    have hlast : R.getD (R.length - 1) .nullptr = c.getD 0 .nullptr := by
      rw [hRl, p3 _ (le_refl _), getD_set]
      have : c.length - 1 < c.length := by omega
      simp only [this, and_self, if_true]
    rw [hstep]
    constructor
    · intro i hi0 hilen
      have hl : R.dropLast.length = R.length - 1 := List.length_dropLast R
      rw [weightAt_dropLast R i (by omega), weightAt_dropLast R _ (by omega)]
      exact p1 i hi0 (by omega)
    · have hR := dropLast_append_getD R hRne
      rw [hlast] at hR
      have hsw := swap_perm c (c.length - 1) 0 (by omega) hpos
      have hcR : c.Perm R := hsw.symm.trans p2.symm
      exact hcR.trans ((List.Perm.of_eq hR).trans
        (List.perm_append_singleton (c.getD 0 .nullptr) R.dropLast))
  · have hlen1 : c.length = 1 := by omega
    obtain ⟨x, rfl⟩ := List.length_eq_one.1 hlen1
    have hstep : stdPop [x] = [] := by
      unfold stdPop; simp
    rw [hstep]
    refine ⟨fun i _ h => ?_, ?_⟩
    · exact absurd h (Nat.not_lt_zero _)
    · exact List.Perm.refl _

/-- The binary heap of libstdc++ is a lawful priority queue. -/
theorem stdPriorityQueue_lawful : stdPriorityQueue.Lawful := by
  refine ⟨fun c => HeapOn c c.length, ⟨?_, rfl⟩, ?_, ?_, ?_⟩
  · intro i _ h; exact absurd h (Nat.not_lt_zero _)
  · intro q x hq
    exact stdPush_spec q x hq
  · intro q _
    show q.isEmpty = true ↔ q = []
    exact List.isEmpty_iff
  · intro q hq hne
    have hne2 : (q : List HuffmanTreeNode) ≠ [] := hne
    obtain ⟨p1, p2⟩ := stdPop_spec q hq hne2
    refine ⟨q.getD 0 .nullptr, ?_, ?_, p1, p2⟩
    · show q.head? = some (q.getD 0 .nullptr)
      cases q with
      | nil => exact absurd rfl hne2
      | cons a t => rfl
    · intro y hy
      rw [cmp_false_iff]
      obtain ⟨i, hi, rfl⟩ := List.getElem_of_mem hy
      have := heap_top_min q hq i hi
      unfold weightAt at this
      rw [getD_eq_getElem q i hi] at this
      exact this

end

section

open HuffmanTreeNode

/-- On a tree `findNode` never reads through a null pointer: it ends on a node of the tree,
a leaf when it reports success, having consumed at least one bit when it started on an
internal node. -/
theorem findNode_spec (input_byte : Nat) :
    ∀ (t : HuffmanTreeNode) (pos : Int), t.isTree = true → -1 ≤ pos →
      ∃ (found : Bool) (node : HuffmanTreeNode) (pos2 : Int),
        findNode t input_byte pos = some (found, node, pos2) ∧ node.isTree = true ∧
        -1 ≤ pos2 ∧ pos2 ≤ pos ∧
        (found = true → ∃ p, node.point = some p) ∧
        (found = true → t.point = none → pos2 < pos) ∧
        (found = false → node.point = none ∧ pos2 = -1) := by
  intro t
  induction t with
  | nullptr => intro pos h; simp [isTree] at h
  | mk w p l r ihl ihr =>
    intro pos ht hpos
    cases p with
    | some p =>
      exact ⟨true, mk w (some p) l r, pos, rfl, ht, hpos, le_refl _, fun _ => ⟨p, rfl⟩,
        fun _ h => by simp [HuffmanTreeNode.point] at h, fun h => by simp at h⟩
    | none =>
      simp only [isTree, Bool.and_eq_true] at ht
      by_cases hneg : pos < 0
      · refine ⟨false, mk w none l r, pos, ?_, ?_, hpos, le_refl _, ?_, ?_, ?_⟩
        · simp [findNode, hneg]
        · simp [isTree, ht.1, ht.2]
        · intro h; simp at h
        · intro h; simp at h
        · intro _; exact ⟨rfl, by omega⟩
      · by_cases hbit : (input_byte >>> pos.toNat) &&& 1 = 0
        · obtain ⟨found, node, pos2, h1, h2, h3, h4, h5, h6, h7⟩ := ihl (pos - 1) ht.1 (by omega)
          refine ⟨found, node, pos2, ?_, h2, h3, by omega, h5, fun _ _ => by omega, h7⟩
          simp only [findNode, hneg, hbit, if_false, if_true, h1]
        · obtain ⟨found, node, pos2, h1, h2, h3, h4, h5, h6, h7⟩ := ihr (pos - 1) ht.2 (by omega)
          refine ⟨found, node, pos2, ?_, h2, h3, by omega, h5, fun _ _ => by omega, h7⟩
          simp only [findNode, hneg, hbit, if_false, if_true, h1]

/-- The inner loop of `uncompress` ends on every byte when the root is an internal node of
a tree: it only appends to the bytes written and leaves the tree pointer in the tree. -/
theorem unpackByte_total (root : HuffmanTreeNode) (points : Points) (output_filesize : Nat)
    (input_byte : Nat) (hroot : root.isTree = true) (hint : root.point = none) :
    ∀ (fuel : Nat) (pos : Int) (st : UnpackState), st.node.isTree = true → -1 ≤ pos →
      (pos + 1).toNat + 1 + (if st.node.point = none then 0 else 1) ≤ fuel →
      ∃ st2, unpackByte root points output_filesize input_byte fuel pos st = .ok st2 ∧
        st2.node.isTree = true ∧ ∃ w, st2.written = st.written ++ w := by
  intro fuel
  induction fuel with
  | zero => intro pos st _ _ h; omega
  | succ f ih =>
    intro pos st hst hpos hf
    obtain ⟨found, node, pos2, h1, h2, h3, h4, h5, h6, h7⟩ :=
      findNode_spec input_byte st.node pos hst hpos
    cases found with
    | false =>
      refine ⟨{ st with node := node }, ?_, h2, [], by simp⟩
      simp [unpackByte, h1]
    | true =>
      obtain ⟨p, hp⟩ := h5 rfl
      by_cases hcount : (st.cur_output_size + 1) % kCodeTypeMod = output_filesize
      · refine ⟨{ node := node, cur_output_size := (st.cur_output_size + 1) % kCodeTypeMod,
                  written := st.written ++ [(points.get p).old_code] }, ?_, h2, _, rfl⟩
        simp [unpackByte, h1, hp, hcount]
      · have hf2 : (pos2 + 1).toNat + 1 + (if root.point = none then 0 else 1) ≤ f := by
          simp only [hint, if_true]
          by_cases hn : st.node.point = none
          · have := h6 rfl hn
            simp only [hn, if_true] at hf
            omega
          · simp only [hn, if_false] at hf
            omega
        obtain ⟨st2, k1, k2, w, k3⟩ := ih pos2
          { node := root, cur_output_size := (st.cur_output_size + 1) % kCodeTypeMod,
            written := st.written ++ [(points.get p).old_code] } hroot h3 hf2
        refine ⟨st2, ?_, k2, (points.get p).old_code :: w, ?_⟩
        · simp [unpackByte, h1, hp, hcount, k1]
        · rw [k3]; simp

/-- The outer loop of `uncompress` ends on every packed stream when the root is an internal
node of a tree and the inner loop may run 10 times. -/
theorem unpackBytes_total (root : HuffmanTreeNode) (points : Points) (output_filesize : Nat)
    (fuel : Nat) (hfuel : 10 ≤ fuel) (hroot : root.isTree = true) (hint : root.point = none) :
    ∀ (packed : List Nat) (st : UnpackState), st.node.isTree = true →
      ∃ st2, unpackBytes root points output_filesize fuel packed st = .ok st2 ∧
        st2.node.isTree = true ∧ ∃ w, st2.written = st.written ++ w := by
  intro packed
  induction packed with
  | nil => intro st hst; exact ⟨st, rfl, hst, [], by simp⟩
  | cons b rest ih =>
    intro st hst
    obtain ⟨st1, h1, h2, w1, h3⟩ := unpackByte_total root points output_filesize b hroot hint
      fuel 7 st hst (by omega) (by split_ifs <;> simp <;> omega)
    obtain ⟨st2, k1, k2, w2, k3⟩ := ih st1 h2
    refine ⟨st2, ?_, k2, w1 ++ w2, ?_⟩
    · simp [unpackBytes, h1, k1]
    · rw [k3, h3]; simp

end

section

open HuffmanTreeNode

/-- One heavy node among nodes of weight 0: the merges put all the others in one subtree
and the heavy node to the right of the root. -/
theorem Merges.single_heavy {F : List HuffmanTreeNode} {root : HuffmanTreeNode}
    (h : Merges F root) :
    ∀ (big : HuffmanTreeNode) (zs : List HuffmanTreeNode), F.Perm (big :: zs) → zs ≠ [] →
      (∀ z ∈ zs, z.weight = 0) → 0 < big.weight →
      ∃ Z, root = mergeNode Z big ∧ Z.weight = 0 := by
  induction h with
  | @last F a b hp hab =>
    intro big zs hF hzs hz hbig
    have hp2 : [a, b].Perm (big :: zs) := hp.symm.trans hF
    have hl : zs.length = 1 := by
      have := hp2.length_eq; simp at this; omega
    obtain ⟨z, rfl⟩ := List.length_eq_one.1 hl
    have hzw : z.weight = 0 := hz z (by simp)
    have ha : a = big ∨ a = z := by simpa using hp2.subset (List.mem_cons_self a [b])
    have hb : b = big ∨ b = z := by
      simpa using hp2.subset (List.mem_cons_of_mem a (List.mem_cons_self b []))
    have hbg : big = a ∨ big = b := by simpa using hp2.symm.subset (List.mem_cons_self big [z])
    have hzz : z = a ∨ z = b := by
      simpa using hp2.symm.subset (List.mem_cons_of_mem big (List.mem_cons_self z []))
    have hne : big ≠ z := by intro h; rw [h] at hbig; omega
    rcases ha with ha | ha
    · exfalso
      rcases hb with hb | hb
      · rcases hzz with h | h
        · exact hne (ha ▸ h).symm
        · exact hne (hb ▸ h).symm
      · rw [ha, hb] at hab; omega
    · rcases hbg with h | h
      · exact absurd (h.trans ha) hne
      · exact ⟨a, by rw [h], by rw [ha]; exact hzw⟩
  | @step F rest a b root hp hne hmina hminb hm ih =>
    intro big zs hF hzs hz hbig
    have hp2 : (a :: b :: rest).Perm (big :: zs) := hp.symm.trans hF
    have hwne : ∀ z ∈ zs, z ≠ big := by
      intro z hz1 h; have := hz z hz1; rw [h] at this; omega
    -- the first node taken is not the heavy one
    have ha : a ≠ big := by
      intro h
      obtain ⟨z, hz1⟩ := List.exists_mem_of_ne_nil zs hzs
      have hz2 : z ∈ a :: b :: rest := hp2.symm.subset (List.mem_cons_of_mem _ hz1)
      rcases List.mem_cons.1 hz2 with h2 | h2
      · exact hwne z hz1 (h2.trans h)
      · have := hmina z h2
        rw [h, hz z hz1] at this; omega
    have haz : a ∈ zs := by
      rcases List.mem_cons.1 (hp2.subset (List.mem_cons_self a _)) with h | h
      · exact absurd h ha
      · exact h
    -- nor is the second
    have hb : b ≠ big := by
      intro h
      subst h
      have hp3 : (b :: a :: rest).Perm (b :: zs) := (List.Perm.swap a b rest).trans hp2
      have hp4 : (a :: rest).Perm zs := hp3.cons_inv
      obtain ⟨y, hy⟩ := List.exists_mem_of_ne_nil rest hne
      have := hminb y hy
      rw [hz y (hp4.subset (List.mem_cons_of_mem _ hy))] at this
      omega
    have hbig2 : big ∈ rest := by
      rcases List.mem_cons.1 (hp2.symm.subset (List.mem_cons_self big zs)) with h | h
      · exact absurd h.symm ha
      · rcases List.mem_cons.1 h with h | h
        · exact absurd h.symm hb
        · exact h
    have hrest : rest.Perm (big :: rest.erase big) := List.perm_cons_erase hbig2
    have hp5 : (big :: a :: b :: rest.erase big).Perm (big :: zs) := by
      refine List.Perm.trans ?_ hp2
      refine List.Perm.trans ?_ (List.Perm.cons a (List.Perm.cons b hrest.symm))
      refine (List.Perm.swap a big _).trans (List.Perm.cons a ?_)
      exact List.Perm.swap b big _
    have hp6 : (a :: b :: rest.erase big).Perm zs := hp5.cons_inv
    have hbz : b ∈ zs := hp6.subset (by simp)
    have hmw : (mergeNode a b).weight = 0 := by
      rw [weight_mergeNode, hz a haz, hz b hbz]; rfl
    refine ih big (mergeNode a b :: rest.erase big) ?_ (List.cons_ne_nil _ _) ?_ hbig
    · exact (List.Perm.cons _ hrest).trans (List.Perm.swap _ _ _)
    · intro z hz1
      rcases List.mem_cons.1 hz1 with h | h
      · rw [h]; exact hmw
      · exact hz z (hp6.subset (by simp [h]))

/-- The function `statisticalFrequency` counts: the frequency of a byte grows by the number
of its occurrences and `input_filesize_` by the length of the input, in 64-bit arithmetic;
nothing else changes. -/
theorem statisticalFrequency_spec :
    ∀ (input : List Byte) (e : HuffmanEncoder),
      (∀ i, (statisticalFrequency input e).points_.get i =
        { e.points_.get i with
          frequency := if input.count i = 0 then (e.points_.get i).frequency
            else ((e.points_.get i).frequency + input.count i) % kCodeTypeMod }) ∧
      (statisticalFrequency input e).input_filesize_ =
        (if input.length = 0 then e.input_filesize_
          else (e.input_filesize_ + input.length) % kCodeTypeMod) ∧
      (statisticalFrequency input e).output_filesize_ = e.output_filesize_ ∧
      (statisticalFrequency input e).root_ = e.root_ := by
  intro input
  induction input with
  | nil => intro e; simp [statisticalFrequency]
  | cons b rest ih =>
    intro e
    obtain ⟨h1, h2, h3, h4⟩ := ih
      { e with
        points_ := e.points_.set b
          { e.points_.get b with
            frequency := ((e.points_.get b).frequency + 1) % kCodeTypeMod }
        input_filesize_ := (e.input_filesize_ + 1) % kCodeTypeMod }
    refine ⟨?_, ?_, h3, h4⟩
    · intro i
      simp only [statisticalFrequency]
      rw [h1 i]
      simp only [Mathlib.Vector.get_set_eq_if]
      by_cases hb : b = i
      · subst hb
        simp only [if_true, List.count_cons_self]
        by_cases hc : List.count b rest = 0
        · simp [hc]
        · simp only [hc, if_false, Nat.succ_ne_zero]
          congr 1
          rw [Nat.add_mod, Nat.mod_mod, ← Nat.add_mod]
          congr 1
          omega
      · have hne : (b == i) = false := by simpa using hb
        simp only [hb, if_false, List.count_cons, hne, Bool.false_eq_true, Nat.add_zero]
    · simp only [statisticalFrequency]
      rw [h2]
      by_cases hc : rest.length = 0
      · simp [hc]
      · simp only [hc, if_false, List.length_cons, Nat.succ_ne_zero]
        rw [Nat.add_mod, Nat.mod_mod, ← Nat.add_mod]
        congr 1
        omega

end

section

open HuffmanTreeNode

theorem initCodePoint_old_code (t : HuffmanTreeNode) :
    ∀ (c : Nat) (str : String) (len : Nat) (pts : Points) (s : Byte),
      ((initCodePoint t c str len pts).get s).old_code = (pts.get s).old_code := by
  induction t with
  | nullptr => intro c str len pts s; rfl
  | mk w p l r ihl ihr =>
    intro c str len pts s
    cases p with
    | some p =>
      simp only [initCodePoint, Mathlib.Vector.get_set_eq_if]
      split_ifs with h
      · subst h; rfl
      · rfl
    | none =>
      simp only [initCodePoint]
      split_ifs <;> simp [ihl, ihr]

/-- A table in which one symbol only has a frequency above 0: on a lawful queue the leaf of
that symbol is the right child of the root and its code is the single bit 1. -/
theorem single_symbol_tree (pq : PriorityQueue) (h : pq.Lawful) (points : Points) (b : Byte)
    (hb : 0 < (points.get b).frequency) (hz : ∀ i, i ≠ b → (points.get i).frequency = 0) :
    ∃ root Z, (∀ fuel, 255 ≤ fuel → buildHuffmanTree pq points fuel = .ok root) ∧
      root = mergeNode Z (leafNode points b) ∧ Z.isTree = true ∧ root.isTree = true ∧
      ((initCodePoint root 0 "" 0 points).get b).new_code = 1 ∧
      ((initCodePoint root 0 "" 0 points).get b).new_code_str = "1" ∧
      ((initCodePoint root 0 "" 0 points).get b).length = 1 := by
  obtain ⟨-, root, hroot, hm, htree, -, hleaves, -⟩ := buildHuffmanTree_shape pq h points
  have hperm : ((List.finRange 256).map (leafNode points)).Perm
      (leafNode points b :: ((List.finRange 256).erase b).map (leafNode points)) :=
    (List.perm_cons_erase (List.mem_finRange b)).map _
  have hne : ((List.finRange 256).erase b).map (leafNode points) ≠ [] := by
    intro h0
    have := congrArg List.length h0
    rw [List.length_map, List.length_erase_of_mem (List.mem_finRange b)] at this
    simp at this
  have hzero : ∀ z ∈ ((List.finRange 256).erase b).map (leafNode points), z.weight = 0 := by
    intro z hz1
    obtain ⟨i, hi, rfl⟩ := List.mem_map.1 hz1
    have hib : i ≠ b := by
      intro h0
      rw [h0] at hi
      exact (List.Nodup.not_mem_erase (List.nodup_finRange 256)) hi
    exact hz i hib
  obtain ⟨Z, hZ, -⟩ := hm.single_heavy (leafNode points b) _ hperm hne hzero hb
  have hZt : Z.isTree = true := by
    rw [hZ, isTree_mergeNode] at htree
    simp only [Bool.and_eq_true] at htree
    exact htree.1
  have hnd : root.leaves.Nodup := hleaves.nodup_iff.2 (List.nodup_finRange 256)
  have hs : b ∈ root.leaves := hleaves.symm.subset (List.mem_finRange b)
  obtain ⟨path, hp1, hp2⟩ := (initCodePoint_spec root htree hnd 0 "" 0 points).2 b hs
  have hpath : (root.descend [true]).point = some b := by rw [hZ]; rfl
  have hpe : path = [true] := path_unique htree hnd hp1 hpath
  subst hpe
  refine ⟨root, Z, hroot, hZ, hZt, htree, ?_, ?_, ?_⟩
  · rw [hp2]; rfl
  · rw [hp2]; rfl
  · rw [hp2]; rfl

/-- Eight copies of a byte whose code is the single bit 1 are packed as the byte `0xFF`;
the flush at the end of `compress` then adds the byte `0x00`. -/
theorem pack_eight_ones (points : Points) (b : Byte) (ofs : Nat)
    (hc : (points.get b).new_code = 1) (hl : (points.get b).length = 1) :
    (packFlush (packBytes points (List.replicate 8 b)
      { output_byte := 0, cnt := 0, written := [], output_filesize_ := ofs })).written
      = [255, 0] := by
  simp [List.replicate, packBytes, hc, hl, packCode, packFlush]

end

section

open HuffmanTreeNode

/-- The byte `0xFF` decodes to eight copies of the symbol to the right of the root; when the
eighth is the last one expected, the loop is left with the tree pointer on its leaf. -/
theorem unpack_ones (Z : HuffmanTreeNode) (points : Points) (b : Byte) (f : Nat) :
    unpackByte (mergeNode Z (leafNode points b)) points 8 255 (f + 10) 7
      { node := mergeNode Z (leafNode points b), cur_output_size := 0, written := [] } =
    .ok { node := leafNode points b, cur_output_size := 8,
          written := List.replicate 8 (points.get b).old_code } := by
  simp [unpackByte, findNode, mergeNode, leafNode, kCodeTypeMod, HuffmanTreeNode.point,
    List.replicate]

/-- The packed bytes `0xFF 0x00` with 8 bytes expected: the byte of padding is decoded too,
starting from the leaf the tree pointer was left on, so a ninth copy of the symbol is
written. -/
theorem unpack_ones_then_zero (Z : HuffmanTreeNode) (hZ : Z.isTree = true) (points : Points)
    (b : Byte) (fuel : Nat) (hfuel : 10 ≤ fuel) :
    ∃ st, unpackBytes (mergeNode Z (leafNode points b)) points 8 fuel [255, 0]
        { node := mergeNode Z (leafNode points b), cur_output_size := 0, written := [] } =
        .ok st ∧
      ∃ w, st.written = List.replicate 9 (points.get b).old_code ++ w := by
  obtain ⟨f, rfl⟩ : ∃ f, fuel = f + 10 := ⟨fuel - 10, by omega⟩
  have hroot : (mergeNode Z (leafNode points b)).isTree = true := by
    simp [isTree_mergeNode, hZ, leafNode, isTree, isNull]
  obtain ⟨st2, k1, -, w, k3⟩ := unpackByte_total (mergeNode Z (leafNode points b)) points 8 0
    hroot rfl (f + 9) 7
    { node := mergeNode Z (leafNode points b), cur_output_size := 9,
      written := List.replicate 9 (points.get b).old_code } hroot (by omega)
    (by simp [mergeNode, HuffmanTreeNode.point])
  refine ⟨st2, ?_, w, k3⟩
  have hB : unpackByte (mergeNode Z (leafNode points b)) points 8 0 (f + 10) 7
      { node := leafNode points b, cur_output_size := 8,
        written := List.replicate 8 (points.get b).old_code } = .ok st2 := by
    rw [← k1]
    simp [unpackByte, findNode, leafNode, kCodeTypeMod, HuffmanTreeNode.point, List.replicate]
  simp only [unpackBytes, unpack_ones, hB]

end

section

open HuffmanTreeNode

theorem leafNode_initCodePoint (t : HuffmanTreeNode) (c : Nat) (str : String) (len : Nat)
    (pts : Points) (b : Byte) :
    leafNode (initCodePoint t c str len pts) b = leafNode pts b := by
  unfold leafNode
  rw [initCodePoint_frequency]

theorem count_replicate_byte (b i : Byte) (n : Nat) :
    (List.replicate n b).count i = if i = b then n else 0 := by
  by_cases h : i = b
  · subst h; simp
  · have h2 : ¬ (b = i) := fun e => h e.symm
    simp [List.count_replicate, h, h2]

/-- The codec on eight copies of one byte, on a lawful queue: `compress` writes the original
size 8 and the packed bytes `0xFF 0x00`, and `uncompress` writes at least nine copies of the
byte. -/
theorem roundtrip_eight (pq : PriorityQueue) (h : pq.Lawful) (b : Byte) (fuel : Nat)
    (hfuel : 255 ≤ fuel) :
    ∃ file out rest, runCompress pq fuel (List.replicate 8 b) = .ok file ∧
      file.header.original_size = 8 ∧ file.packed = [255, 0] ∧
      runUncompress pq fuel file = .ok out ∧ out = List.replicate 9 b ++ rest := by
  -- the compression path
  obtain ⟨s1, s2, -, -⟩ := statisticalFrequency_spec (List.replicate 8 b) HuffmanEncoder.new
  have hfreq : ∀ i, ((statisticalFrequency (List.replicate 8 b) HuffmanEncoder.new).points_.get
      i).frequency = if i = b then 8 else 0 := by
    intro i
    rw [s1 i, count_replicate_byte]
    by_cases hi : i = b
    · simp [hi, HuffmanEncoder.new, kCodeTypeMod]
    · simp [hi, HuffmanEncoder.new]
  obtain ⟨root, Z, hroot, -, -, -, hc, -, hl⟩ := single_symbol_tree pq h
    (statisticalFrequency (List.replicate 8 b) HuffmanEncoder.new).points_ b
    (by rw [hfreq]; simp) (by intro i hi; rw [hfreq]; simp [hi])
  have henc : runCompress pq fuel (List.replicate 8 b) = .ok
      (compress (List.replicate 8 b)
        { statisticalFrequency (List.replicate 8 b) HuffmanEncoder.new with
          root_ := root
          points_ := initCodePoint root 0 "" 0
            (statisticalFrequency (List.replicate 8 b) HuffmanEncoder.new).points_ }).1 := by
    simp only [runCompress, encoderFor, hroot fuel hfuel]
  have hsize : (statisticalFrequency (List.replicate 8 b) HuffmanEncoder.new).input_filesize_
      = 8 := by
    rw [s2]; simp [HuffmanEncoder.new, kCodeTypeMod]
  -- the decompression path
  have hfreq2 : ∀ i, ((readHeader (compress (List.replicate 8 b)
        { statisticalFrequency (List.replicate 8 b) HuffmanEncoder.new with
          root_ := root
          points_ := initCodePoint root 0 "" 0
            (statisticalFrequency (List.replicate 8 b) HuffmanEncoder.new).points_ }).1.header
        ).points_.get i).frequency = if i = b then 8 else 0 := by
    intro i
    simp only [readHeader, compress, Mathlib.Vector.get_ofFn, Mathlib.Vector.get_map,
      initCodePoint_frequency]
    exact hfreq i
  generalize hfile : (compress (List.replicate 8 b)
        { statisticalFrequency (List.replicate 8 b) HuffmanEncoder.new with
          root_ := root
          points_ := initCodePoint root 0 "" 0
            (statisticalFrequency (List.replicate 8 b) HuffmanEncoder.new).points_ }).1 = file
    at henc hfreq2
  have hos : file.header.original_size = 8 := by
    rw [← hfile]; exact hsize
  have hpk : file.packed = [255, 0] := by
    rw [← hfile]; exact pack_eight_ones _ b _ hc hl
  obtain ⟨root2, Z2, hroot2, hZ2, hZ2t, -, -, -, -⟩ := single_symbol_tree pq h
    (readHeader file.header).points_ b
    (by rw [hfreq2]; simp) (by intro i hi; rw [hfreq2]; simp [hi])
  obtain ⟨st, hst, w, hw⟩ := unpack_ones_then_zero Z2 hZ2t
    (initCodePoint root2 0 "" 0 (readHeader file.header).points_) b fuel (by omega)
  rw [leafNode_initCodePoint, ← hZ2] at hst
  refine ⟨file, st.written, w, henc, hos, hpk, ?_, ?_⟩
  · have hsz : (readHeader file.header).output_filesize_ = 8 := by
      simp [readHeader, hos]
    simp only [runUncompress, hroot2 fuel hfuel, uncompress, hpk, hsz, hst]
  · rw [hw, initCodePoint_old_code]
    simp [readHeader, HuffmanEncoder.new]

end

section

open HuffmanTreeNode

/-- On a byte of zeros `findNode` goes left: it fails exactly when no leaf lies within the
`n` left turns it may take. -/
theorem findNode_zero :
    ∀ (n : Nat) (t : HuffmanTreeNode), t.isTree = true →
      ∃ (found : Bool) (node : HuffmanTreeNode) (pos2 : Int),
        findNode t 0 ((n : Int) - 1) = some (found, node, pos2) ∧
        (found = false ↔
          ∀ k, k ≤ n → (t.descend (List.replicate k false)).point = none) := by
  intro n
  induction n with
  | zero =>
    intro t ht
    cases t with
    | nullptr => simp [isTree] at ht
    | mk w p l r =>
      cases p with
      | some p =>
        refine ⟨true, mk w (some p) l r, _, rfl, ?_⟩
        constructor
        · intro h; simp at h
        · intro h
          have := h 0 (le_refl _)
          simp [descend, HuffmanTreeNode.point] at this
      | none =>
        refine ⟨false, mk w none l r, ((0 : Nat) : Int) - 1, by simp [findNode], ?_⟩
        constructor
        · intro _ k hk
          have : k = 0 := by omega
          subst this
          rfl
        · intro _; rfl
  | succ n ih =>
    intro t ht
    cases t with
    | nullptr => simp [isTree] at ht
    | mk w p l r =>
      cases p with
      | some p =>
        refine ⟨true, mk w (some p) l r, _, rfl, ?_⟩
        constructor
        · intro h; simp at h
        · intro h
          have := h 0 (Nat.zero_le _)
          simp [descend, HuffmanTreeNode.point] at this
      | none =>
        simp only [isTree, Bool.and_eq_true] at ht
        obtain ⟨found, node, pos2, h1, h2⟩ := ih l ht.1
        refine ⟨found, node, pos2, ?_, ?_⟩
        · have hpos : ¬ (((n + 1 : Nat) : Int) - 1 < 0) := by omega
          have hsub : ((n + 1 : Nat) : Int) - 1 - 1 = (n : Int) - 1 := by omega
          simp only [findNode, hpos, if_false, Nat.zero_shiftRight, Nat.zero_and, if_true, hsub]
          exact h1
        · rw [h2]
          constructor
          · intro h k hk
            cases k with
            | zero => rfl
            | succ j => exact h j (by omega)
          · intro h k hk
            exact h (k + 1) (by omega)

/-- One round of the inner loop of `uncompress` that reaches a leaf before the expected
count is met: the symbol is written and the loop goes on from the root. -/
theorem unpackByte_found (root : HuffmanTreeNode) (points : Points) (output_filesize : Nat)
    (input_byte fuel : Nat) (pos pos2 : Int) (st : UnpackState) (node : HuffmanTreeNode)
    (p : Byte) (h1 : findNode st.node input_byte pos = some (true, node, pos2))
    (hp : node.point = some p)
    (hne : ¬ ((st.cur_output_size + 1) % kCodeTypeMod = output_filesize)) :
    unpackByte root points output_filesize input_byte (fuel + 1) pos st =
      unpackByte root points output_filesize input_byte fuel pos2
        { node := root, cur_output_size := (st.cur_output_size + 1) % kCodeTypeMod,
          written := st.written ++ [(points.get p).old_code] } := by
  simp only [unpackByte, h1, hp, hne, if_false]

/-- The codec on the empty input, on a lawful queue: `compress` writes the original size 0,
256 frequencies 0 and the one packed byte `0x00`; `uncompress` decodes that byte and writes
nothing only when no leaf of the tree lies within eight left turns of the root. -/
theorem roundtrip_empty (pq : PriorityQueue) (h : pq.Lawful) (fuel : Nat)
    (hfuel : 255 ≤ fuel) :
    ∃ file root out, runCompress pq fuel [] = .ok file ∧
      file.header.original_size = 0 ∧ (∀ i, file.header.frequency.get i = 0) ∧
      file.packed = [0] ∧
      buildHuffmanTree pq (readHeader file.header).points_ fuel = .ok root ∧
      runUncompress pq fuel file = .ok out ∧
      (out = [] ↔ ∀ k, k ≤ 8 → (root.descend (List.replicate k false)).point = none) := by
  obtain ⟨-, root, hroot, -, -, -, -, -⟩ := buildHuffmanTree_shape pq h
    (statisticalFrequency [] HuffmanEncoder.new).points_
  have henc : runCompress pq fuel [] = .ok
      (compress []
        { statisticalFrequency [] HuffmanEncoder.new with
          root_ := root
          points_ := initCodePoint root 0 "" 0
            (statisticalFrequency [] HuffmanEncoder.new).points_ }).1 := by
    simp only [runCompress, encoderFor, hroot fuel hfuel]
  generalize hfile : (compress []
        { statisticalFrequency [] HuffmanEncoder.new with
          root_ := root
          points_ := initCodePoint root 0 "" 0
            (statisticalFrequency [] HuffmanEncoder.new).points_ }).1 = file at henc
  have hos : file.header.original_size = 0 := by rw [← hfile]; rfl
  have hfr : ∀ i, file.header.frequency.get i = 0 := by
    intro i
    rw [← hfile]
    simp only [compress, Mathlib.Vector.get_map, initCodePoint_frequency]
    simp [statisticalFrequency, HuffmanEncoder.new]
  have hpk : file.packed = [0] := by rw [← hfile]; rfl
  obtain ⟨-, root2, hroot2, -, htree2, hpoint2, -, -⟩ := buildHuffmanTree_shape pq h
    (readHeader file.header).points_
  have hsz : (readHeader file.header).output_filesize_ = 0 := by simp [readHeader, hos]
  obtain ⟨f, rfl⟩ : ∃ f, fuel = f + 10 := ⟨fuel - 10, by omega⟩
  obtain ⟨found, node, pos2, g1, g2, g3, g4, g5, -, -⟩ :=
    findNode_spec 0 root2 7 htree2 (by omega)
  obtain ⟨found2, node2, pos3, z1, z2⟩ := findNode_zero 8 root2 htree2
  have h7 : ((8 : Nat) : Int) - 1 = 7 := by norm_num
  rw [h7, g1] at z1
  have hfound : found = found2 := by
    have := Option.some.inj z1
    exact congrArg Prod.fst this
  rw [← hfound] at z2
  cases found with
  | false =>
    refine ⟨file, root2, [], henc, hos, hfr, hpk, hroot2 _ hfuel, ?_, ?_⟩
    · simp only [runUncompress, hroot2 _ hfuel, uncompress, hpk, hsz, unpackBytes, unpackByte,
        g1]
    · simp only [true_iff]
      exact z2.1 rfl
  | true =>
    obtain ⟨p, hp⟩ := g5 rfl
    obtain ⟨st2, k1, -, w, k3⟩ := unpackByte_total root2
      (initCodePoint root2 0 "" 0 (readHeader file.header).points_) 0 0 htree2 hpoint2 (f + 9)
      pos2
      { node := root2, cur_output_size := (0 + 1) % kCodeTypeMod,
        written := [] ++ [((initCodePoint root2 0 "" 0 (readHeader file.header).points_).get
          p).old_code] } htree2 g3 (by simp only [hpoint2, if_true]; omega)
    refine ⟨file, root2, st2.written, henc, hos, hfr, hpk, hroot2 _ hfuel, ?_, ?_⟩
    · have hne : ¬ ((0 + 1) % kCodeTypeMod = 0) := by simp [kCodeTypeMod]
      have hstep := unpackByte_found root2
        (initCodePoint root2 0 "" 0 (readHeader file.header).points_) 0 0 (f + 9) 7 pos2
        { node := root2, cur_output_size := 0, written := [] } node p g1 hp hne
      simp only [runUncompress, hroot2 _ hfuel, uncompress, hpk, hsz, unpackBytes]
      rw [show f + 10 = (f + 9) + 1 from rfl, hstep, k1]
    · rw [k3]
      constructor
      · intro h0; simp at h0
      · intro h0
        have := z2.2 h0
        simp at this

end

section

open HuffmanTreeNode

/-- The bytes `packCode` writes are below 256. -/
theorem packCode_bytes (new_code : Nat) :
    ∀ (length : Nat) (st : PackState), (∀ byte ∈ st.written, byte < 256) →
      ∀ byte ∈ (packCode new_code length st).written, byte < 256 := by
  intro length
  induction length with
  | zero => intro st h; exact h
  | succ n ih =>
    intro st h
    rw [packCode]
    by_cases h8 : st.cnt + 1 = 8
    · simp only [h8, if_true]
      apply ih
      intro byte hb
      rcases List.mem_append.1 hb with hb | hb
      · exact h byte hb
      · rw [List.mem_singleton.1 hb]
        exact Nat.mod_lt _ (by norm_num)
    · simp only [h8, if_false]
      exact ih _ h

/-- The bytes `packBytes` writes are below 256. -/
theorem packBytes_bytes (points : Points) :
    ∀ (input : List Byte) (st : PackState), (∀ byte ∈ st.written, byte < 256) →
      ∀ byte ∈ (packBytes points input st).written, byte < 256 := by
  intro input
  induction input with
  | nil => intro st h; exact h
  | cons b rest ih =>
    intro st h
    exact ih _ (packCode_bytes _ _ st h)

/-- The eight bits of a flushed buffer: the buffered bits, then zeros. -/
theorem byteBits_flush (x cnt : Nat) (hcnt : cnt < 8) (hx : x < 2 ^ cnt) :
    byteBits ((x <<< (8 - cnt)) % 256) = codeBits x cnt ++ List.replicate (8 - cnt) false := by
  have hlt : x <<< (8 - cnt) < 256 := by
    rw [Nat.shiftLeft_eq]
    calc x * 2 ^ (8 - cnt) < 2 ^ cnt * 2 ^ (8 - cnt) :=
          Nat.mul_lt_mul_of_pos_right hx (by positivity)
      _ = 2 ^ 8 := by rw [← pow_add]; congr 1; omega
      _ = 256 := by norm_num
  rw [Nat.mod_eq_of_lt hlt, Nat.shiftLeft_eq, byteBits]
  have h8 : codeBits (x * 2 ^ (8 - cnt)) 8 = codeBits (x * 2 ^ (8 - cnt)) (cnt + (8 - cnt)) := by
    congr 1; omega
  rw [h8]
  exact codeBits_shiftLeft x cnt (8 - cnt)

/-- What `compress` writes after the header, for any code table: the packed bytes are below
256; read from the most significant bit of each byte they are the bits read from the
registers of the input bytes in order, then `8 - T % 8` zero bits, `T` being the sum of the
code lengths; there are `T / 8 + 1` of them, and `output_filesize_` has been incremented as
many times. -/
theorem compress_spec (input : List Byte) (e : HuffmanEncoder) :
    (∀ byte ∈ (compress input e).1.packed, byte < 256) ∧
    (compress input e).1.packed.flatMap byteBits =
      input.flatMap (fun b =>
          registerBits (e.points_.get b).new_code (e.points_.get b).length) ++
        List.replicate (8 - codeLengthSum e.points_ input % 8) false ∧
    (compress input e).1.packed.length = codeLengthSum e.points_ input / 8 + 1 ∧
    (compress input e).2.output_filesize_ =
      (e.output_filesize_ + (codeLengthSum e.points_ input / 8 + 1)) % kCodeTypeMod := by
  have hs0 : PackState.Sound
      { output_byte := 0, cnt := 0, written := [], output_filesize_ := e.output_filesize_ } := by
    simp [PackState.Sound]
  have hc0 : PackState.Counted e.output_filesize_
      { output_byte := 0, cnt := 0, written := [], output_filesize_ := e.output_filesize_ } := by
    simp [PackState.Counted]
  obtain ⟨⟨s1, s2⟩, hc, hb, hn⟩ := packBytes_spec e.points_ e.output_filesize_ input _ hs0 hc0
  have hw := packBytes_bytes e.points_ input
    { output_byte := 0, cnt := 0, written := [], output_filesize_ := e.output_filesize_ }
    (by simp)
  generalize hst : packBytes e.points_ input
    { output_byte := 0, cnt := 0, written := [], output_filesize_ := e.output_filesize_ } = st
    at s1 s2 hc hb hn hw
  simp only [PackState.bits, List.flatMap_nil, List.nil_append, codeBits, List.length_nil,
    Nat.mul_zero, Nat.zero_add] at hb hn
  have hcnt : st.cnt = codeLengthSum e.points_ input % 8 := by omega
  have hlen : st.written.length = codeLengthSum e.points_ input / 8 := by omega
  have hpk : (compress input e).1.packed =
      st.written ++ [(st.output_byte <<< (8 - st.cnt)) % 256] := by
    simp only [compress, hst, packFlush, s1, if_true]
  have hof : (compress input e).2.output_filesize_ =
      (st.output_filesize_ + 1) % kCodeTypeMod := by
    simp only [compress, hst, packFlush, s1, if_true]
  refine ⟨?_, ?_, ?_, ?_⟩
  · intro byte hbyte
    rw [hpk] at hbyte
    rcases List.mem_append.1 hbyte with hbyte | hbyte
    · exact hw byte hbyte
    · rw [List.mem_singleton.1 hbyte]
      exact Nat.mod_lt _ (by norm_num)
  · rw [hpk, List.flatMap_append, List.flatMap_singleton, byteBits_flush _ _ s1 s2,
      ← List.append_assoc, hb, hcnt]
  · rw [hpk, List.length_append, hlen, List.length_singleton]
  · rw [hof]
    unfold PackState.Counted at hc
    rw [Nat.add_mod, hc, hlen, ← Nat.add_mod, Nat.add_assoc]

end

section

open HuffmanTreeNode

/-- While the register has room, the code register after a path holds the turns of the
path below the bits it held. -/
theorem codeBits_codeAfter :
    ∀ (path : List Bool) (c k : Nat), c < 2 ^ k → k + path.length ≤ 64 →
      codeAfter c path < 2 ^ (k + path.length) ∧
      codeBits (codeAfter c path) (k + path.length) = codeBits c k ++ path := by
  intro path
  induction path with
  | nil => intro c k hc _; simpa [codeAfter] using hc
  | cons t p ih =>
    intro c k hc hk
    simp only [List.length_cons] at hk
    have h2 : 2 * c + t.toNat < 2 ^ (k + 1) := by
      have : t.toNat ≤ 1 := by cases t <;> simp
      rw [pow_succ]; omega
    have hle : 2 ^ (k + 1) ≤ 2 ^ 64 := Nat.pow_le_pow_right (by norm_num) (by omega)
    have hstep : codeAfter c (t :: p) = codeAfter (2 * c + t.toNat) p := by
      have hm : (c <<< 1 % kCodeTypeMod + t.toNat) % kCodeTypeMod = 2 * c + t.toNat := by
        have e1 : c <<< 1 = 2 * c := by rw [Nat.shiftLeft_eq]; omega
        have e2 : 2 * c < kCodeTypeMod := by unfold kCodeTypeMod; omega
        rw [e1, Nat.mod_eq_of_lt e2, Nat.mod_eq_of_lt]
        unfold kCodeTypeMod; omega
      simp only [codeAfter, List.foldl_cons, hm]
    obtain ⟨i1, i2⟩ := ih (2 * c + t.toNat) (k + 1) h2 (by omega)
    have hlen : k + (t :: p).length = k + 1 + p.length := by simp; omega
    rw [hstep, hlen]
    refine ⟨i1, ?_⟩
    rw [i2, codeBits_shift_in]
    simp

/-- A path of at most 64 turns is read back from the code register. -/
theorem codeBits_codeAfter_zero (path : List Bool) (h : path.length ≤ 64) :
    codeBits (codeAfter 0 path) path.length = path := by
  have := (codeBits_codeAfter path 0 0 (by norm_num) (by omega)).2
  simpa [codeBits] using this

/-- The code register stays below `2^64`. -/
theorem codeAfter_lt (path : List Bool) (c : Nat) (hc : c < kCodeTypeMod) :
    codeAfter c path < kCodeTypeMod := by
  induction path generalizing c with
  | nil => simpa [codeAfter] using hc
  | cons t p ih =>
    simp only [codeAfter, List.foldl_cons]
    exact ih _ (Nat.mod_lt _ (by unfold kCodeTypeMod; norm_num))

/-- The bits read above the width of the register are zeros. -/
theorem codeBits_head_of_lt (x n : Nat) (hx : x < kCodeTypeMod) (hn : 64 ≤ n) :
    codeBits x (n + 1) = false :: codeBits x n := by
  rw [codeBits_succ]
  congr 1
  apply Nat.testBit_lt_two_pow
  calc x < 2 ^ 64 := hx
    _ ≤ 2 ^ n := Nat.pow_le_pow_right (by norm_num) hn

/-- Maps by an injective function reflect the prefix order of lists. -/
theorem prefix_of_map {α β : Type} (f : α → β) (hf : Function.Injective f) {p q : List α}
    (h : p.map f <+: q.map f) : p <+: q := by
  obtain ⟨l, hl, hm⟩ := List.isPrefix_map_iff.1 h
  have : p = l := (List.map_injective_iff.2 hf) hm
  rw [this]; exact hl

/-- The code strings of a tree built on a lawful queue are prefix-free. -/
theorem codes_prefix_free (pq : PriorityQueue) (h : pq.Lawful) (points : Points) :
    ∃ root, (∀ fuel, 255 ≤ fuel → buildHuffmanTree pq points fuel = .ok root) ∧
      ∀ a b : Byte, a ≠ b →
        ¬ (((initCodePoint root 0 "" 0 points).get a).new_code_str.data <+:
            ((initCodePoint root 0 "" 0 points).get b).new_code_str.data) := by
  obtain ⟨root, hroot, htree, -, hcodes⟩ := codes_of_build pq h points
  refine ⟨root, hroot, ?_⟩
  intro a b hab hpre
  obtain ⟨pa, ha1, -, -, ha2⟩ := hcodes a
  obtain ⟨pb, hb1, -, -, hb2⟩ := hcodes b
  rw [ha2, hb2] at hpre
  simp only [pathString_data] at hpre
  have hp := prefix_of_map bitChar bitChar_injective hpre
  have := initial_path_eq htree ha1 hb1 hp
  subst this
  rw [ha1] at hb1
  exact hab (Option.some.inj hb1)

end

section

open HuffmanTreeNode

/-- A forced merge: when one node is strictly lighter than a second one, which is strictly
lighter than all the others, the loop merges these two, the lighter to the left. -/
theorem Merges.forced {F : List HuffmanTreeNode} {root : HuffmanTreeNode} (h : Merges F root)
    (x y : HuffmanTreeNode) (rest : List HuffmanTreeNode) (hF : F.Perm (x :: y :: rest))
    (hxy : x.weight < y.weight) (hrest : ∀ r ∈ rest, y.weight < r.weight) :
    (rest = [] → root = mergeNode x y) ∧
    (rest ≠ [] → Merges (mergeNode x y :: rest) root) := by
  cases h with
  | @last _ a b hp hab =>
    have hp2 : [a, b].Perm (x :: y :: rest) := hp.symm.trans hF
    have hnil : rest = [] := by
      have := hp2.length_eq
      simp only [List.length_cons, List.length_nil] at this
      exact List.length_eq_zero.1 (by omega)
    subst hnil
    refine ⟨fun _ => ?_, fun hne => absurd rfl hne⟩
    have ha : a = x ∨ a = y := by simpa using hp2.subset (List.mem_cons_self a [b])
    have hx : x = a ∨ x = b := by simpa using hp2.symm.subset (List.mem_cons_self x [y])
    have hy : y = a ∨ y = b := by
      simpa using hp2.symm.subset (List.mem_cons_of_mem x (List.mem_cons_self y []))
    rcases ha with ha | ha
    · subst ha
      rcases hy with hy | hy
      · rw [hy] at hxy; omega
      · rw [hy]
    · subst ha
      rcases hx with hx | hx
      · rw [hx] at hxy; omega
      · rw [hx] at hxy; omega
  | @step _ rest2 a b _ hp hne hmina hminb hm =>
    have hp2 : (a :: b :: rest2).Perm (x :: y :: rest) := hp.symm.trans hF
    have hrne : rest ≠ [] := by
      intro h0
      have := hp2.length_eq
      have h1 : rest2.length ≠ 0 := fun h => hne (List.length_eq_zero.1 h)
      simp only [h0, List.length_cons, List.length_nil] at this
      omega
    refine ⟨fun h0 => absurd h0 hrne, fun _ => ?_⟩
    have hax : a.weight ≤ x.weight := by
      rcases List.mem_cons.1 (hp2.symm.subset (List.mem_cons_self x _)) with h | h
      · rw [h]
      · exact hmina x h
    have ha : a = x := by
      rcases List.mem_cons.1 (hp2.subset (List.mem_cons_self a _)) with h | h
      · exact h
      · rcases List.mem_cons.1 h with h | h
        · rw [h] at hax; omega
        · have := hrest a h; omega
    subst ha
    have hp3 : (b :: rest2).Perm (y :: rest) := hp2.cons_inv
    have hby : b.weight ≤ y.weight := by
      rcases List.mem_cons.1 (hp3.symm.subset (List.mem_cons_self y _)) with h | h
      · rw [h]
      · exact hminb y h
    have hb : b = y := by
      rcases List.mem_cons.1 (hp3.subset (List.mem_cons_self b _)) with h | h
      · exact h
      · have := hrest b h; omega
    subst hb
    exact hm.of_perm (List.Perm.cons _ hp3.cons_inv.symm)

/-- The nodes of weight 0 are merged first: when nodes of weight 0 stand beside nodes of
positive weight, the loop first joins the former into one node of weight 0. -/
theorem Merges.zeros_first {F : List HuffmanTreeNode} {root : HuffmanTreeNode}
    (h : Merges F root) :
    ∀ (zs G : List HuffmanTreeNode), F.Perm (zs ++ G) → zs ≠ [] → G ≠ [] →
      (∀ z ∈ zs, z.weight = 0) → (∀ g ∈ G, 0 < g.weight) →
      ∃ Z, Z.weight = 0 ∧ Merges (Z :: G) root := by
  induction h with
  | @last F a b hp hab =>
    intro zs G hF hzs hG hz hg
    have hp2 : [a, b].Perm (zs ++ G) := hp.symm.trans hF
    have hl := hp2.length_eq
    simp only [List.length_cons, List.length_nil, List.length_append] at hl
    have h1 : zs.length ≠ 0 := fun h => hzs (List.length_eq_zero.1 h)
    have h2 : G.length ≠ 0 := fun h => hG (List.length_eq_zero.1 h)
    obtain ⟨z, rfl⟩ := List.length_eq_one.1 (show zs.length = 1 by omega)
    exact ⟨z, hz z (by simp), (Merges.last hp hab).of_perm hF.symm⟩
  | @step F rest a b root hp hne hmina hminb hm ih =>
    intro zs G hF hzs hG hz hg
    have hp2 : (a :: b :: rest).Perm (zs ++ G) := hp.symm.trans hF
    by_cases hone : zs.length = 1
    · obtain ⟨z, rfl⟩ := List.length_eq_one.1 hone
      exact ⟨z, hz z (by simp), (Merges.step hp hne hmina hminb hm).of_perm hF.symm⟩
    · have h1 : zs.length ≠ 0 := fun h => hzs (List.length_eq_zero.1 h)
      have hpos : ∀ g ∈ G, ∀ z ∈ zs, g ≠ z := by
        intro g hg1 z hz1 h
        have := hg g hg1; rw [h, hz z hz1] at this; omega
      -- the first node taken has weight 0
      have ha : a ∈ zs := by
        rcases List.mem_append.1 (hp2.subset (List.mem_cons_self a _)) with h | h
        · exact h
        · exfalso
          obtain ⟨z, hz1⟩ := List.exists_mem_of_ne_nil zs hzs
          rcases List.mem_cons.1 (hp2.symm.subset (List.mem_append_left G hz1)) with h2 | h2
          · exact hpos a h z hz1 h2.symm
          · have := hmina z h2
            have := hg a h
            rw [hz z hz1] at *; omega
      have hp3 : (a :: b :: rest).Perm (a :: (zs.erase a ++ G)) :=
        hp2.trans (List.Perm.append_right G (List.perm_cons_erase ha))
      have hp4 : (b :: rest).Perm (zs.erase a ++ G) := hp3.cons_inv
      have hsub : ∀ z ∈ zs.erase a, z ∈ zs := fun z hz1 => List.mem_of_mem_erase hz1
      have hlen : (zs.erase a).length = zs.length - 1 := List.length_erase_of_mem ha
      have hne2 : zs.erase a ≠ [] := by
        intro h; rw [h] at hlen; simp at hlen; omega
      -- so has the second
      have hb : b ∈ zs.erase a := by
        rcases List.mem_append.1 (hp4.subset (List.mem_cons_self b _)) with h | h
        · exact h
        · exfalso
          obtain ⟨z, hz1⟩ := List.exists_mem_of_ne_nil _ hne2
          rcases List.mem_cons.1 (hp4.symm.subset (List.mem_append_left G hz1)) with h2 | h2
          · exact hpos b h z (hsub z hz1) h2.symm
          · have := hminb z h2
            have := hg b h
            rw [hz z (hsub z hz1)] at *; omega
      have hp5 : (b :: rest).Perm (b :: ((zs.erase a).erase b ++ G)) :=
        hp4.trans (List.Perm.append_right G (List.perm_cons_erase hb))
      have hp6 : rest.Perm ((zs.erase a).erase b ++ G) := hp5.cons_inv
      have hmw : (mergeNode a b).weight = 0 := by
        rw [weight_mergeNode, hz a ha, hz b (hsub b hb)]; rfl
      refine ih (mergeNode a b :: (zs.erase a).erase b) G (List.Perm.cons _ hp6)
        (List.cons_ne_nil _ _) hG ?_ hg
      intro z hz1
      rcases List.mem_cons.1 hz1 with h | h
      · rw [h]; exact hmw
      · exact hz z (hsub z (List.mem_of_mem_erase h))

/-- A chain to the right: when the weights of the nodes beside an accumulated node pass
`rightChain`, the accumulated node ends as many right turns below the root as there are
nodes beside it. -/
theorem Merges.right_chain :
    ∀ (ls : List HuffmanTreeNode) (acc root : HuffmanTreeNode),
      rightChain acc.weight (ls.map HuffmanTreeNode.weight) = true →
      Merges (acc :: ls) root →
      root.descend (List.replicate ls.length true) = acc := by
  intro ls
  induction ls with
  | nil =>
    intro acc root _ h
    cases h with
    | last hp _ => have := hp.length_eq; simp at this
    | step hp _ _ _ _ => have := hp.length_eq; simp at this
  | cons l ls ih =>
    intro acc root hc h
    simp only [List.map_cons, rightChain, Bool.and_eq_true, decide_eq_true_eq,
      List.all_eq_true, List.mem_map, forall_exists_index, and_imp,
      forall_apply_eq_imp_iff₂] at hc
    obtain ⟨⟨⟨h1, h2⟩, h3⟩, h4⟩ := hc
    obtain ⟨f1, f2⟩ := h.forced l acc ls (List.Perm.swap l acc ls) h1 h2
    have hw : (mergeNode l acc).weight = acc.weight + l.weight := by
      rw [weight_mergeNode, Nat.add_comm, Nat.mod_eq_of_lt h3]
    by_cases hls : ls = []
    · subst hls
      rw [f1 rfl]
      rfl
    · have := ih (mergeNode l acc) root (by rw [hw]; exact h4) (f2 hls)
      rw [List.length_cons, List.replicate_succ', descend_append, this]
      rfl

end

section

open HuffmanTreeNode

theorem weight_leafNode_skewed (i : Byte) :
    (leafNode skewedPoints i).weight = skewedFrequencies.getD i.val 0 := by
  simp [leafNode, skewedPoints, HuffmanTreeNode.weight]

theorem skewedSymbols_nodup : skewedSymbols.Nodup := by decide

theorem skewedSymbols_weights :
    (skewedSymbols.map fun i => skewedFrequencies.getD i.val 0) = skewedFrequencies := by
  decide

theorem skewedSymbols_val : skewedSymbols.map Fin.val = List.range 70 := by decide

theorem mem_skewedSymbols (i : Byte) (h : i.val < 70) : i ∈ skewedSymbols := by
  have h1 : i.val ∈ skewedSymbols.map Fin.val := by
    rw [skewedSymbols_val]; exact List.mem_range.2 h
  obtain ⟨j, hj, hji⟩ := List.mem_map.1 h1
  rw [← Fin.ext hji]; exact hj

/-- The leaves of the symbols outside `skewedSymbols` have weight 0. -/
theorem weight_zero_of_not_mem (i : Byte) (h : i ∉ skewedSymbols) :
    (leafNode skewedPoints i).weight = 0 := by
  rw [weight_leafNode_skewed]
  have h70 : 70 ≤ i.val := by
    by_contra hlt
    exact h (mem_skewedSymbols i (by omega))
  exact List.getD_eq_default _ _ (by simpa [skewedFrequencies] using h70)

/-- The leaves of `skewedPoints`: those of weight 0, and those of `skewedSymbols`. -/
theorem skewed_leaves_perm :
    ((List.finRange 256).map (leafNode skewedPoints)).Perm
      (((List.finRange 256).filter fun i => decide (i ∉ skewedSymbols)).map
          (leafNode skewedPoints) ++
        skewedSymbols.map (leafNode skewedPoints)) := by
  rw [← List.map_append]
  apply List.Perm.map
  have h1 := (List.filter_append_perm (fun i => decide (i ∉ skewedSymbols))
    (List.finRange 256)).symm
  refine h1.trans (List.Perm.append_left _ ?_)
  rw [List.perm_ext_iff_of_nodup ((List.nodup_finRange 256).filter _) skewedSymbols_nodup]
  intro a
  simp [List.mem_filter]

/-- The tree of `skewedPoints` on a lawful queue: the leaf of symbol 0 lies at the end of
`skewedPath`, 70 turns below the root. -/
theorem skewed_tree (root : HuffmanTreeNode)
    (hm : Merges ((List.finRange 256).map (leafNode skewedPoints)) root) :
    (root.descend skewedPath).point = some 0 := by
  have hm2 := hm.of_perm skewed_leaves_perm.symm
  obtain ⟨Z, hZ, hm3⟩ := hm2.zeros_first _ _ (List.Perm.refl _)
    (by
      intro h0
      have h1 : (255 : Byte) ∈ (List.finRange 256).filter fun i =>
          decide (i ∉ skewedSymbols) := by
        rw [List.mem_filter]
        exact ⟨List.mem_finRange _, by decide⟩
      have h2 := List.mem_map_of_mem (leafNode skewedPoints) h1
      rw [h0] at h2
      exact absurd h2 (List.not_mem_nil _))
    (by simp [skewedSymbols])
    (by
      intro z hz
      obtain ⟨i, hi, rfl⟩ := List.mem_map.1 hz
      rw [List.mem_filter] at hi
      exact weight_zero_of_not_mem i (by simpa using hi.2))
    (by
      intro g hg
      obtain ⟨i, hi, rfl⟩ := List.mem_map.1 hg
      rw [weight_leafNode_skewed]
      have : ∀ w ∈ skewedSymbols.map (fun i => skewedFrequencies.getD i.val 0), 0 < w := by
        rw [skewedSymbols_weights]; decide
      exact this _ (List.mem_map_of_mem _ hi))
  -- the chain starts with the node of weight 0 and the leaves of symbols 0 and 1
  obtain ⟨ls, hls, hlw⟩ : ∃ ls : List HuffmanTreeNode,
      skewedSymbols.map (leafNode skewedPoints) =
        leafNode skewedPoints 0 :: leafNode skewedPoints 1 :: ls ∧
      ls.map HuffmanTreeNode.weight = skewedFrequencies.drop 2 := by
    refine ⟨(skewedSymbols.drop 2).map (leafNode skewedPoints), rfl, ?_⟩
    rw [List.map_map]
    have h1 : (HuffmanTreeNode.weight ∘ leafNode skewedPoints) =
        fun i => skewedFrequencies.getD i.val 0 := by
      funext i; exact weight_leafNode_skewed i
    rw [h1, List.map_drop, skewedSymbols_weights]
  rw [hls] at hm3
  have hw0 : (leafNode skewedPoints 0).weight = 2 := by rw [weight_leafNode_skewed]; rfl
  have hw1 : (leafNode skewedPoints 1).weight = 3 := by rw [weight_leafNode_skewed]; rfl
  have hall : ∀ r ∈ ls, 3 < r.weight := by
    intro r hr
    have h1 : r.weight ∈ ls.map HuffmanTreeNode.weight := List.mem_map_of_mem _ hr
    rw [hlw] at h1
    have : ∀ w ∈ skewedFrequencies.drop 2, 3 < w := by decide
    exact this _ h1
  have hlen : ls.length = 68 := by
    have := congrArg List.length hlw
    rw [List.length_map] at this
    rw [this]; rfl
  have hne : ls ≠ [] := by intro h0; rw [h0] at hlen; simp at hlen
  have step1 := (hm3.forced Z (leafNode skewedPoints 0) (leafNode skewedPoints 1 :: ls)
    (List.Perm.refl _) (by rw [hZ, hw0]; norm_num)
    (by
      intro r hr
      rcases List.mem_cons.1 hr with h | h
      · rw [h, hw0, hw1]; norm_num
      · rw [hw0]; have := hall r h; omega)).2 (List.cons_ne_nil _ _)
  have hwA : (mergeNode Z (leafNode skewedPoints 0)).weight = 2 := by
    rw [weight_mergeNode, hZ, hw0]; rfl
  have step2 := (step1.forced (mergeNode Z (leafNode skewedPoints 0))
    (leafNode skewedPoints 1) ls (List.Perm.refl _) (by rw [hwA, hw1]; norm_num)
    (by intro r hr; rw [hw1]; exact hall r hr)).2 hne
  have hwB : (mergeNode (mergeNode Z (leafNode skewedPoints 0))
      (leafNode skewedPoints 1)).weight = 5 := by
    rw [weight_mergeNode, hwA, hw1]; rfl
  have hchain := Merges.right_chain ls _ root
    (by rw [hwB, hlw]; decide) step2
  rw [hlen] at hchain
  rw [skewedPath, descend_append, hchain]
  rfl

end

section

open HuffmanTreeNode

/-- Claim C9: the code register truncates. On every lawful queue, for the table
`skewedPoints` the code of symbol 0 has length 70 and its code string is the path of 70
turns, which starts with turns to the right, while the code register `new_code` is below
`2^64`: its bits 69 down to 0 are not the code string. -/
theorem code_register_truncates_long_code (pq : PriorityQueue) (h : pq.Lawful) :
    ∃ root, (∀ fuel, 255 ≤ fuel → buildHuffmanTree pq skewedPoints fuel = .ok root) ∧
      ((initCodePoint root 0 "" 0 skewedPoints).get 0).length = 70 ∧
      ((initCodePoint root 0 "" 0 skewedPoints).get 0).new_code_str = pathString skewedPath ∧
      ((initCodePoint root 0 "" 0 skewedPoints).get 0).new_code < 2 ^ 64 ∧
      pathString (codeBits ((initCodePoint root 0 "" 0 skewedPoints).get 0).new_code
          ((initCodePoint root 0 "" 0 skewedPoints).get 0).length) ≠
        ((initCodePoint root 0 "" 0 skewedPoints).get 0).new_code_str := by
  obtain ⟨-, root, hroot, hm, htree, -, hleaves, -⟩ := buildHuffmanTree_shape pq h skewedPoints
  obtain ⟨root2, hroot2, -, -, hcodes⟩ := codes_of_build pq h skewedPoints
  have heq : root2 = root := by
    have := (hroot2 255 (le_refl _)).symm.trans (hroot 255 (le_refl _))
    exact Except.ok.inj this
  subst heq
  have hnd : root2.leaves.Nodup := hleaves.nodup_iff.2 (List.nodup_finRange 256)
  obtain ⟨path, hp1, -, -, hp2⟩ := hcodes 0
  have hpath : path = skewedPath := path_unique htree hnd hp1 (skewed_tree root2 hm)
  subst hpath
  have hlen : skewedPath.length = 70 := rfl
  have hlt : codeAfter 0 skewedPath < kCodeTypeMod :=
    codeAfter_lt _ _ (by unfold kCodeTypeMod; norm_num)
  refine ⟨root2, hroot, ?_, ?_, ?_, ?_⟩
  · rw [hp2]; exact hlen
  · rw [hp2]
  · rw [hp2]; exact hlt
  · rw [hp2]
    show pathString (codeBits (codeAfter 0 skewedPath) skewedPath.length) ≠
      pathString skewedPath
    rw [hlen, codeBits_head_of_lt _ 69 hlt (by norm_num)]
    intro hcontra
    have h2 := congrArg String.data hcontra
    rw [pathString_data, pathString_data] at h2
    have h3 := congrArg List.head? h2
    simp [skewedPath, List.replicate, bitChar] at h3

theorem code_register_truncates_long_code_witness :
    stdPriorityQueue.Lawful ∧
    ∃ root, (∀ fuel, 255 ≤ fuel →
        buildHuffmanTree stdPriorityQueue skewedPoints fuel = .ok root) ∧
      ((initCodePoint root 0 "" 0 skewedPoints).get 0).length = 70 ∧
      ((initCodePoint root 0 "" 0 skewedPoints).get 0).new_code_str = pathString skewedPath ∧
      ((initCodePoint root 0 "" 0 skewedPoints).get 0).new_code < 2 ^ 64 ∧
      pathString (codeBits ((initCodePoint root 0 "" 0 skewedPoints).get 0).new_code
          ((initCodePoint root 0 "" 0 skewedPoints).get 0).length) ≠
        ((initCodePoint root 0 "" 0 skewedPoints).get 0).new_code_str :=
  ⟨stdPriorityQueue_lawful,
    code_register_truncates_long_code stdPriorityQueue stdPriorityQueue_lawful⟩

end

section

open HuffmanTreeNode

theorem encodeSlots_mod (x e m : Nat) (hx : x < 16) :
    (x + 16 * e) % (16 * m) = x + 16 * (e % m) := by
  rw [Nat.mod_mul]
  have h1 : (x + 16 * e) % 16 = x := by omega
  have h2 : (x + 16 * e) / 16 = e := by omega
  rw [h1, h2]

theorem encodeSlots_div (x e i : Nat) (hx : x < 16) :
    (x + 16 * e) / 16 ^ (i + 1) = e / 16 ^ i := by
  have h2 : (x + 16 * e) / 16 = e := by omega
  rw [pow_succ', ← Nat.div_div_eq_div_mul, h2]

/-- Reading an element of an encoded list. -/
theorem slotGet_encodeSlots :
    ∀ (c : List Nat) (i : Nat), (∀ x ∈ c, x < 16) → slotGet (encodeSlots c) i = c.getD i 0 := by
  intro c
  induction c with
  | nil => intro i _; simp [slotGet, encodeSlots]
  | cons x xs ih =>
    intro i hb
    have hx : x < 16 := hb x (List.mem_cons_self _ _)
    cases i with
    | zero =>
      simp only [slotGet, encodeSlots, pow_zero, Nat.div_one, List.getD_cons_zero]
      omega
    | succ i =>
      have := ih i (fun y hy => hb y (List.mem_cons_of_mem _ hy))
      simp only [slotGet, encodeSlots, List.getD_cons_succ] at this ⊢
      rw [encodeSlots_div x _ i hx, this]

/-- Replacing an element of an encoded list. -/
theorem slotSet_encodeSlots :
    ∀ (c : List Nat) (i v : Nat), (∀ x ∈ c, x < 16) → i < c.length →
      encodeSlots (c.set i v) = slotSet (encodeSlots c) i v := by
  intro c
  induction c with
  | nil => intro i v _ h; simp at h
  | cons x xs ih =>
    intro i v hb hi
    have hx : x < 16 := hb x (List.mem_cons_self _ _)
    cases i with
    | zero =>
      simp only [List.set_cons_zero, encodeSlots, slotSet, pow_zero, Nat.mod_one, zero_add,
        pow_one, Nat.mul_one]
      omega
    | succ i =>
      have := ih i v (fun y hy => hb y (List.mem_cons_of_mem _ hy))
        (by simpa using hi)
      simp only [List.set_cons_succ, encodeSlots, slotSet] at this ⊢
      rw [this, encodeSlots_div x _ (i + 1) hx]
      have h1 : 16 ^ (i + 1) = 16 * 16 ^ i := by rw [pow_succ, Nat.mul_comm]
      rw [h1, encodeSlots_mod x _ _ hx]
      ring

/-- Appending an element to an encoded list. -/
theorem encodeSlots_append (c : List Nat) (x : Nat) :
    encodeSlots (c ++ [x]) = encodeSlots c + x * 16 ^ c.length := by
  induction c with
  | nil => simp [encodeSlots]
  | cons y ys ih =>
    rw [List.cons_append, encodeSlots, encodeSlots, ih, List.length_cons, pow_succ]
    ring

/-- Dropping the last element of an encoded list. -/
theorem encodeSlots_dropLast :
    ∀ (c : List Nat), (∀ x ∈ c, x < 16) →
      encodeSlots c.dropLast = encodeSlots c % 16 ^ (c.length - 1) := by
  intro c
  induction c with
  | nil => intro _; simp [encodeSlots]
  | cons x xs ih =>
    intro hb
    have hx : x < 16 := hb x (List.mem_cons_self _ _)
    cases xs with
    | nil => simp [encodeSlots, Nat.mod_one]
    | cons y ys =>
      have := ih (fun z hz => hb z (List.mem_cons_of_mem _ hz))
      simp only [List.dropLast_cons₂, encodeSlots, List.length_cons, Nat.add_sub_cancel]
        at this ⊢
      rw [this, pow_succ, Nat.mul_comm (16 ^ ys.length) 16, encodeSlots_mod x _ _ hx]

end

section

open HuffmanTreeNode

theorem spineKey_lt (t : HuffmanTreeNode) : t.spineKey < 16 := by
  unfold spineKey; omega

theorem spineKey_bounded (c : List HuffmanTreeNode) : ∀ x ∈ c.map spineKey, x < 16 := by
  intro x hx
  obtain ⟨t, -, rfl⟩ := List.mem_map.1 hx
  exact spineKey_lt t

theorem spineKey_mergeNode (a b : HuffmanTreeNode) :
    (mergeNode a b).spineKey = min (a.spineKey + 1) 9 := by
  simp only [spineKey, mergeNode, leftDepth]
  omega

theorem getD_map_spineKey (first : List HuffmanTreeNode) (i : Nat) :
    (first.map spineKey).getD i 0 = (first.getD i nullptr).spineKey := by
  rw [List.getD_eq_getElem?_getD, List.getD_eq_getElem?_getD, List.getElem?_map]
  cases first[i]? <;> rfl

theorem slotGet_spineCode (c : List HuffmanTreeNode) (i : Nat) :
    slotGet (spineCode c) i = (c.getD i nullptr).spineKey := by
  rw [spineCode, slotGet_encodeSlots _ _ (spineKey_bounded c), getD_map_spineKey]

theorem slotSet_spineCode (c : List HuffmanTreeNode) (i : Nat) (v : HuffmanTreeNode)
    (hi : i < c.length) : spineCode (c.set i v) = slotSet (spineCode c) i v.spineKey := by
  rw [spineCode, List.map_set, slotSet_encodeSlots _ _ _ (spineKey_bounded c)
    (by simpa using hi)]
  rfl

theorem AllZero.getD {first : List HuffmanTreeNode} (h : AllZero first) (i : Nat) :
    (first.getD i nullptr).weight = 0 := by
  rw [List.getD_eq_getElem?_getD]
  cases hc : first[i]? with
  | none => rfl
  | some x => exact h x (List.getElem?_mem hc)

theorem AllZero.set {c : List HuffmanTreeNode} (h : AllZero c) (i : Nat)
    {v : HuffmanTreeNode} (hv : v.weight = 0) : AllZero (c.set i v) := by
  intro x hx
  rcases List.mem_or_eq_of_mem_set hx with h1 | h1
  · exact h x h1
  · rw [h1]; exact hv

theorem cmp_false_of_zero {a : HuffmanTreeNode} (b : HuffmanTreeNode) (ha : a.weight = 0) :
    CmparatorOfHuffmanTreeNode a b = false := by
  simp [CmparatorOfHuffmanTreeNode, ha]

/-- On nodes of weight 0 `pushHeap` stores the value in the hole at once. -/
theorem pushHeap_zero (first : List HuffmanTreeNode) (topIndex : Nat)
    (value : HuffmanTreeNode) (hz : AllZero first) (fuel holeIndex : Nat) :
    pushHeap first topIndex value fuel holeIndex = first.set holeIndex value := by
  cases fuel with
  | zero => rfl
  | succ f =>
    rw [pushHeap]
    simp only [cmp_false_of_zero value (hz.getD _), Bool.false_eq_true, and_false, if_false]

/-- On nodes of weight 0 the loop of `adjustHeapDown` is the loop `spineDown` on the
encoded keys. -/
theorem adjustHeapDown_zero (len : Nat) :
    ∀ (fuel : Nat) (first : List HuffmanTreeNode) (holeIndex : Nat), AllZero first →
      len ≤ first.length →
      AllZero (adjustHeapDown len fuel first holeIndex).1 ∧
      (adjustHeapDown len fuel first holeIndex).1.length = first.length ∧
      ((adjustHeapDown len fuel first holeIndex).2 = holeIndex ∨
        (adjustHeapDown len fuel first holeIndex).2 < len) ∧
      spineDown len fuel (spineCode first) holeIndex =
        (spineCode (adjustHeapDown len fuel first holeIndex).1,
          (adjustHeapDown len fuel first holeIndex).2) := by
  intro fuel
  induction fuel with
  | zero =>
    intro first hole hz hlen
    exact ⟨hz, rfl, Or.inl rfl, rfl⟩
  | succ f ih =>
    intro first hole hz hlen
    by_cases hh : hole < (len - 1) / 2
    · have e1 : adjustHeapDown len (f + 1) first hole =
          adjustHeapDown len f (first.set hole (first.getD (2 * (hole + 1)) nullptr))
            (2 * (hole + 1)) := by
        rw [adjustHeapDown]
        simp only [hh, if_true, cmp_false_of_zero _ (hz.getD _), Bool.false_eq_true, if_false]
      have e2 : spineDown len (f + 1) (spineCode first) hole =
          spineDown len f (slotSet (spineCode first) hole
            (slotGet (spineCode first) (2 * (hole + 1)))) (2 * (hole + 1)) := by
        rw [spineDown]
        simp only [hh, if_true]
      rw [e1, e2]
      have hz2 : AllZero (first.set hole (first.getD (2 * (hole + 1)) nullptr)) :=
        hz.set hole (hz.getD _)
      obtain ⟨i1, i2, i3, i4⟩ := ih (first.set hole (first.getD (2 * (hole + 1)) nullptr))
        (2 * (hole + 1)) hz2 (by simpa using hlen)
      refine ⟨i1, by simpa using i2, Or.inr ?_, ?_⟩
      · rcases i3 with h | h
        · rw [h]; omega
        · exact h
      · rw [← i4, slotSet_spineCode _ _ _ (by omega), slotGet_spineCode]
    · have e1 : adjustHeapDown len (f + 1) first hole = (first, hole) := by
        rw [adjustHeapDown]
        simp only [hh, if_false]
      have e2 : spineDown len (f + 1) (spineCode first) hole = (spineCode first, hole) := by
        rw [spineDown]
        simp only [hh, if_false]
      rw [e1, e2]
      exact ⟨hz, rfl, Or.inl rfl, rfl⟩

/-- On nodes of weight 0 `adjustHeap` is `spineAdjust` on the encoded keys. -/
theorem adjustHeap_zero (first : List HuffmanTreeNode) (len : Nat) (value : HuffmanTreeNode)
    (hz : AllZero first) (hv : value.weight = 0) (h1 : 1 ≤ len) (hlen : len ≤ first.length) :
    AllZero (adjustHeap first len value) ∧
    (adjustHeap first len value).length = first.length ∧
    spineCode (adjustHeap first len value) =
      spineAdjust (spineCode first) len value.spineKey := by
  obtain ⟨d1, d2, d3, d4⟩ := adjustHeapDown_zero len len first 0 hz hlen
  have hd : (adjustHeapDown len len first 0).2 < len := by
    rcases d3 with h | h
    · rw [h]; omega
    · exact h
  unfold adjustHeap spineAdjust
  simp only [d4]
  by_cases hc : len % 2 = 0 ∧ (adjustHeapDown len len first 0).2 = (len - 2) / 2
  · simp only [if_pos hc]
    have hz2 := d1.set (adjustHeapDown len len first 0).2
      (d1.getD (2 * ((adjustHeapDown len len first 0).2 + 1) - 1))
    rw [pushHeap_zero _ _ _ hz2]
    refine ⟨hz2.set _ hv, by simp [d2], ?_⟩
    rw [slotSet_spineCode _ _ _ (by rw [List.length_set, d2]; omega),
      slotSet_spineCode _ _ _ (by rw [d2]; omega), slotGet_spineCode]
  · simp only [if_neg hc]
    rw [pushHeap_zero _ _ _ d1]
    refine ⟨d1.set _ hv, by simp [d2], ?_⟩
    rw [slotSet_spineCode _ _ _ (by rw [d2]; omega)]

end

section

open HuffmanTreeNode

theorem spineCode_nil : spineCode [] = 0 := rfl

theorem AllZero.dropLast {first : List HuffmanTreeNode} (h : AllZero first) :
    AllZero first.dropLast :=
  fun x hx => h x (List.dropLast_subset first hx)

/-- On nodes of weight 0 `stdPop` is `spinePop` on the encoded keys. -/
theorem stdPop_zero (first : List HuffmanTreeNode) (hz : AllZero first) :
    AllZero (stdPop first) ∧ (stdPop first).length = first.length - 1 ∧
    spineCode (stdPop first) = spinePop (spineCode first) first.length := by
  unfold stdPop spinePop
  by_cases hl : first.length > 1
  · simp only [if_pos hl]
    have hz1 : AllZero (first.set (first.length - 1) (first.getD 0 nullptr)) :=
      hz.set _ (hz.getD 0)
    obtain ⟨a1, a2, a3⟩ := adjustHeap_zero
      (first.set (first.length - 1) (first.getD 0 nullptr)) (first.length - 1)
      (first.getD (first.length - 1) nullptr) hz1 (hz.getD _) (by omega)
      (by rw [List.length_set]; omega)
    refine ⟨a1.dropLast, by rw [List.length_dropLast, a2, List.length_set], ?_⟩
    rw [spineCode, List.map_dropLast, encodeSlots_dropLast _ (spineKey_bounded _),
      List.length_map, a2, List.length_set]
    show spineCode _ % _ = _
    rw [a3, slotSet_spineCode _ _ _ (by omega), slotGet_spineCode, slotGet_spineCode]
  · simp only [if_neg hl]
    have hnil : first.dropLast = [] := by
      apply List.length_eq_zero.1
      rw [List.length_dropLast]; omega
    rw [hnil]
    exact ⟨fun x hx => absurd hx (List.not_mem_nil x), by simp; omega, rfl⟩

theorem spineCode_append (first : List HuffmanTreeNode) (x : HuffmanTreeNode) :
    spineCode (first ++ [x]) = spineCode first + x.spineKey * 16 ^ first.length := by
  rw [spineCode, List.map_append, List.map_singleton, encodeSlots_append, List.length_map]
  rfl

theorem set_length_append (first : List HuffmanTreeNode) (x : HuffmanTreeNode) :
    (first ++ [x]).set first.length x = first ++ [x] := by
  induction first with
  | nil => rfl
  | cons y ys ih => simp only [List.cons_append, List.length_cons, List.set_cons_succ, ih]

/-- On nodes of weight 0 `stdPush` appends the node. -/
theorem stdPush_zero (first : List HuffmanTreeNode) (x : HuffmanTreeNode)
    (hz : AllZero first) (hx : x.weight = 0) : stdPush first x = first ++ [x] := by
  unfold stdPush
  have hz1 : AllZero (first ++ [x]) := by
    intro y hy
    rcases List.mem_append.1 hy with h | h
    · exact hz y h
    · rw [List.mem_singleton.1 h]; exact hx
  rw [pushHeap_zero _ _ _ hz1, set_length_append]

/-- On a libstdc++ queue of nodes of weight 0, the loop of `buildHuffmanTree` is the loop
`spineLoop` on the encoded keys. -/
theorem mergeLoop_zero :
    ∀ (fuel : Nat) (first : List HuffmanTreeNode) (root : HuffmanTreeNode), AllZero first →
      mergeLoop stdPriorityQueue fuel first = .ok root →
      spineLoop fuel (spineCode first) first.length = some root.spineKey := by
  intro fuel
  induction fuel with
  | zero => intro first root _ h; simp [mergeLoop] at h
  | succ f ih =>
    intro first root hz h
    obtain ⟨p1, p2, p3⟩ := stdPop_zero first hz
    obtain ⟨q1, q2, q3⟩ := stdPop_zero (stdPop first) p1
    rw [mergeLoop] at h
    simp only [stdPriorityQueue] at h
    cases h1 : first.head? with
    | none => rw [h1] at h; simp at h
    | some node1 =>
      rw [h1] at h
      simp only at h
      cases h2 : (stdPop first).head? with
      | none => rw [h2] at h; simp at h
      | some node2 =>
        rw [h2] at h
        simp only at h
        have hn1 : first ≠ [] := by intro h0; rw [h0] at h1; simp at h1
        have hn2 : stdPop first ≠ [] := by intro h0; rw [h0] at h2; simp at h2
        have hl1 : 2 ≤ first.length := by
          have : (stdPop first).length ≠ 0 := fun h0 => hn2 (List.length_eq_zero.1 h0)
          omega
        have hnode1 : node1 = first.getD 0 nullptr := by
          cases first with
          | nil => exact absurd rfl hn1
          | cons a as => simp at h1; simp [h1]
        have hw1 : node1.weight = 0 := by rw [hnode1]; exact hz.getD 0
        have hw2 : node2.weight = 0 := p1 node2 (List.mem_of_mem_head? h2)
        have hkey : (mergeNode node1 node2).spineKey =
            min (slotGet (spineCode first) 0 + 1) 9 := by
          rw [spineKey_mergeNode, slotGet_spineCode, hnode1]
        rw [spineLoop]
        have hnot : ¬ first.length < 2 := by omega
        simp only [hnot, if_false]
        by_cases he : (stdPop (stdPop first)).isEmpty = true
        · rw [if_pos he] at h
          have hroot : root = mergeNode node1 node2 := (Except.ok.inj h).symm
          have hlen2 : first.length = 2 := by
            have : (stdPop (stdPop first)).length = 0 := by
              rw [List.isEmpty_iff] at he; rw [he]; rfl
            omega
          simp only [hlen2, if_true]
          rw [hroot, hkey]
        · rw [if_neg he] at h
          have hlen3 : first.length ≠ 2 := by
            intro h0
            apply he
            rw [List.isEmpty_iff]
            apply List.length_eq_zero.1
            omega
          simp only [hlen3, if_false]
          have hwm : (mergeNode node1 node2).weight = 0 := by
            rw [weight_mergeNode, hw1, hw2]; rfl
          rw [stdPush_zero _ _ q1 hwm] at h
          have hz3 : AllZero (stdPop (stdPop first) ++ [mergeNode node1 node2]) := by
            intro y hy
            rcases List.mem_append.1 hy with h0 | h0
            · exact q1 y h0
            · rw [List.mem_singleton.1 h0]; exact hwm
          have := ih _ root hz3 h
          rw [List.length_append, List.length_singleton, q2, p2] at this
          have hl : first.length - 1 - 1 + 1 = first.length - 1 := by omega
          rw [hl] at this
          rw [← this]
          congr 1
          rw [spineCode_append, q3, p3, q2, p2, hkey, Nat.sub_sub]

end

section

open HuffmanTreeNode

/-- The loop of `buildHuffmanTree` on the libstdc++ queue holding 256 nodes of weight 0 that
are leaves: the root of the tree lies 4 left turns above a leaf. -/
theorem spineLoop_leaves : spineLoop 255 0 256 = some 4 := by decide!

theorem encodeSlots_zero (l : List Nat) (h : ∀ x ∈ l, x = 0) : encodeSlots l = 0 := by
  induction l with
  | nil => rfl
  | cons x xs ih =>
    rw [encodeSlots, h x (List.mem_cons_self _ _),
      ih (fun y hy => h y (List.mem_cons_of_mem _ hy))]

/-- On the libstdc++ queue, leaves of weight 0 are appended in slot order. -/
theorem pushLeaves_zero (points : Points) (hp : ∀ i, (points.get i).frequency = 0) :
    ∀ (l : List Byte) (q : List HuffmanTreeNode), AllZero q →
      pushLeaves stdPriorityQueue points l q = q ++ l.map (leafNode points) := by
  intro l
  induction l with
  | nil => intro q _; simp [pushLeaves]
  | cons i rest ih =>
    intro q hq
    have hw : (leafNode points i).weight = 0 := hp i
    have hpush : stdPriorityQueue.push q (leafNode points i) = q ++ [leafNode points i] :=
      stdPush_zero q _ hq hw
    rw [pushLeaves, hpush, ih]
    · simp
    · intro y hy
      rcases List.mem_append.1 hy with h | h
      · exact hq y h
      · rw [List.mem_singleton.1 h]; exact hw

/-- The tree of a table of frequencies 0 on the libstdc++ queue: a leaf lies 4 left turns
below the root. -/
theorem std_zero_spine (points : Points) (hp : ∀ i, (points.get i).frequency = 0)
    (root : HuffmanTreeNode)
    (h : buildHuffmanTree stdPriorityQueue points 255 = .ok root) : root.leftDepth = 4 := by
  unfold buildHuffmanTree at h
  have hinit : stdPriorityQueue.init = ([] : List HuffmanTreeNode) := rfl
  rw [hinit, pushLeaves_zero points hp _ [] (fun x hx => absurd hx (List.not_mem_nil x)),
    List.nil_append] at h
  have hz : AllZero ((List.finRange 256).map (leafNode points)) := by
    intro y hy
    obtain ⟨i, -, rfl⟩ := List.mem_map.1 hy
    exact hp i
  have hsim := mergeLoop_zero 255 _ root hz h
  have hcode : spineCode ((List.finRange 256).map (leafNode points)) = 0 := by
    apply encodeSlots_zero
    intro x hx
    obtain ⟨t, ht, rfl⟩ := List.mem_map.1 hx
    obtain ⟨i, -, rfl⟩ := List.mem_map.1 ht
    rfl
  rw [hcode, List.length_map, List.length_finRange, spineLoop_leaves] at hsim
  have := Option.some.inj hsim
  unfold spineKey at this
  omega

/-- A leaf lies `leftDepth` left turns below the root of a tree. -/
theorem point_descend_leftDepth :
    ∀ (t : HuffmanTreeNode), t.isTree = true →
      (t.descend (List.replicate t.leftDepth false)).point ≠ none := by
  intro t
  induction t with
  | nullptr => intro h; simp [isTree] at h
  | mk w p l r ihl _ =>
    intro h
    cases p with
    | some s => simp [leftDepth, descend, HuffmanTreeNode.point]
    | none =>
      simp only [isTree, Bool.and_eq_true] at h
      simp only [leftDepth, List.replicate_succ, descend, HuffmanTreeNode.left]
      exact ihl h.1

/-- Claim C3: the empty input. On the libstdc++ queue `compress` writes for the empty input
the original size 0, 256 frequencies 0 and the packed byte `0x00`, and from that file
`uncompress` writes at least one byte: the tree of 256 leaves of weight 0 has a leaf 4 left
turns below the root, which the 8 zero bits reach. -/
theorem empty_input_decodes_to_bytes :
    ∃ file out, runCompress stdPriorityQueue 255 [] = .ok file ∧
      file.header.original_size = 0 ∧ (∀ i, file.header.frequency.get i = 0) ∧
      file.packed = [0] ∧
      runUncompress stdPriorityQueue 255 file = .ok out ∧ out ≠ [] := by
  obtain ⟨file, root, out, h1, h2, h3, h4, h5, h6, h7⟩ :=
    roundtrip_empty stdPriorityQueue stdPriorityQueue_lawful 255 (le_refl _)
  refine ⟨file, out, h1, h2, h3, h4, h6, ?_⟩
  intro hout
  have hfreq : ∀ i, ((readHeader file.header).points_.get i).frequency = 0 := by
    intro i
    simp [readHeader, h3]
  have hd := std_zero_spine _ hfreq root h5
  obtain ⟨-, root2, hroot2, -, htree, -, -, -⟩ :=
    buildHuffmanTree_shape stdPriorityQueue stdPriorityQueue_lawful
      (readHeader file.header).points_
  have heq : root2 = root := Except.ok.inj ((hroot2 255 (le_refl _)).symm.trans h5)
  subst heq
  have := point_descend_leftDepth root2 htree
  rw [hd] at this
  exact this (h7.1 hout 4 (by norm_num))

end

section

open HuffmanTreeNode

/-- The frequencies of `skewedPoints` sum to less than `2^64`. -/
theorem skewed_sum : ((List.finRange 256).map (frequencyOf skewedPoints)).sum < 2 ^ 64 := by
  have hmap : (List.finRange 256).map (frequencyOf skewedPoints) =
      ((List.finRange 256).map (leafNode skewedPoints)).map HuffmanTreeNode.weight := by
    rw [List.map_map]
    apply List.map_congr_left
    intro i _
    rfl
  rw [hmap, (skewed_leaves_perm.map HuffmanTreeNode.weight).sum_eq, List.map_append,
    List.sum_append]
  have h0 : (List.map HuffmanTreeNode.weight
      (List.map (leafNode skewedPoints)
        (List.filter (fun i => decide (i ∉ skewedSymbols)) (List.finRange 256)))).sum = 0 := by
    apply List.sum_eq_zero
    intro x hx
    obtain ⟨t, ht, rfl⟩ := List.mem_map.1 hx
    obtain ⟨i, hi, rfl⟩ := List.mem_map.1 ht
    rw [List.mem_filter] at hi
    exact weight_zero_of_not_mem i (by simpa using hi.2)
  have h1 : List.map HuffmanTreeNode.weight (List.map (leafNode skewedPoints) skewedSymbols) =
      skewedFrequencies := by
    rw [List.map_map, ← skewedSymbols_weights]
    apply List.map_congr_left
    intro i _
    exact weight_leafNode_skewed i
  rw [h0, h1]
  decide

/-- With less fuel than 255 merges need, `buildHuffmanTree` on a lawful queue stops for lack
of fuel. -/
theorem buildHuffmanTree_outOfFuel (pq : PriorityQueue) (h : pq.Lawful) (points : Points)
    (fuel : Nat) (hfuel : fuel < 255) :
    buildHuffmanTree pq points fuel = .error .outOfFuel := by
  obtain ⟨I, ⟨hI0, hc0⟩, hpush, hempty, htop⟩ := h.spec
  obtain ⟨hI1, hp1⟩ := pushLeaves_spec pq I hpush points (List.finRange 256) pq.init hI0
  rw [hc0, List.append_nil] at hp1
  have hlen : (pq.c (pushLeaves pq points (List.finRange 256) pq.init)).length = 254 + 2 := by
    rw [hp1.length_eq]; simp
  exact (mergeLoop_spec pq I hpush hempty htop 254 fuel _ hI1 hlen).1 (by omega)

theorem pathString_length (p : List Bool) : (pathString p).length = p.length := by
  simp [pathString, String.length]

/-- Claim C1: the round trip fails. On every lawful queue, for every byte `b`, the input of
eight copies of `b` is compressed to the packed bytes `0xFF 0x00`, and decompressing that
file gives an output that is not the input. -/
theorem round_trip_fails_on_eight_copies (pq : PriorityQueue) (h : pq.Lawful) (b : Byte)
    (fuel : Nat) (hfuel : 255 ≤ fuel) :
    ∃ file out, runCompress pq fuel (List.replicate 8 b) = .ok file ∧
      file.packed = [255, 0] ∧
      runUncompress pq fuel file = .ok out ∧ out ≠ List.replicate 8 b := by
  obtain ⟨file, out, rest, h1, -, h3, h4, h5⟩ := roundtrip_eight pq h b fuel hfuel
  refine ⟨file, out, h1, h3, h4, ?_⟩
  intro hc
  have := congrArg List.length hc
  rw [h5] at this
  simp at this

theorem round_trip_fails_on_eight_copies_witness :
    stdPriorityQueue.Lawful ∧ 255 ≤ 255 ∧
    ∃ file out, runCompress stdPriorityQueue 255 (List.replicate 8 65) = .ok file ∧
      file.packed = [255, 0] ∧
      runUncompress stdPriorityQueue 255 file = .ok out ∧ out ≠ List.replicate 8 65 :=
  ⟨stdPriorityQueue_lawful, le_refl _,
    round_trip_fails_on_eight_copies stdPriorityQueue stdPriorityQueue_lawful 65 255
      (le_refl _)⟩

/-- Claim C2: size accounting fails. On every lawful queue, for the input of eight copies of
a byte the header holds the original size 8, and `uncompress` writes more than 8 bytes:
after the eighth symbol it goes on decoding the byte of padding. -/
theorem uncompress_writes_past_original_size (pq : PriorityQueue) (h : pq.Lawful) (b : Byte)
    (fuel : Nat) (hfuel : 255 ≤ fuel) :
    ∃ file out, runCompress pq fuel (List.replicate 8 b) = .ok file ∧
      file.header.original_size = 8 ∧
      runUncompress pq fuel file = .ok out ∧ 8 < out.length := by
  obtain ⟨file, out, rest, h1, h2, -, h4, h5⟩ := roundtrip_eight pq h b fuel hfuel
  refine ⟨file, out, h1, h2, h4, ?_⟩
  rw [h5]
  simp

theorem uncompress_writes_past_original_size_witness :
    stdPriorityQueue.Lawful ∧ 255 ≤ 300 ∧
    ∃ file out, runCompress stdPriorityQueue 300 (List.replicate 8 0) = .ok file ∧
      file.header.original_size = 8 ∧
      runUncompress stdPriorityQueue 300 file = .ok out ∧ 8 < out.length :=
  ⟨stdPriorityQueue_lawful, by norm_num,
    uncompress_writes_past_original_size stdPriorityQueue stdPriorityQueue_lawful 0 300
      (by norm_num)⟩

/-- Claim C4: prefix-code validity. On every lawful queue and for every frequency table,
after `buildHuffmanTree` and `initCodePoint` the code string of a symbol is not a prefix of
the code string of another symbol, and the two strings differ. -/
theorem code_strings_prefix_free (pq : PriorityQueue) (h : pq.Lawful) (points : Points) :
    ∃ root, (∀ fuel, 255 ≤ fuel → buildHuffmanTree pq points fuel = .ok root) ∧
      ∀ a b : Byte, a ≠ b →
        ¬ (((initCodePoint root 0 "" 0 points).get a).new_code_str.data <+:
            ((initCodePoint root 0 "" 0 points).get b).new_code_str.data) ∧
        ((initCodePoint root 0 "" 0 points).get a).new_code_str ≠
          ((initCodePoint root 0 "" 0 points).get b).new_code_str := by
  obtain ⟨root, hroot, hfree⟩ := codes_prefix_free pq h points
  refine ⟨root, hroot, ?_⟩
  intro a b hab
  refine ⟨hfree a b hab, ?_⟩
  intro heq
  apply hfree a b hab
  rw [heq]

theorem code_strings_prefix_free_witness :
    stdPriorityQueue.Lawful ∧
    ∃ root, (∀ fuel, 255 ≤ fuel →
        buildHuffmanTree stdPriorityQueue skewedPoints fuel = .ok root) ∧
      ∀ a b : Byte, a ≠ b →
        ¬ (((initCodePoint root 0 "" 0 skewedPoints).get a).new_code_str.data <+:
            ((initCodePoint root 0 "" 0 skewedPoints).get b).new_code_str.data) ∧
        ((initCodePoint root 0 "" 0 skewedPoints).get a).new_code_str ≠
          ((initCodePoint root 0 "" 0 skewedPoints).get b).new_code_str :=
  ⟨stdPriorityQueue_lawful,
    code_strings_prefix_free stdPriorityQueue stdPriorityQueue_lawful skewedPoints⟩

/-- Claim C5: tree shape. On every lawful queue and for every frequency table,
`buildHuffmanTree` needs exactly 255 iterations of its loop (with fewer it has not
returned, with 255 or more it returns the same tree), never reads the top of an empty
queue, and the tree has one leaf for each of the 256 byte values, each once, and 255
internal nodes, each without a symbol and with two children that are not null. -/
theorem buildHuffmanTree_tree_shape (pq : PriorityQueue) (h : pq.Lawful) (points : Points) :
    (∀ fuel, fuel < 255 → buildHuffmanTree pq points fuel = .error .outOfFuel) ∧
    (∀ fuel, buildHuffmanTree pq points fuel ≠ .error .emptyTop) ∧
    ∃ root, (∀ fuel, 255 ≤ fuel → buildHuffmanTree pq points fuel = .ok root) ∧
      root.isTree = true ∧ root.point = none ∧
      root.leaves.Perm (List.finRange 256) ∧ root.leaves.length = 256 ∧
      root.internalCount = 255 := by
  obtain ⟨-, root, hroot, -, htree, hpoint, hleaves, hcount⟩ :=
    buildHuffmanTree_shape pq h points
  refine ⟨fun fuel hf => buildHuffmanTree_outOfFuel pq h points fuel hf, ?_,
    root, hroot, htree, hpoint, hleaves, ?_, hcount⟩
  · intro fuel
    by_cases hf : fuel < 255
    · rw [buildHuffmanTree_outOfFuel pq h points fuel hf]
      intro hc
      cases hc
    · rw [hroot fuel (by omega)]
      intro hc
      cases hc
  · rw [hleaves.length_eq, List.length_finRange]

theorem buildHuffmanTree_tree_shape_witness :
    stdPriorityQueue.Lawful ∧
    ((∀ fuel, fuel < 255 →
        buildHuffmanTree stdPriorityQueue HuffmanEncoder.new.points_ fuel =
          .error .outOfFuel) ∧
    (∀ fuel, buildHuffmanTree stdPriorityQueue HuffmanEncoder.new.points_ fuel ≠
        .error .emptyTop) ∧
    ∃ root, (∀ fuel, 255 ≤ fuel →
        buildHuffmanTree stdPriorityQueue HuffmanEncoder.new.points_ fuel = .ok root) ∧
      root.isTree = true ∧ root.point = none ∧
      root.leaves.Perm (List.finRange 256) ∧ root.leaves.length = 256 ∧
      root.internalCount = 255) :=
  ⟨stdPriorityQueue_lawful,
    buildHuffmanTree_tree_shape stdPriorityQueue stdPriorityQueue_lawful
      HuffmanEncoder.new.points_⟩

/-- Claim C6: optimality. On every lawful queue, for every frequency table whose 256
frequencies sum to less than `2^64`, `buildHuffmanTree` returns a tree with one leaf per
symbol, and the code length that `initCodePoint` assigns to each symbol is the depth of its
leaf in this tree (at least 1), the frequencies being left as they are; so the sum over all
symbols of frequency times code length is the sum of frequency times depth of this tree, and
it is at most the sum of frequency times depth of every binary tree whose leaves are the 256
symbols. -/
theorem huffman_codes_minimise_weighted_length (pq : PriorityQueue) (h : pq.Lawful)
    (points : Points)
    (hsum : ((List.finRange 256).map (frequencyOf points)).sum < 2 ^ 64) :
    ∃ root, (∀ fuel, 255 ≤ fuel → buildHuffmanTree pq points fuel = .ok root) ∧
      root.isTree = true ∧ root.leaves.Perm (List.finRange 256) ∧
      (∀ s : Byte, ∃ path : List Bool, (root.descend path).point = some s ∧
        1 ≤ path.length ∧
        ((initCodePoint root 0 "" 0 points).get s).length = path.length ∧
        ((initCodePoint root 0 "" 0 points).get s).frequency = (points.get s).frequency) ∧
      weightedLength (initCodePoint root 0 "" 0 points) =
        root.weightedDepth (frequencyOf points) 0 ∧
      ∀ t : HuffmanTreeNode, t.isTree = true → t.leaves.Perm (List.finRange 256) →
        weightedLength (initCodePoint root 0 "" 0 points) ≤
          t.weightedDepth (frequencyOf points) 0 := by
  obtain ⟨root, hroot, hopt⟩ := buildHuffmanTree_optimal pq h points hsum
  obtain ⟨-, root1, hroot1, -, htree, -, hleaves, -⟩ := buildHuffmanTree_shape pq h points
  obtain ⟨root2, hroot2, -, -, hcodes⟩ := codes_of_build pq h points
  have e1 : root1 = root :=
    Except.ok.inj ((hroot1 255 (le_refl _)).symm.trans (hroot 255 (le_refl _)))
  have e2 : root2 = root :=
    Except.ok.inj ((hroot2 255 (le_refl _)).symm.trans (hroot 255 (le_refl _)))
  rw [e1] at htree hleaves
  rw [e2] at hcodes
  refine ⟨root, hroot, htree, hleaves, ?_, weightedLength_initCodePoint htree hleaves points,
    hopt⟩
  intro s
  obtain ⟨path, k1, k2, -, k4⟩ := hcodes s
  refine ⟨path, k1, k2, ?_, ?_⟩
  · rw [k4]
  · rw [k4]

theorem huffman_codes_minimise_weighted_length_witness :
    stdPriorityQueue.Lawful ∧
    ((List.finRange 256).map (frequencyOf skewedPoints)).sum < 2 ^ 64 ∧
    ∃ root, (∀ fuel, 255 ≤ fuel →
        buildHuffmanTree stdPriorityQueue skewedPoints fuel = .ok root) ∧
      root.isTree = true ∧ root.leaves.Perm (List.finRange 256) ∧
      (∀ s : Byte, ∃ path : List Bool, (root.descend path).point = some s ∧
        1 ≤ path.length ∧
        ((initCodePoint root 0 "" 0 skewedPoints).get s).length = path.length ∧
        ((initCodePoint root 0 "" 0 skewedPoints).get s).frequency =
          (skewedPoints.get s).frequency) ∧
      weightedLength (initCodePoint root 0 "" 0 skewedPoints) =
        root.weightedDepth (frequencyOf skewedPoints) 0 ∧
      ∀ t : HuffmanTreeNode, t.isTree = true → t.leaves.Perm (List.finRange 256) →
        weightedLength (initCodePoint root 0 "" 0 skewedPoints) ≤
          t.weightedDepth (frequencyOf skewedPoints) 0 :=
  ⟨stdPriorityQueue_lawful, skewed_sum,
    huffman_codes_minimise_weighted_length stdPriorityQueue stdPriorityQueue_lawful
      skewedPoints skewed_sum⟩

/-- Claim C7: the final byte. For every input and code table, with `T` the sum of the code
lengths of the input bytes, `compress` writes `T / 8 + 1` packed bytes and leaves
`output_filesize_` incremented as many times: the final byte is written whatever the
buffer holds, so when `T` is a multiple of 8 there is one byte more than `ceil(T / 8)`,
and the empty input gives the one byte `0x00`. -/
theorem compress_writes_final_byte_always (input : List Byte) (e : HuffmanEncoder) :
    (compress input e).1.packed.length = codeLengthSum e.points_ input / 8 + 1 ∧
    (compress input e).2.output_filesize_ =
      (e.output_filesize_ + (codeLengthSum e.points_ input / 8 + 1)) % kCodeTypeMod ∧
    (codeLengthSum e.points_ input % 8 = 0 →
      (compress input e).1.packed.length = (codeLengthSum e.points_ input + 7) / 8 + 1) ∧
    (compress [] e).1.packed = [0] := by
  obtain ⟨-, -, h3, h4⟩ := compress_spec input e
  refine ⟨h3, h4, ?_, rfl⟩
  intro hT
  rw [h3]
  omega

set_option maxRecDepth 8000 in
theorem skewed_register : codeAfter 0 skewedPath = 18446744073709551613 := by decide

/-- The code of symbol 0 for the table `skewedPoints`, on a lawful queue: length 70 and the
register `2^64 - 3`, the last 64 turns of the path. -/
theorem skewed_code (pq : PriorityQueue) (h : pq.Lawful) :
    ∃ root, (∀ fuel, 255 ≤ fuel → buildHuffmanTree pq skewedPoints fuel = .ok root) ∧
      ((initCodePoint root 0 "" 0 skewedPoints).get 0).length = 70 ∧
      ((initCodePoint root 0 "" 0 skewedPoints).get 0).new_code = 18446744073709551613 := by
  obtain ⟨-, root, hroot, hm, htree, -, hleaves, -⟩ := buildHuffmanTree_shape pq h skewedPoints
  obtain ⟨root2, hroot2, -, -, hcodes⟩ := codes_of_build pq h skewedPoints
  have heq : root2 = root :=
    Except.ok.inj ((hroot2 255 (le_refl _)).symm.trans (hroot 255 (le_refl _)))
  subst heq
  have hnd : root2.leaves.Nodup := hleaves.nodup_iff.2 (List.nodup_finRange 256)
  obtain ⟨path, hp1, -, -, hp2⟩ := hcodes 0
  have hpath : path = skewedPath := path_unique htree hnd hp1 (skewed_tree root2 hm)
  subst hpath
  refine ⟨root2, hroot, ?_, ?_⟩
  · rw [hp2]; rfl
  · rw [hp2]; exact skewed_register

/-- Claim C8: the packed bit stream. For every input and code table, the packed bytes that
`compress` writes are below 256, and read from the most significant bit of each byte they
are, for each input byte in input order, the bits that the loop reads from the register
`new_code` at the shift counts `length - 1` down to 0, followed only by zero bits,
`8 - T % 8` of them, `T` being the sum of the code lengths. When the code lengths of the
input bytes are at most 64 these are the bits `length - 1` down to 0 of `new_code`, as the
claim says. They are not when a code is longer than the register: on every lawful queue,
for the table `skewedPoints` symbol 0 has the length 70, the input of one byte 0 is packed
as `F7 FF FF FF FF FF FF FF F4`, where the bits 69 down to 0 of `new_code` with the two bits
of padding are `03 FF FF FF FF FF FF FF F4`, and no input that begins with the byte 0 is
packed as the claim says. -/
theorem compress_packed_bits (pq : PriorityQueue) (h : pq.Lawful) :
    (∀ (input : List Byte) (e : HuffmanEncoder),
      (∀ byte ∈ (compress input e).1.packed, byte < 256) ∧
      (compress input e).1.packed.flatMap byteBits =
        input.flatMap (fun b =>
            registerBits (e.points_.get b).new_code (e.points_.get b).length) ++
          List.replicate (8 - codeLengthSum e.points_ input % 8) false ∧
      ((∀ b ∈ input, (e.points_.get b).length ≤ 64) →
        (compress input e).1.packed.flatMap byteBits =
          input.flatMap (fun b =>
              codeBits (e.points_.get b).new_code (e.points_.get b).length) ++
            List.replicate (8 - codeLengthSum e.points_ input % 8) false)) ∧
    ∃ root, (∀ fuel, 255 ≤ fuel → buildHuffmanTree pq skewedPoints fuel = .ok root) ∧
      ∀ e : HuffmanEncoder, e.points_ = initCodePoint root 0 "" 0 skewedPoints →
        (e.points_.get 0).length = 70 ∧
        (compress [0] e).1.packed = [247, 255, 255, 255, 255, 255, 255, 255, 244] ∧
        codeBits (e.points_.get 0).new_code (e.points_.get 0).length ++
            List.replicate 2 false =
          [3, 255, 255, 255, 255, 255, 255, 255, 244].flatMap byteBits ∧
        ∀ rest : List Byte,
          (compress (0 :: rest) e).1.packed.flatMap byteBits ≠
            (0 :: rest).flatMap (fun b =>
                codeBits (e.points_.get b).new_code (e.points_.get b).length) ++
              List.replicate (8 - codeLengthSum e.points_ (0 :: rest) % 8) false := by
  constructor
  · intro input e
    obtain ⟨h1, h2, -, -⟩ := compress_spec input e
    refine ⟨h1, h2, ?_⟩
    intro hcode
    rw [h2]
    congr 1
    apply List.flatMap_congr
    intro b hb
    exact registerBits_eq_codeBits _ _ (hcode b hb)
  · obtain ⟨root, hroot, hlen, hcode⟩ := skewed_code pq h
    refine ⟨root, hroot, ?_⟩
    intro e he
    rw [← he] at hlen hcode
    refine ⟨hlen, ?_, ?_, ?_⟩
    · simp only [compress, packBytes, hlen, hcode]
      simp [packCode, packFlush]
    · rw [hlen, hcode]
      decide
    · intro rest hcontra
      rw [(compress_spec (0 :: rest) e).2.1] at hcontra
      have h3 := congrArg List.head? hcontra
      have hr : registerBits 18446744073709551613 70 =
          true :: registerBits 18446744073709551613 69 := by decide
      have hc : codeBits 18446744073709551613 70 =
          false :: codeBits 18446744073709551613 69 := by decide
      simp only [List.flatMap_cons, hlen, hcode, List.append_assoc, hr, hc, List.cons_append,
        List.head?_cons, Option.some.injEq] at h3
      exact Bool.noConfusion h3

theorem compress_packed_bits_witness :
    stdPriorityQueue.Lawful ∧
    ((∀ (input : List Byte) (e : HuffmanEncoder),
      (∀ byte ∈ (compress input e).1.packed, byte < 256) ∧
      (compress input e).1.packed.flatMap byteBits =
        input.flatMap (fun b =>
            registerBits (e.points_.get b).new_code (e.points_.get b).length) ++
          List.replicate (8 - codeLengthSum e.points_ input % 8) false ∧
      ((∀ b ∈ input, (e.points_.get b).length ≤ 64) →
        (compress input e).1.packed.flatMap byteBits =
          input.flatMap (fun b =>
              codeBits (e.points_.get b).new_code (e.points_.get b).length) ++
            List.replicate (8 - codeLengthSum e.points_ input % 8) false)) ∧
    ∃ root, (∀ fuel, 255 ≤ fuel →
        buildHuffmanTree stdPriorityQueue skewedPoints fuel = .ok root) ∧
      ∀ e : HuffmanEncoder, e.points_ = initCodePoint root 0 "" 0 skewedPoints →
        (e.points_.get 0).length = 70 ∧
        (compress [0] e).1.packed = [247, 255, 255, 255, 255, 255, 255, 255, 244] ∧
        codeBits (e.points_.get 0).new_code (e.points_.get 0).length ++
            List.replicate 2 false =
          [3, 255, 255, 255, 255, 255, 255, 255, 244].flatMap byteBits ∧
        ∀ rest : List Byte,
          (compress (0 :: rest) e).1.packed.flatMap byteBits ≠
            (0 :: rest).flatMap (fun b =>
                codeBits (e.points_.get b).new_code (e.points_.get b).length) ++
              List.replicate (8 - codeLengthSum e.points_ (0 :: rest) % 8) false) :=
  ⟨stdPriorityQueue_lawful, compress_packed_bits stdPriorityQueue stdPriorityQueue_lawful⟩

/-- Claim C10: code assignment. On every lawful queue and for every frequency table, after
`initCodePoint(root, 0, "", 0)` on the tree of `buildHuffmanTree` every symbol has one path
from the root to its leaf, `new_code_str` is the string of the turns of that path (`'0'`
to the left, `'1'` to the right), and `length` is the number of turns, which is the number
of characters of `new_code_str` and lies between 1 and 255. -/
theorem initCodePoint_assigns_paths (pq : PriorityQueue) (h : pq.Lawful) (points : Points) :
    ∃ root, (∀ fuel, 255 ≤ fuel → buildHuffmanTree pq points fuel = .ok root) ∧
      ∀ s : Byte, ∃ path : List Bool,
        (root.descend path).point = some s ∧
        (∀ q, (root.descend q).point = some s → q = path) ∧
        ((initCodePoint root 0 "" 0 points).get s).new_code_str = pathString path ∧
        ((initCodePoint root 0 "" 0 points).get s).length = path.length ∧
        ((initCodePoint root 0 "" 0 points).get s).length =
          ((initCodePoint root 0 "" 0 points).get s).new_code_str.length ∧
        1 ≤ ((initCodePoint root 0 "" 0 points).get s).length ∧
        ((initCodePoint root 0 "" 0 points).get s).length ≤ 255 := by
  obtain ⟨-, root, hroot, -, htree, -, hleaves, -⟩ := buildHuffmanTree_shape pq h points
  obtain ⟨root2, hroot2, -, -, hcodes⟩ := codes_of_build pq h points
  have heq : root2 = root :=
    Except.ok.inj ((hroot2 255 (le_refl _)).symm.trans (hroot 255 (le_refl _)))
  subst heq
  have hnd : root2.leaves.Nodup := hleaves.nodup_iff.2 (List.nodup_finRange 256)
  refine ⟨root2, hroot, ?_⟩
  intro s
  obtain ⟨path, hp1, hp2, hp3, hp4⟩ := hcodes s
  refine ⟨path, hp1, fun q hq => path_unique htree hnd hq hp1, ?_, ?_, ?_, ?_, ?_⟩
  · rw [hp4]
  · rw [hp4]
  · rw [hp4]; exact (pathString_length path).symm
  · rw [hp4]; exact hp2
  · rw [hp4]; exact hp3

theorem initCodePoint_assigns_paths_witness :
    stdPriorityQueue.Lawful ∧
    ∃ root, (∀ fuel, 255 ≤ fuel →
        buildHuffmanTree stdPriorityQueue skewedPoints fuel = .ok root) ∧
      ∀ s : Byte, ∃ path : List Bool,
        (root.descend path).point = some s ∧
        (∀ q, (root.descend q).point = some s → q = path) ∧
        ((initCodePoint root 0 "" 0 skewedPoints).get s).new_code_str = pathString path ∧
        ((initCodePoint root 0 "" 0 skewedPoints).get s).length = path.length ∧
        ((initCodePoint root 0 "" 0 skewedPoints).get s).length =
          ((initCodePoint root 0 "" 0 skewedPoints).get s).new_code_str.length ∧
        1 ≤ ((initCodePoint root 0 "" 0 skewedPoints).get s).length ∧
        ((initCodePoint root 0 "" 0 skewedPoints).get s).length ≤ 255 :=
  ⟨stdPriorityQueue_lawful,
    initCodePoint_assigns_paths stdPriorityQueue stdPriorityQueue_lawful skewedPoints⟩

end

section

open HuffmanTreeNode

/-- The occurrences of the 256 byte values in a sequence add up to its length. -/
theorem sum_count_bytes (input : List Byte) :
    ((List.finRange 256).map fun b => input.count b).sum = input.length := by
  have h : ∑ a : Byte, (input : Multiset Byte).count a = Multiset.card (input : Multiset Byte) :=
    Multiset.sum_count_eq_card (fun a _ => Finset.mem_univ a)
  rw [Fin.sum_univ_def] at h
  simpa using h

/-- The scan of an input of fewer than `2^64` bytes by a fresh encoder counts the
occurrences of every byte value and the length of the input. -/
theorem statisticalFrequency_fresh (input : List Byte) (hlen : input.length < 2 ^ 64) :
    (∀ b : Byte, ((statisticalFrequency input HuffmanEncoder.new).points_.get b).frequency =
      input.count b) ∧
    (statisticalFrequency input HuffmanEncoder.new).input_filesize_ = input.length ∧
    ((List.finRange 256).map
      (frequencyOf (statisticalFrequency input HuffmanEncoder.new).points_)).sum =
        input.length := by
  obtain ⟨h1, h2, -, -⟩ := statisticalFrequency_spec input HuffmanEncoder.new
  have hfreq : ∀ b : Byte,
      ((statisticalFrequency input HuffmanEncoder.new).points_.get b).frequency =
        input.count b := by
    intro b
    rw [h1 b]
    have h0 : (HuffmanEncoder.new.points_.get b).frequency = 0 := by
      simp [HuffmanEncoder.new]
    have hle : input.count b ≤ input.length := List.count_le_length _ _
    by_cases hc : input.count b = 0
    · simp [hc, h0]
    · simp only [hc, if_false, h0, Nat.zero_add]
      exact Nat.mod_eq_of_lt (by unfold kCodeTypeMod; omega)
  refine ⟨hfreq, ?_, ?_⟩
  · rw [h2]
    have h0 : HuffmanEncoder.new.input_filesize_ = 0 := rfl
    by_cases hc : input.length = 0
    · simp [hc, h0]
    · simp only [hc, if_false, h0, Nat.zero_add]
      exact Nat.mod_eq_of_lt (by unfold kCodeTypeMod; omega)
  · have hmap : (List.finRange 256).map
        (frequencyOf (statisticalFrequency input HuffmanEncoder.new).points_) =
        (List.finRange 256).map fun b => input.count b :=
      List.map_congr_left (fun b _ => hfreq b)
    rw [hmap]
    exact sum_count_bytes input

/-- Claim C11: the frequency scan. For every input of fewer than `2^64` bytes (the range of
the 64-bit counters), after `statisticalFrequency` on a fresh encoder the frequency of each
byte value is the number of its occurrences in the input, `input_filesize_` is the length of
the input, and the 256 frequencies sum to that length. -/
theorem statisticalFrequency_counts (input : List Byte) (hlen : input.length < 2 ^ 64) :
    (∀ b : Byte, ((statisticalFrequency input HuffmanEncoder.new).points_.get b).frequency =
      input.count b) ∧
    (statisticalFrequency input HuffmanEncoder.new).input_filesize_ = input.length ∧
    ((List.finRange 256).map
      (frequencyOf (statisticalFrequency input HuffmanEncoder.new).points_)).sum =
        input.length :=
  statisticalFrequency_fresh input hlen

theorem statisticalFrequency_counts_witness :
    ([1, 2, 3, 1, 1] : List Byte).length < 2 ^ 64 ∧
    ((∀ b : Byte,
      ((statisticalFrequency [1, 2, 3, 1, 1] HuffmanEncoder.new).points_.get b).frequency =
        ([1, 2, 3, 1, 1] : List Byte).count b) ∧
    (statisticalFrequency [1, 2, 3, 1, 1] HuffmanEncoder.new).input_filesize_ =
      ([1, 2, 3, 1, 1] : List Byte).length ∧
    ((List.finRange 256).map
      (frequencyOf (statisticalFrequency [1, 2, 3, 1, 1] HuffmanEncoder.new).points_)).sum =
        ([1, 2, 3, 1, 1] : List Byte).length) :=
  ⟨by norm_num, statisticalFrequency_counts [1, 2, 3, 1, 1] (by norm_num)⟩

end

section

open HuffmanTreeNode

/-- A property that merges keep holds of the tree when it holds of the nodes merged. -/
theorem Merges.closed (P : HuffmanTreeNode → Prop)
    (hP : ∀ a b, P a → P b → a.weight ≤ b.weight → P (mergeNode a b))
    {F : List HuffmanTreeNode} {root : HuffmanTreeNode} (h : Merges F root)
    (hF : ∀ t ∈ F, P t) : P root := by
  induction h with
  | @last F a b hp hab =>
    exact hP a b (hF a (hp.symm.subset (by simp))) (hF b (hp.symm.subset (by simp))) hab
  | @step F rest a b root hp _ hmin _ _ ih =>
    apply ih
    intro t ht
    rcases List.mem_cons.1 ht with rfl | ht
    · exact hP a b (hF a (hp.symm.subset (by simp))) (hF b (hp.symm.subset (by simp)))
        (hmin b (by simp))
    · exact hF t (hp.symm.subset (by simp [ht]))

theorem descend_leafNode (points : Points) (i : Byte) (path : List Bool) (w : Nat)
    (l r : HuffmanTreeNode) : (leafNode points i).descend path ≠ .mk w none l r := by
  cases path with
  | nil => simp [descend, leafNode]
  | cons t p =>
    cases t <;> simp [descend, leafNode, HuffmanTreeNode.left, HuffmanTreeNode.right,
      descend_nullptr]

/-- Every internal node of a tree of merges has the 64-bit sum of the weights of its
children as weight, and its left child is not heavier than its right child. -/
theorem Merges.sums_children {F : List HuffmanTreeNode} {root : HuffmanTreeNode}
    (h : Merges F root) (points : Points)
    (hF : ∀ t ∈ F, ∃ i, t = leafNode points i) :
    ∀ path w l r, root.descend path = .mk w none l r →
      w = (l.weight + r.weight) % kCodeTypeMod ∧ l.weight ≤ r.weight := by
  refine Merges.closed
    (fun t => ∀ path w l r, t.descend path = .mk w none l r →
      w = (l.weight + r.weight) % kCodeTypeMod ∧ l.weight ≤ r.weight) ?_ h ?_
  · intro a b ha hb hab path w l r hd
    cases path with
    | nil =>
      simp only [descend, mergeNode, HuffmanTreeNode.mk.injEq, true_and] at hd
      obtain ⟨h1, h2, h3⟩ := hd
      subst h2 h3
      exact ⟨h1.symm, hab⟩
    | cons t p =>
      cases t with
      | false => exact ha p w l r hd
      | true => exact hb p w l r hd
  · intro t ht path w l r hd
    obtain ⟨i, rfl⟩ := hF t ht
    exact absurd hd (descend_leafNode points i path w l r)

/-- When the frequencies of the leaves sum to less than `2^64`, the weight of every node of a
tree of merges is the sum of the frequencies of its leaves. -/
theorem Merges.exact_weights (freq : Byte → Nat) {F : List HuffmanTreeNode}
    {root : HuffmanTreeNode} (h : Merges F root) :
    (∀ t ∈ F, t.weight = t.leafWeight freq ∧
      ∀ path w l r, t.descend path = .mk w none l r →
        w = l.weight + r.weight ∧ w = (HuffmanTreeNode.mk w none l r).leafWeight freq) →
    (F.map (leafWeight freq)).sum < kCodeTypeMod →
    root.weight = root.leafWeight freq ∧
      ∀ path w l r, root.descend path = .mk w none l r →
        w = l.weight + r.weight ∧ w = (HuffmanTreeNode.mk w none l r).leafWeight freq := by
  have key : ∀ a b : HuffmanTreeNode,
      (a.weight = a.leafWeight freq ∧
        ∀ path w l r, a.descend path = .mk w none l r →
          w = l.weight + r.weight ∧ w = (HuffmanTreeNode.mk w none l r).leafWeight freq) →
      (b.weight = b.leafWeight freq ∧
        ∀ path w l r, b.descend path = .mk w none l r →
          w = l.weight + r.weight ∧ w = (HuffmanTreeNode.mk w none l r).leafWeight freq) →
      a.leafWeight freq + b.leafWeight freq < kCodeTypeMod →
      ((mergeNode a b).weight = (mergeNode a b).leafWeight freq ∧
        ∀ path w l r, (mergeNode a b).descend path = .mk w none l r →
          w = l.weight + r.weight ∧ w = (HuffmanTreeNode.mk w none l r).leafWeight freq) := by
    intro a b ha hb hlt
    have hw : (mergeNode a b).weight = a.leafWeight freq + b.leafWeight freq := by
      rw [weight_mergeNode, ha.1, hb.1, Nat.mod_eq_of_lt hlt]
    refine ⟨by rw [hw, leafWeight_mergeNode], ?_⟩
    intro path w l r hd
    cases path with
    | nil =>
      simp only [descend, mergeNode, HuffmanTreeNode.mk.injEq, true_and] at hd
      obtain ⟨h1, h2, h3⟩ := hd
      subst h2 h3
      have hw2 : w = a.weight + b.weight := by
        rw [← h1, ha.1, hb.1, Nat.mod_eq_of_lt hlt]
      refine ⟨hw2, ?_⟩
      rw [hw2, ha.1, hb.1]
      rfl
    | cons t p =>
      cases t with
      | false => exact ha.2 p w l r hd
      | true => exact hb.2 p w l r hd
  induction h with
  | @last F a b hp hab =>
    intro hF hsum
    have hs := (hp.map (leafWeight freq)).sum_eq
    simp only [List.map_cons, List.map_nil, List.sum_cons, List.sum_nil, Nat.add_zero] at hs
    exact key a b (hF a (hp.symm.subset (by simp))) (hF b (hp.symm.subset (by simp)))
      (by omega)
  | @step F rest a b root hp _ _ _ _ ih =>
    intro hF hsum
    have hs := (hp.map (leafWeight freq)).sum_eq
    simp only [List.map_cons, List.sum_cons] at hs
    have hm := key a b (hF a (hp.symm.subset (by simp))) (hF b (hp.symm.subset (by simp)))
      (by omega)
    apply ih
    · intro t ht
      rcases List.mem_cons.1 ht with rfl | ht
      · exact hm
      · exact hF t (hp.symm.subset (by simp [ht]))
    · simp only [List.map_cons, List.sum_cons, leafWeight_mergeNode]
      omega

/-- The frequencies of the leaves of a tree sum to the sum over the symbols of its
leaves. -/
theorem leafWeight_eq_sum (freq : Byte → Nat) :
    ∀ t : HuffmanTreeNode, t.leafWeight freq = (t.leaves.map freq).sum := by
  intro t
  induction t with
  | nullptr => rfl
  | mk w p l r ihl ihr =>
    cases p with
    | some p => simp [leafWeight, leaves]
    | none => simp [leafWeight, leaves, ihl, ihr]

end

section

open HuffmanTreeNode

/-- Claim C19: the merge step. On every lawful queue and for every frequency table, every
internal node of the tree of `buildHuffmanTree` has as weight the sum of the weights of its
two children as the code computes it (in 64-bit arithmetic), and its left child, the node
extracted first, is not heavier than its right child; when the 256 frequencies sum to less
than `2^64` the weight is the exact sum, it is the sum of the frequencies of the leaves
below the node, and the weight of the root is the sum of the 256 frequencies. -/
theorem merge_step_weights (pq : PriorityQueue) (h : pq.Lawful) (points : Points) :
    ∃ root, (∀ fuel, 255 ≤ fuel → buildHuffmanTree pq points fuel = .ok root) ∧
      (∀ path w l r, root.descend path = .mk w none l r →
        w = (l.weight + r.weight) % kCodeTypeMod ∧ l.weight ≤ r.weight) ∧
      (((List.finRange 256).map (frequencyOf points)).sum < 2 ^ 64 →
        (∀ path w l r, root.descend path = .mk w none l r →
          w = l.weight + r.weight ∧
          w = (HuffmanTreeNode.mk w none l r).leafWeight (frequencyOf points)) ∧
        root.weight = ((List.finRange 256).map (frequencyOf points)).sum) := by
  obtain ⟨-, root, hroot, hm, -, -, hleaves, -⟩ := buildHuffmanTree_shape pq h points
  refine ⟨root, hroot, ?_, ?_⟩
  · apply hm.sums_children points
    intro t ht
    obtain ⟨i, -, rfl⟩ := List.mem_map.1 ht
    exact ⟨i, rfl⟩
  · intro hsum
    have hex := hm.exact_weights (frequencyOf points)
      (by
        intro t ht
        obtain ⟨i, -, rfl⟩ := List.mem_map.1 ht
        refine ⟨rfl, ?_⟩
        intro path w l r hd
        exact absurd hd (descend_leafNode points i path w l r))
      (by
        rw [sum_leafWeight_leafNode]
        exact hsum)
    refine ⟨hex.2, ?_⟩
    rw [hex.1, leafWeight_eq_sum, (hleaves.map (frequencyOf points)).sum_eq]

theorem merge_step_weights_witness :
    stdPriorityQueue.Lawful ∧
    ∃ root, (∀ fuel, 255 ≤ fuel →
        buildHuffmanTree stdPriorityQueue skewedPoints fuel = .ok root) ∧
      (∀ path w l r, root.descend path = .mk w none l r →
        w = (l.weight + r.weight) % kCodeTypeMod ∧ l.weight ≤ r.weight) ∧
      (((List.finRange 256).map (frequencyOf skewedPoints)).sum < 2 ^ 64 →
        (∀ path w l r, root.descend path = .mk w none l r →
          w = l.weight + r.weight ∧
          w = (HuffmanTreeNode.mk w none l r).leafWeight (frequencyOf skewedPoints)) ∧
        root.weight = ((List.finRange 256).map (frequencyOf skewedPoints)).sum) :=
  ⟨stdPriorityQueue_lawful,
    merge_step_weights stdPriorityQueue stdPriorityQueue_lawful skewedPoints⟩

end

section

open HuffmanTreeNode

/-- The leaves pushed depend on the frequencies of the table only. -/
theorem pushLeaves_congr (pq : PriorityQueue) (points1 points2 : Points)
    (hf : ∀ i, (points1.get i).frequency = (points2.get i).frequency) :
    ∀ (l : List Byte) (q : pq.Q), pushLeaves pq points1 l q = pushLeaves pq points2 l q := by
  intro l
  induction l with
  | nil => intro q; rfl
  | cons i rest ih =>
    intro q
    have hl : leafNode points1 i = leafNode points2 i := by
      unfold leafNode
      rw [hf i]
    simp only [pushLeaves, hl, ih]

/-- Claim C16: determinism. On every lawful queue, two symbol tables that hold the same 256
frequencies give the same result of `buildHuffmanTree` for every bound on its loop, the
same tree, and after `initCodePoint` the same `new_code`, `new_code_str` and `length` for
all 256 symbols. -/
theorem codes_depend_on_frequencies_only (pq : PriorityQueue) (h : pq.Lawful)
    (points1 points2 : Points)
    (hf : ∀ i, (points1.get i).frequency = (points2.get i).frequency) :
    (∀ fuel, buildHuffmanTree pq points1 fuel = buildHuffmanTree pq points2 fuel) ∧
    ∃ root, (∀ fuel, 255 ≤ fuel → buildHuffmanTree pq points1 fuel = .ok root) ∧
      (∀ fuel, 255 ≤ fuel → buildHuffmanTree pq points2 fuel = .ok root) ∧
      ∀ s : Byte,
        ((initCodePoint root 0 "" 0 points1).get s).new_code =
          ((initCodePoint root 0 "" 0 points2).get s).new_code ∧
        ((initCodePoint root 0 "" 0 points1).get s).new_code_str =
          ((initCodePoint root 0 "" 0 points2).get s).new_code_str ∧
        ((initCodePoint root 0 "" 0 points1).get s).length =
          ((initCodePoint root 0 "" 0 points2).get s).length := by
  have hb : ∀ fuel, buildHuffmanTree pq points1 fuel = buildHuffmanTree pq points2 fuel := by
    intro fuel
    unfold buildHuffmanTree
    rw [pushLeaves_congr pq points1 points2 hf]
  obtain ⟨-, root, hroot, -, htree, -, hleaves, -⟩ := buildHuffmanTree_shape pq h points1
  have hnd : root.leaves.Nodup := hleaves.nodup_iff.2 (List.nodup_finRange 256)
  refine ⟨hb, root, hroot, fun fuel hfuel => (hb fuel).symm.trans (hroot fuel hfuel), ?_⟩
  intro s
  have hs : s ∈ root.leaves := hleaves.symm.subset (List.mem_finRange s)
  obtain ⟨p1, hp1, hq1⟩ := (initCodePoint_spec root htree hnd 0 "" 0 points1).2 s hs
  obtain ⟨p2, hp2, hq2⟩ := (initCodePoint_spec root htree hnd 0 "" 0 points2).2 s hs
  have hp : p1 = p2 := path_unique htree hnd hp1 hp2
  subst hp
  rw [hq1, hq2]
  exact ⟨rfl, rfl, rfl⟩

/-- The table read from the header that `compress` writes holds the frequencies of the
encoder. -/
theorem readHeader_compress_frequency (input : List Byte) (e : HuffmanEncoder) (i : Byte) :
    ((readHeader (compress input e).1.header).points_.get i).frequency =
      (e.points_.get i).frequency := by
  simp [readHeader, compress]

theorem codes_depend_on_frequencies_only_witness :
    stdPriorityQueue.Lawful ∧
    (∀ i, (((statisticalFrequency [1, 2, 3, 1, 1] HuffmanEncoder.new).points_).get
        i).frequency =
      ((readHeader (compress [1, 2, 3, 1, 1]
        (statisticalFrequency [1, 2, 3, 1, 1] HuffmanEncoder.new)).1.header).points_.get
          i).frequency) ∧
    ((∀ fuel,
        buildHuffmanTree stdPriorityQueue
          (statisticalFrequency [1, 2, 3, 1, 1] HuffmanEncoder.new).points_ fuel =
        buildHuffmanTree stdPriorityQueue
          (readHeader (compress [1, 2, 3, 1, 1]
            (statisticalFrequency [1, 2, 3, 1, 1] HuffmanEncoder.new)).1.header).points_
          fuel) ∧
    ∃ root,
      (∀ fuel, 255 ≤ fuel →
        buildHuffmanTree stdPriorityQueue
          (statisticalFrequency [1, 2, 3, 1, 1] HuffmanEncoder.new).points_ fuel =
          .ok root) ∧
      (∀ fuel, 255 ≤ fuel →
        buildHuffmanTree stdPriorityQueue
          (readHeader (compress [1, 2, 3, 1, 1]
            (statisticalFrequency [1, 2, 3, 1, 1] HuffmanEncoder.new)).1.header).points_
          fuel = .ok root) ∧
      ∀ s : Byte,
        ((initCodePoint root 0 "" 0
            (statisticalFrequency [1, 2, 3, 1, 1] HuffmanEncoder.new).points_).get
          s).new_code =
          ((initCodePoint root 0 "" 0
            (readHeader (compress [1, 2, 3, 1, 1]
              (statisticalFrequency [1, 2, 3, 1, 1] HuffmanEncoder.new)).1.header).points_).get
            s).new_code ∧
        ((initCodePoint root 0 "" 0
            (statisticalFrequency [1, 2, 3, 1, 1] HuffmanEncoder.new).points_).get
          s).new_code_str =
          ((initCodePoint root 0 "" 0
            (readHeader (compress [1, 2, 3, 1, 1]
              (statisticalFrequency [1, 2, 3, 1, 1] HuffmanEncoder.new)).1.header).points_).get
            s).new_code_str ∧
        ((initCodePoint root 0 "" 0
            (statisticalFrequency [1, 2, 3, 1, 1] HuffmanEncoder.new).points_).get
          s).length =
          ((initCodePoint root 0 "" 0
            (readHeader (compress [1, 2, 3, 1, 1]
              (statisticalFrequency [1, 2, 3, 1, 1] HuffmanEncoder.new)).1.header).points_).get
            s).length) :=
  ⟨stdPriorityQueue_lawful,
    fun i => (readHeader_compress_frequency _ _ i).symm,
    codes_depend_on_frequencies_only stdPriorityQueue stdPriorityQueue_lawful _ _
      (fun i => (readHeader_compress_frequency _ _ i).symm)⟩

end

section

open HuffmanTreeNode

/-- The table after the scan of `n` copies of a byte, `n` below `2^64`: `n` for the byte and
0 for the others. -/
theorem frequency_replicate (b : Byte) (n : Nat) (hlt : n < 2 ^ 64) (i : Byte) :
    ((statisticalFrequency (List.replicate n b) HuffmanEncoder.new).points_.get i).frequency =
      if i = b then n else 0 := by
  rw [(statisticalFrequency_fresh (List.replicate n b) (by simpa using hlt)).1 i,
    count_replicate_byte]

theorem flatMap_replicate_const {α β : Type} (n : Nat) (a : α) (f : α → List β) :
    (List.replicate n a).flatMap f = (List.replicate n (f a)).flatten := by
  induction n with
  | zero => rfl
  | succ k ih => simp [List.replicate_succ, List.flatMap_cons, ih]

theorem flatten_replicate_singleton {β : Type} (n : Nat) (x : β) :
    (List.replicate n [x]).flatten = List.replicate n x := by
  induction n with
  | zero => rfl
  | succ k ih => simp [List.replicate_succ, ih]

/-- Claim C17: a single repeated byte. On every lawful queue, for every byte `b` and every
`n` from 1 up to the range of the 64-bit counters, for the input of `n` copies of `b` the
leaf of `b` is the right child of the root, the code of `b` is the one bit 1 (`new_code`
1, `new_code_str` `"1"`, `length` 1), and the `n` input bytes are packed as `n` one-bits,
the sum of the code lengths of the input being `n`. -/
theorem single_repeated_byte (pq : PriorityQueue) (h : pq.Lawful) (b : Byte) (n : Nat)
    (hn : 1 ≤ n) (hlt : n < 2 ^ 64) :
    ∃ root, (∀ fuel, 255 ≤ fuel →
        buildHuffmanTree pq
          (statisticalFrequency (List.replicate n b) HuffmanEncoder.new).points_ fuel =
          .ok root) ∧
      (root.descend [true]).point = some b ∧
      ((initCodePoint root 0 "" 0
        (statisticalFrequency (List.replicate n b) HuffmanEncoder.new).points_).get
          b).new_code = 1 ∧
      ((initCodePoint root 0 "" 0
        (statisticalFrequency (List.replicate n b) HuffmanEncoder.new).points_).get
          b).new_code_str = "1" ∧
      ((initCodePoint root 0 "" 0
        (statisticalFrequency (List.replicate n b) HuffmanEncoder.new).points_).get
          b).length = 1 ∧
      codeLengthSum (initCodePoint root 0 "" 0
        (statisticalFrequency (List.replicate n b) HuffmanEncoder.new).points_)
        (List.replicate n b) = n ∧
      ∀ fuel, 255 ≤ fuel → ∃ file, runCompress pq fuel (List.replicate n b) = .ok file ∧
        file.packed.flatMap byteBits =
          List.replicate n true ++ List.replicate (8 - n % 8) false := by
  obtain ⟨root, Z, hroot, hZ, -, -, hc, hs, hl⟩ := single_symbol_tree pq h
    (statisticalFrequency (List.replicate n b) HuffmanEncoder.new).points_ b
    (by rw [frequency_replicate b n hlt]; simp; omega)
    (by intro i hi; rw [frequency_replicate b n hlt]; simp [hi])
  have hsum : codeLengthSum (initCodePoint root 0 "" 0
      (statisticalFrequency (List.replicate n b) HuffmanEncoder.new).points_)
      (List.replicate n b) = n := by
    simp [codeLengthSum, hl]
  refine ⟨root, hroot, by rw [hZ]; rfl, hc, hs, hl, hsum, ?_⟩
  intro fuel hfuel
  have henc : runCompress pq fuel (List.replicate n b) = .ok
      (compress (List.replicate n b)
        { statisticalFrequency (List.replicate n b) HuffmanEncoder.new with
          root_ := root
          points_ := initCodePoint root 0 "" 0
            (statisticalFrequency (List.replicate n b) HuffmanEncoder.new).points_ }).1 := by
    simp only [runCompress, encoderFor, hroot fuel hfuel]
  refine ⟨_, henc, ?_⟩
  have key : ∀ e : HuffmanEncoder,
      e.points_ = initCodePoint root 0 "" 0
        (statisticalFrequency (List.replicate n b) HuffmanEncoder.new).points_ →
      (compress (List.replicate n b) e).1.packed.flatMap byteBits =
        List.replicate n true ++ List.replicate (8 - n % 8) false := by
    intro e he
    rw [(compress_spec (List.replicate n b) e).2.1, he, hsum, flatMap_replicate_const, hc, hl]
    have h1 : registerBits 1 1 = [true] := by simp [registerBits]
    rw [h1, flatten_replicate_singleton]
  exact key _ rfl

theorem single_repeated_byte_witness :
    stdPriorityQueue.Lawful ∧ 1 ≤ 1000 ∧ 1000 < 2 ^ 64 ∧
    ∃ root, (∀ fuel, 255 ≤ fuel →
        buildHuffmanTree stdPriorityQueue
          (statisticalFrequency (List.replicate 1000 65) HuffmanEncoder.new).points_ fuel =
          .ok root) ∧
      (root.descend [true]).point = some 65 ∧
      ((initCodePoint root 0 "" 0
        (statisticalFrequency (List.replicate 1000 65) HuffmanEncoder.new).points_).get
          65).new_code = 1 ∧
      ((initCodePoint root 0 "" 0
        (statisticalFrequency (List.replicate 1000 65) HuffmanEncoder.new).points_).get
          65).new_code_str = "1" ∧
      ((initCodePoint root 0 "" 0
        (statisticalFrequency (List.replicate 1000 65) HuffmanEncoder.new).points_).get
          65).length = 1 ∧
      codeLengthSum (initCodePoint root 0 "" 0
        (statisticalFrequency (List.replicate 1000 65) HuffmanEncoder.new).points_)
        (List.replicate 1000 65) = 1000 ∧
      ∀ fuel, 255 ≤ fuel → ∃ file,
        runCompress stdPriorityQueue fuel (List.replicate 1000 65) = .ok file ∧
        file.packed.flatMap byteBits =
          List.replicate 1000 true ++ List.replicate (8 - 1000 % 8) false :=
  ⟨stdPriorityQueue_lawful, by norm_num, by norm_num,
    single_repeated_byte stdPriorityQueue stdPriorityQueue_lawful 65 1000 (by norm_num)
      (by norm_num)⟩

end

section

open HuffmanTreeNode

theorem uniformDepth_mergeNode (a b : HuffmanTreeNode) (d : Nat)
    (ha : a.uniformDepth d = true) (hb : b.uniformDepth d = true) :
    (mergeNode a b).uniformDepth (d + 1) = true := by
  simp [mergeNode, uniformDepth, ha, hb]

/-- In a tree whose leaves all lie at depth `d`, a path to a leaf has `d` turns. -/
theorem length_of_uniformDepth :
    ∀ (t : HuffmanTreeNode) (d : Nat) (p : List Bool) (s : Byte), t.isTree = true →
      t.uniformDepth d = true → (t.descend p).point = some s → p.length = d := by
  intro t
  induction t with
  | nullptr => intro d p s _ h; simp [uniformDepth] at h
  | mk w pt l r ihl ihr =>
    intro d p s ht h hp
    cases pt with
    | some q =>
      simp only [uniformDepth, decide_eq_true_eq] at h
      subst h
      cases p with
      | nil => rfl
      | cons t p =>
        exfalso
        rw [descend_leaf ht rfl (List.cons_ne_nil t p)] at hp
        simp [HuffmanTreeNode.point] at hp
    | none =>
      simp only [isTree, Bool.and_eq_true] at ht
      cases d with
      | zero => simp [uniformDepth] at h
      | succ d =>
        simp only [uniformDepth, Bool.and_eq_true] at h
        cases p with
        | nil => simp [descend, HuffmanTreeNode.point] at hp
        | cons t p =>
          cases t with
          | false =>
            have := ihl d p s ht.1 h.1 hp
            simp [this]
          | true =>
            have := ihr d p s ht.2 h.2 hp
            simp [this]

theorem countP_cons_true {α : Type} (p : α → Bool) (a : α) (l : List α) (h : p a = true) :
    List.countP p (a :: l) = List.countP p l + 1 := by
  simp [List.countP_cons, h]

theorem countP_cons_false {α : Type} (p : α → Bool) (a : α) (l : List α) (h : p a = false) :
    List.countP p (a :: l) = List.countP p l := by
  simp [List.countP_cons, h]

/-- Merges of nodes of two levels: when every node is a tree with all leaves at depth `j`
and weight `w`, or with all leaves at depth `j + 1` and weight `2 * w`, the nodes of weight
`w` being even in number, the merges pair the nodes level by level: with `2^m` nodes once
the lower level is paired, all the leaves of the result lie at depth `j + 1 + m`. -/
theorem Merges.uniform {F : List HuffmanTreeNode} {root : HuffmanTreeNode}
    (h : Merges F root) :
    ∀ (j w m : Nat), 0 < w → w * 2 ^ (m + 1) < kCodeTypeMod →
      (∀ t ∈ F, (t.uniformDepth j = true ∧ t.weight = w) ∨
        (t.uniformDepth (j + 1) = true ∧ t.weight = 2 * w)) →
      Even (F.countP fun t => decide (t.weight = w)) →
      (F.countP fun t => decide (t.weight = w)) / 2 +
        (F.countP fun t => decide (t.weight = 2 * w)) = 2 ^ m →
      root.uniformDepth (j + 1 + m) = true := by
  induction h with
  | @last F a b hp hab =>
    intro j w m hw hlt hF hev hcount
    rw [hp.countP_eq] at hev hcount
    rw [hp.countP_eq] at hcount
    have ha := hF a (hp.symm.subset (by simp))
    have hb := hF b (hp.symm.subset (by simp))
    rcases ha with ⟨ha1, ha2⟩ | ⟨ha1, ha2⟩ <;> rcases hb with ⟨hb1, hb2⟩ | ⟨hb1, hb2⟩
    · have hne : ¬ (w = 2 * w) := by omega
      simp [List.countP_cons, ha2, hb2, hne] at hcount
      have hm : m = 0 := by
        rcases Nat.eq_zero_or_pos m with h0 | h0
        · exact h0
        · exfalso
          have : 2 ^ 1 ≤ 2 ^ m := Nat.pow_le_pow_right (by norm_num) h0
          omega
      subst hm
      exact uniformDepth_mergeNode a b j ha1 hb1
    · exfalso
      have hne : ¬ (2 * w = w) := by omega
      simp [List.countP_cons, ha2, hb2, hne] at hev
    · exfalso
      have hne : ¬ (2 * w = w) := by omega
      simp [List.countP_cons, ha2, hb2, hne] at hev
    · have hne : ¬ (2 * w = w) := by omega
      simp [List.countP_cons, ha2, hb2, hne] at hcount
      have hm : m = 1 := by
        have h1 : 2 ^ m = 2 ^ 1 := by omega
        exact Nat.pow_right_injective (le_refl 2) h1
      subst hm
      exact uniformDepth_mergeNode a b (j + 1) ha1 hb1
  | @step F rest a b root hp hne hmina hminb hm ih =>
    have main : ∀ (j w m : Nat), 0 < w → w * 2 ^ (m + 1) < kCodeTypeMod →
        (∀ t ∈ F, (t.uniformDepth j = true ∧ t.weight = w) ∨
          (t.uniformDepth (j + 1) = true ∧ t.weight = 2 * w)) →
        Even (F.countP fun t => decide (t.weight = w)) →
        (F.countP fun t => decide (t.weight = w)) / 2 +
          (F.countP fun t => decide (t.weight = 2 * w)) = 2 ^ m →
        (F.countP fun t => decide (t.weight = w)) ≠ 0 →
        root.uniformDepth (j + 1 + m) = true := by
      intro j w m hw hlt hF hev hcount hA
      have hne1 : ¬ (w = 2 * w) := by omega
      have hne2 : ¬ (2 * w = w) := by omega
      have hFa := hF a (hp.symm.subset (by simp))
      have hFb := hF b (hp.symm.subset (by simp))
      have hcA := hp.countP_eq fun t => decide (t.weight = w)
      have hcB := hp.countP_eq fun t => decide (t.weight = 2 * w)
      -- the first node extracted is of the lower level
      have haw : a.weight = w := by
        obtain ⟨y, hy, hyw⟩ := List.countP_pos_iff.1 (Nat.pos_of_ne_zero hA)
        simp only [decide_eq_true_eq] at hyw
        have hle : a.weight ≤ w := by
          rcases List.mem_cons.1 (hp.subset hy) with h0 | h0
          · rw [← h0, hyw]
          · rw [← hyw]; exact hmina y h0
        rcases hFa with ⟨-, h0⟩ | ⟨-, h0⟩
        · exact h0
        · omega
      have hcA1 : (List.countP (fun t => decide (t.weight = w)) (b :: rest)) + 1 =
          List.countP (fun t => decide (t.weight = w)) F := by
        rw [hcA, countP_cons_true _ a _ (by simpa using haw)]
      -- so is the second
      have hbw : b.weight = w := by
        have hpos : 0 < List.countP (fun t => decide (t.weight = w)) (b :: rest) := by
          obtain ⟨k, hk⟩ := hev
          omega
        obtain ⟨y, hy, hyw⟩ := List.countP_pos_iff.1 hpos
        simp only [decide_eq_true_eq] at hyw
        have hle : b.weight ≤ w := by
          rcases List.mem_cons.1 hy with h0 | h0
          · rw [← h0, hyw]
          · rw [← hyw]; exact hminb y h0
        rcases hFb with ⟨-, h0⟩ | ⟨-, h0⟩
        · exact h0
        · omega
      have hcA2 : (List.countP (fun t => decide (t.weight = w)) rest) + 2 =
          List.countP (fun t => decide (t.weight = w)) F := by
        rw [← hcA1, countP_cons_true _ b _ (by simpa using hbw)]
      have hcB2 : List.countP (fun t => decide (t.weight = 2 * w)) rest =
          List.countP (fun t => decide (t.weight = 2 * w)) F := by
        rw [hcB, countP_cons_false _ a _ (by simpa [haw] using hne1),
          countP_cons_false _ b _ (by simpa [hbw] using hne1)]
      have hpow : 2 ≤ 2 ^ (m + 1) := by
        calc 2 = 2 ^ 1 := by norm_num
          _ ≤ 2 ^ (m + 1) := Nat.pow_le_pow_right (by norm_num) (by omega)
      have hmw : (mergeNode a b).weight = 2 * w := by
        have hlt2 : w + w < kCodeTypeMod := by
          calc w + w = w * 2 := by ring
            _ ≤ w * 2 ^ (m + 1) := Nat.mul_le_mul_left w hpow
            _ < kCodeTypeMod := hlt
        rw [weight_mergeNode, haw, hbw, Nat.mod_eq_of_lt hlt2]
        ring
      have hua : a.uniformDepth j = true := by
        rcases hFa with ⟨h0, -⟩ | ⟨-, h0⟩
        · exact h0
        · omega
      have hub : b.uniformDepth j = true := by
        rcases hFb with ⟨h0, -⟩ | ⟨-, h0⟩
        · exact h0
        · omega
      apply ih j w m hw hlt
      · intro t ht
        rcases List.mem_cons.1 ht with h0 | h0
        · rw [h0]
          exact Or.inr ⟨uniformDepth_mergeNode a b j hua hub, hmw⟩
        · exact hF t (hp.symm.subset (by simp [h0]))
      · rw [countP_cons_false _ (mergeNode a b) _ (by simpa [hmw] using hne2)]
        obtain ⟨k, hk⟩ := hev
        exact ⟨k - 1, by omega⟩
      · rw [countP_cons_false _ (mergeNode a b) _ (by simpa [hmw] using hne2),
          countP_cons_true _ (mergeNode a b) _ (by simpa using hmw), hcB2]
        obtain ⟨k, hk⟩ := hev
        omega
    intro j w m hw hlt hF hev hcount
    by_cases hA : (F.countP fun t => decide (t.weight = w)) = 0
    · -- the lower level is empty: the upper level is the new lower level
      have hall : ∀ t ∈ F, t.uniformDepth (j + 1) = true ∧ t.weight = 2 * w := by
        intro t ht
        rcases hF t ht with ⟨-, h0⟩ | h0
        · exact absurd (by simpa using h0) (List.countP_eq_zero.1 hA t ht)
        · exact h0
      have hB : (F.countP fun t => decide (t.weight = 2 * w)) = F.length :=
        List.countP_eq_length.2 (fun t ht => by simpa using (hall t ht).2)
      have hlen : 3 ≤ F.length := by
        rw [hp.length_eq]
        have : rest.length ≠ 0 := fun h0 => hne (List.length_eq_zero.1 h0)
        simp only [List.length_cons]
        omega
      rw [hA, hB] at hcount
      simp only [Nat.zero_div, Nat.zero_add] at hcount
      obtain ⟨m2, rfl⟩ : ∃ m2, m = m2 + 1 := by
        cases m with
        | zero => simp at hcount; omega
        | succ k => exact ⟨k, rfl⟩
      have h4 : (F.countP fun t => decide (t.weight = 2 * (2 * w))) = 0 := by
        apply List.countP_eq_zero.2
        intro t ht
        rw [decide_eq_true_eq, (hall t ht).2]
        omega
      have := main (j + 1) (2 * w) m2 (by omega)
        (by
          have e : 2 * w * 2 ^ (m2 + 1) = w * 2 ^ (m2 + 1 + 1) := by ring
          rw [e]; exact hlt)
        (fun t ht => Or.inl (hall t ht))
        (by rw [hB, hcount]; exact ⟨2 ^ m2, by ring⟩)
        (by
          rw [hB, h4, hcount, pow_succ]
          omega)
        (by rw [hB]; omega)
      have e : j + 1 + (m2 + 1) = j + 1 + 1 + m2 := by omega
      rw [e]
      exact this
    · exact main j w m hw hlt hF hev hcount hA

end

section

open HuffmanTreeNode

/-- The tree of a table of 256 equal frequencies `c`, with `1 ≤ c` and `256 * c < 2^64`, on
a lawful queue: all the leaves lie at depth 8. -/
theorem uniform_tree (pq : PriorityQueue) (h : pq.Lawful) (points : Points) (c : Nat)
    (hc : 1 ≤ c) (hlt : 256 * c < 2 ^ 64) (hu : ∀ i, (points.get i).frequency = c) :
    ∃ root, (∀ fuel, 255 ≤ fuel → buildHuffmanTree pq points fuel = .ok root) ∧
      root.isTree = true ∧ root.leaves.Perm (List.finRange 256) ∧
      root.uniformDepth 8 = true := by
  obtain ⟨-, root, hroot, hm, htree, -, hleaves, -⟩ := buildHuffmanTree_shape pq h points
  refine ⟨root, hroot, htree, hleaves, ?_⟩
  have hall : ∀ t ∈ (List.finRange 256).map (leafNode points),
      t.uniformDepth 0 = true ∧ t.weight = c := by
    intro t ht
    obtain ⟨i, -, rfl⟩ := List.mem_map.1 ht
    exact ⟨rfl, hu i⟩
  have hA : ((List.finRange 256).map (leafNode points)).countP
      (fun t => decide (t.weight = c)) = 256 := by
    rw [List.countP_eq_length.2 (fun t ht => by simpa using (hall t ht).2)]
    simp
  have hB : ((List.finRange 256).map (leafNode points)).countP
      (fun t => decide (t.weight = 2 * c)) = 0 := by
    apply List.countP_eq_zero.2
    intro t ht
    rw [decide_eq_true_eq, (hall t ht).2]
    omega
  exact hm.uniform 0 c 7 (by omega) (by unfold kCodeTypeMod; omega)
    (fun t ht => Or.inl (hall t ht)) (by rw [hA]; exact ⟨128, rfl⟩) (by rw [hA, hB]; rfl)

/-- Claim C18: uniform frequencies. On every lawful queue, whatever node it returns among
those of least weight, for every table in which the 256 symbols have the same frequency `c`
with `1 ≤ c` and `256 * c < 2^64`, every symbol is assigned a code of length 8: its code
string has 8 characters. -/
theorem uniform_frequencies_give_length_eight (pq : PriorityQueue) (h : pq.Lawful)
    (points : Points) (c : Nat) (hc : 1 ≤ c) (hlt : 256 * c < 2 ^ 64)
    (hu : ∀ i, (points.get i).frequency = c) :
    ∃ root, (∀ fuel, 255 ≤ fuel → buildHuffmanTree pq points fuel = .ok root) ∧
      ∀ s : Byte,
        ((initCodePoint root 0 "" 0 points).get s).length = 8 ∧
        ((initCodePoint root 0 "" 0 points).get s).new_code_str.length = 8 := by
  obtain ⟨root, hroot, htree, hleaves, hud⟩ := uniform_tree pq h points c hc hlt hu
  have hnd : root.leaves.Nodup := hleaves.nodup_iff.2 (List.nodup_finRange 256)
  refine ⟨root, hroot, ?_⟩
  intro s
  have hs : s ∈ root.leaves := hleaves.symm.subset (List.mem_finRange s)
  obtain ⟨path, hp1, hp2⟩ := (initCodePoint_spec root htree hnd 0 "" 0 points).2 s hs
  have hlen := length_of_uniformDepth root 8 path s htree hud hp1
  rw [hp2]
  refine ⟨by simpa using hlen, ?_⟩
  show ("" ++ pathString path).length = 8
  rw [empty_append_string, pathString_length, hlen]

theorem uniform_frequencies_give_length_eight_witness :
    stdPriorityQueue.Lawful ∧ 1 ≤ 1 ∧ 256 * 1 < 2 ^ 64 ∧
    (∀ i, ((statisticalFrequency (List.finRange 256) HuffmanEncoder.new).points_.get
      i).frequency = 1) ∧
    ∃ root, (∀ fuel, 255 ≤ fuel →
        buildHuffmanTree stdPriorityQueue
          (statisticalFrequency (List.finRange 256) HuffmanEncoder.new).points_ fuel =
          .ok root) ∧
      ∀ s : Byte,
        ((initCodePoint root 0 "" 0
          (statisticalFrequency (List.finRange 256) HuffmanEncoder.new).points_).get
            s).length = 8 ∧
        ((initCodePoint root 0 "" 0
          (statisticalFrequency (List.finRange 256) HuffmanEncoder.new).points_).get
            s).new_code_str.length = 8 :=
  have hone : ∀ i, ((statisticalFrequency (List.finRange 256) HuffmanEncoder.new).points_.get
      i).frequency = 1 := fun i => by
    rw [(statisticalFrequency_fresh (List.finRange 256) (by simp)).1 i]
    exact List.count_eq_one_of_mem (List.nodup_finRange 256) (List.mem_finRange i)
  ⟨stdPriorityQueue_lawful, le_refl _, by norm_num, hone,
    uniform_frequencies_give_length_eight stdPriorityQueue stdPriorityQueue_lawful _ 1
      (le_refl _) (by norm_num) hone⟩

end

section

open HuffmanTreeNode

theorem equalFileLoop_succ (fuel : Nat) (fp1 fp2 : FileStream) :
    equalFileLoop (fuel + 1) fp1 fp2 =
      if fp1.eof = false ∧ fp2.eof = false then
        if ((fp1.fread 0).1 ≠ (fp2.fread 0).1) then some false
        else equalFileLoop fuel (fp1.fread 0).2 (fp2.fread 0).2
      else some (fp1.eof && fp2.eof) := by
  rw [equalFileLoop]

/-- The loop of `equalFile` from the start of two files, with fuel for one iteration more
than the shorter file has bytes and for the test that ends the loop: the result is whether
the files are equal. -/
theorem equalFileLoop_spec :
    ∀ (file1 file2 : List Byte) (fuel : Nat), min file1.length file2.length + 2 ≤ fuel →
      equalFileLoop fuel { rest := file1, eof := false } { rest := file2, eof := false } =
        some (decide (file1 = file2)) := by
  intro file1
  induction file1 with
  | nil =>
    intro file2 fuel hf
    obtain ⟨f, rfl⟩ : ∃ f, fuel = f + 2 := ⟨fuel - 2, by omega⟩
    cases file2 with
    | nil => simp [equalFileLoop, FileStream.fread]
    | cons y ys =>
      by_cases hy : y = 0
      · simp [equalFileLoop, FileStream.fread, hy]
      · have hy2 : ¬ (0 = y) := fun h => hy h.symm
        simp [equalFileLoop, FileStream.fread, hy2]
  | cons x xs ih =>
    intro file2 fuel hf
    obtain ⟨f, rfl⟩ : ∃ f, fuel = f + 2 := ⟨fuel - 2, by omega⟩
    cases file2 with
    | nil =>
      by_cases hx : x = 0
      · simp [equalFileLoop, FileStream.fread, hx]
      · simp [equalFileLoop, FileStream.fread, hx]
    | cons y ys =>
      by_cases hxy : x = y
      · subst hxy
        have := ih ys (f + 1) (by simp at hf; omega)
        rw [equalFileLoop_succ]
        simp only [FileStream.fread, ne_eq, not_true_eq_false, if_false, and_self, if_true]
        rw [this]
        simp
      · simp [equalFileLoop, FileStream.fread, hxy]

/-- Claim C15: the file equality check. For every two file contents, `equalFile`, given
fuel for one iteration more than the shorter file has bytes and for the test that ends
the loop, returns whether the two are equal: true exactly when they have the same length
and the same byte at every position; so it returns false when one is the other followed by
more bytes, also when the first of these is `0x00`. -/
theorem equalFile_decides_equality (file1 file2 : List Byte) (fuel : Nat)
    (hfuel : min file1.length file2.length + 2 ≤ fuel) :
    equalFile file1 file2 fuel = some (decide (file1 = file2)) ∧
    (equalFile file1 file2 fuel = some true ↔
      file1.length = file2.length ∧ ∀ i, file1.getD i 0 = file2.getD i 0) ∧
    (∀ more fuel2, file1.length + 2 ≤ fuel2 →
      equalFile file1 (file1 ++ 0 :: more) fuel2 = some false) := by
  have h1 := equalFileLoop_spec file1 file2 fuel hfuel
  refine ⟨h1, ?_, ?_⟩
  · unfold equalFile
    rw [h1]
    simp only [Option.some.injEq, decide_eq_true_eq]
    constructor
    · intro h; subst h; exact ⟨rfl, fun _ => rfl⟩
    · intro ⟨hl, hg⟩
      apply List.ext_getElem hl
      intro i hi1 hi2
      have := hg i
      rwa [List.getD_eq_getElem _ _ hi1, List.getD_eq_getElem _ _ hi2] at this
  · intro more fuel2 hfuel2
    unfold equalFile
    rw [equalFileLoop_spec file1 (file1 ++ 0 :: more) fuel2 (by simp; omega)]
    simp

theorem equalFile_decides_equality_witness :
    min ([1, 2] : List Byte).length ([1, 2, 0] : List Byte).length + 2 ≤ 4 ∧
    (equalFile [1, 2] [1, 2, 0] 4 = some (decide (([1, 2] : List Byte) = [1, 2, 0])) ∧
    (equalFile [1, 2] [1, 2, 0] 4 = some true ↔
      ([1, 2] : List Byte).length = ([1, 2, 0] : List Byte).length ∧
        ∀ i, ([1, 2] : List Byte).getD i 0 = ([1, 2, 0] : List Byte).getD i 0) ∧
    (∀ more fuel2, ([1, 2] : List Byte).length + 2 ≤ fuel2 →
      equalFile [1, 2] ([1, 2] ++ 0 :: more) fuel2 = some false)) :=
  ⟨by decide, equalFile_decides_equality [1, 2] [1, 2, 0] 4 (by decide)⟩

end

section

open HuffmanTreeNode

theorem length_cBytes (s : List Byte) (memory : Nat → Byte) (n : Nat) :
    (cBytes s memory n).length = n := by
  simp [cBytes]

theorem length_leBytes (x n : Nat) : (leBytes x n).length = n := by
  simp [leBytes]

theorem cString_append_zero (s rest : List Byte) (hs : ∀ ch ∈ s, ch ≠ 0) :
    cString (s ++ 0 :: rest) = s := by
  induction s with
  | nil => simp [cString]
  | cons x xs ih =>
    have hx : x ≠ 0 := hs x (List.mem_cons_self _ _)
    have := ih (fun ch hch => hs ch (List.mem_cons_of_mem _ hch))
    simp only [cString, List.cons_append] at this ⊢
    rw [List.takeWhile_cons_of_pos (by simpa using hx), this]

/-- The bytes written from a C string that fits the field: its characters, a 0, and the
rest. -/
theorem cBytes_eq (s : List Byte) (memory : Nat → Byte) (n : Nat) (hn : s.length < n) :
    ∃ rest, cBytes s memory n = s ++ 0 :: rest := by
  refine ⟨(cBytes s memory n).drop (s.length + 1), ?_⟩
  apply List.ext_getElem
  · simp [length_cBytes]; omega
  · intro i h1 h2
    simp only [cBytes, List.getElem_map, List.getElem_range]
    by_cases hi : i < s.length
    · rw [List.getElem_append_left hi]
      simp [hi, List.getD_eq_getElem _ _ hi]
    · rw [List.getElem_append_right (by omega)]
      by_cases hi2 : i = s.length
      · simp [hi2]
      · have hi3 : i - s.length = (i - s.length - 1) + 1 := by omega
        simp only [hi, hi2, if_false]
        rw [List.getElem_cons, dif_neg (by omega)]
        simp only [List.getElem_drop, List.getElem_map, List.getElem_range]
        have e : s.length + 1 + (i - s.length - 1) = i := by omega
        simp [e, hi, hi2]

/-- The name read back from the field written for a name that fits it. -/
theorem cString_cBytes (s : List Byte) (memory : Nat → Byte) (n : Nat)
    (hs : ∀ ch ∈ s, ch ≠ 0) (hn : s.length < n) : cString (cBytes s memory n) = s := by
  obtain ⟨rest, h⟩ := cBytes_eq s memory n hn
  rw [h, cString_append_zero s rest hs]

theorem leBytes_succ (x n : Nat) :
    leBytes x (n + 1) = Fin.ofNat x :: leBytes (x / 256) n := by
  simp only [leBytes, List.range_succ_eq_map, List.map_cons, List.map_map, pow_zero,
    Nat.div_one]
  congr 1
  apply List.map_congr_left
  intro i _
  simp only [Function.comp, pow_succ]
  rw [Nat.div_div_eq_div_mul, Nat.mul_comm]

/-- The value read back from the bytes written for an unsigned integer. -/
theorem leValue_leBytes : ∀ (n x : Nat), leValue (leBytes x n) = x % 256 ^ n := by
  intro n
  induction n with
  | zero => intro x; simp [leBytes, leValue, Nat.mod_one]
  | succ n ih =>
    intro x
    rw [leBytes_succ, leValue, ih, pow_succ, Nat.mul_comm (256 ^ n) 256, Nat.mod_mul]
    simp [Fin.ofNat]

end

section

open HuffmanTreeNode

/-- The field of a given width found at the offset of the fields written before it. -/
theorem take_drop_field {α : Type} (before field after : List α) (k w : Nat)
    (hk : before.length = k) (hw : field.length = w) :
    ((before ++ field ++ after).drop k).take w = field := by
  subst hk hw
  rw [List.append_assoc, List.drop_left, List.take_left]

/-- The chunk of a given index in a sequence of chunks of one width. -/
theorem take_drop_chunk {ι α : Type} (f : ι → List α) (w : Nat) (hw : ∀ x, (f x).length = w) :
    ∀ (l : List ι) (after : List α) (i : Nat) (hi : i < l.length),
      ((l.flatMap f ++ after).drop (i * w)).take w = f (l.get ⟨i, hi⟩) := by
  intro l
  induction l with
  | nil => intro after i hi; simp at hi
  | cons x xs ih =>
    intro after i hi
    cases i with
    | zero =>
      simp only [List.flatMap_cons, Nat.zero_mul, List.drop_zero, List.append_assoc]
      rw [← hw x, List.take_left]
      rfl
    | succ j =>
      have e : (j + 1) * w = (f x).length + j * w := by rw [hw x]; ring
      simp only [List.flatMap_cons, List.append_assoc]
      rw [e, ← List.drop_drop, List.drop_left]
      exact ih after j (by simpa using hi)

theorem length_flatMap_const {ι α : Type} (f : ι → List α) (w : Nat)
    (hw : ∀ x, (f x).length = w) (l : List ι) : (l.flatMap f).length = l.length * w := by
  induction l with
  | nil => simp
  | cons x xs ih => simp [List.flatMap_cons, ih, hw x]; ring

theorem length_writeHeader (L : ZipLayout) (name : List Byte) (memory : Nat → Byte)
    (header : ZipHeader) :
    (writeHeader L name memory header).length =
      L.kLenOfZipName + L.kLenOfFileName + L.kLenOfFileSize + 256 * L.kLenOfCodeFrequency := by
  unfold writeHeader
  rw [List.length_append, List.length_append, List.length_append, length_cBytes,
    length_cBytes, length_leBytes,
    length_flatMap_const _ L.kLenOfCodeFrequency (fun i => length_leBytes _ _)]
  simp

/-- The header that `compress` writes, read back by the decompression path of `run`. -/
theorem parseHeader_writeFile (L : ZipLayout) (name : List Byte) (memory : Nat → Byte)
    (file : ZipFile) (hname0 : ∀ ch ∈ name, ch ≠ 0) (hname : name.length < L.kLenOfFileName)
    (hsize : file.header.original_size < 256 ^ L.kLenOfFileSize)
    (hfreq : ∀ i, file.header.frequency.get i < 256 ^ L.kLenOfCodeFrequency) :
    parseHeader L (writeFile L name memory file) = (name, file.header) := by
  have hA := length_cBytes L.kZipName memory L.kLenOfZipName
  have hB := length_cBytes name memory L.kLenOfFileName
  have hC := length_leBytes file.header.original_size L.kLenOfFileSize
  unfold parseHeader writeFile writeHeader
  refine Prod.ext ?_ ?_
  · simp only
    have e := take_drop_field (cBytes L.kZipName memory L.kLenOfZipName)
      (cBytes name memory L.kLenOfFileName)
      (leBytes file.header.original_size L.kLenOfFileSize ++
        ((List.finRange 256).flatMap fun i =>
          leBytes (file.header.frequency.get i) L.kLenOfCodeFrequency) ++
        file.packed.map fun byte => Fin.ofNat byte)
      L.kLenOfZipName L.kLenOfFileName hA hB
    simp only [List.append_assoc] at e ⊢
    rw [e, cString_cBytes name memory _ hname0 hname]
  · simp only
    cases hh : file.header with
    | mk size freq =>
      rw [hh] at hsize hfreq hC
      simp only at hsize hfreq hC ⊢
      rw [ZipHeader.mk.injEq]
      refine ⟨?_, ?_⟩
      · have e := take_drop_field
          (cBytes L.kZipName memory L.kLenOfZipName ++ cBytes name memory L.kLenOfFileName)
          (leBytes size L.kLenOfFileSize)
          (((List.finRange 256).flatMap fun i =>
              leBytes (freq.get i) L.kLenOfCodeFrequency) ++
            file.packed.map fun byte => Fin.ofNat byte)
          (L.kLenOfZipName + L.kLenOfFileName) L.kLenOfFileSize
          (by rw [List.length_append, hA, hB]) hC
        simp only [List.append_assoc] at e ⊢
        rw [e, leValue_leBytes, Nat.mod_eq_of_lt hsize]
      · apply Mathlib.Vector.ext
        intro i
        rw [Mathlib.Vector.get_ofFn]
        have hbef : (cBytes L.kZipName memory L.kLenOfZipName ++
            cBytes name memory L.kLenOfFileName ++ leBytes size L.kLenOfFileSize).length =
            L.kLenOfZipName + L.kLenOfFileName + L.kLenOfFileSize := by
          rw [List.length_append, List.length_append, hA, hB, hC]
        have e := take_drop_chunk
          (fun i : Byte => leBytes (freq.get i) L.kLenOfCodeFrequency) L.kLenOfCodeFrequency
          (fun i => length_leBytes _ _) (List.finRange 256)
          (file.packed.map fun byte => Fin.ofNat byte) i.val
          (by rw [List.length_finRange]; exact i.isLt)
        have hget : (List.finRange 256).get
            ⟨i.val, by rw [List.length_finRange]; exact i.isLt⟩ = i := by
          rw [List.get_eq_getElem, List.getElem_finRange]
          exact Fin.ext rfl
        rw [hget] at e
        have e2 : (cBytes L.kZipName memory L.kLenOfZipName ++
            cBytes name memory L.kLenOfFileName ++ leBytes size L.kLenOfFileSize ++
            ((List.finRange 256).flatMap fun i =>
              leBytes (freq.get i) L.kLenOfCodeFrequency) ++
            file.packed.map fun byte => Fin.ofNat byte).drop
              (L.kLenOfZipName + L.kLenOfFileName + L.kLenOfFileSize +
                i.val * L.kLenOfCodeFrequency) =
            (((List.finRange 256).flatMap fun i =>
              leBytes (freq.get i) L.kLenOfCodeFrequency) ++
            file.packed.map fun byte => Fin.ofNat byte).drop (i.val * L.kLenOfCodeFrequency) := by
          rw [← hbef, ← List.drop_drop,
            List.append_assoc (cBytes L.kZipName memory L.kLenOfZipName ++
              cBytes name memory L.kLenOfFileName ++ leBytes size L.kLenOfFileSize),
            List.drop_left]
        rw [e2, e, leValue_leBytes, Nat.mod_eq_of_lt (hfreq i)]

/-- The test of `run` on a file that `compress` wrote: the signature is found when it fits
in its field with its terminator. -/
theorem hasSignature_writeFile (L : ZipLayout) (name : List Byte) (memory : Nat → Byte)
    (file : ZipFile) (hz : ∀ ch ∈ L.kZipName, ch ≠ 0)
    (hzl : L.kZipName.length < L.kLenOfZipName) :
    hasSignature L (writeFile L name memory file) = true := by
  unfold hasSignature writeFile writeHeader
  rw [decide_eq_true_eq]
  have hA := length_cBytes L.kZipName memory L.kLenOfZipName
  have e : ((cBytes L.kZipName memory L.kLenOfZipName ++
      cBytes name memory L.kLenOfFileName ++
      leBytes file.header.original_size L.kLenOfFileSize ++
      ((List.finRange 256).flatMap fun i =>
        leBytes (file.header.frequency.get i) L.kLenOfCodeFrequency) ++
      file.packed.map fun byte => Fin.ofNat byte).take L.kLenOfZipName) =
      cBytes L.kZipName memory L.kLenOfZipName := by
    simp only [List.append_assoc]
    exact List.take_left' hA
  rw [e, cString_cBytes L.kZipName memory _ hz hzl]

end

section

open HuffmanTreeNode

/-- Claim C12. Header round trip: for a file name without a 0 character that fits in the
name field with its terminator, an original size and 256 frequencies that fit in their
fields, and a header length constant that is the sum of the field widths, the bytes that
`compress` writes are read back by the decompression path of `run` as the same name, the
same original size and the same 256 frequencies; the header occupies `kLenOfZipHeader`
bytes, after which the packed bytes follow; and the signature is recognised when it fits in
its field. -/
theorem header_round_trip (L : ZipLayout) (input_filename_ : List Byte) (memory : Nat → Byte)
    (file : ZipFile) (hname0 : ∀ ch ∈ input_filename_, ch ≠ 0)
    (hname : input_filename_.length < L.kLenOfFileName)
    (hsize : file.header.original_size < 256 ^ L.kLenOfFileSize)
    (hfreq : ∀ i, file.header.frequency.get i < 256 ^ L.kLenOfCodeFrequency)
    (hpacked : ∀ byte ∈ file.packed, byte < 256)
    (hlen : L.kLenOfZipHeader =
      L.kLenOfZipName + L.kLenOfFileName + L.kLenOfFileSize + 256 * L.kLenOfCodeFrequency) :
    parseHeader L (writeFile L input_filename_ memory file) = (input_filename_, file.header) ∧
    (writeHeader L input_filename_ memory file.header).length = L.kLenOfZipHeader ∧
    ((writeFile L input_filename_ memory file).drop L.kLenOfZipHeader).map
      (fun byte => byte.val) = file.packed ∧
    ((∀ ch ∈ L.kZipName, ch ≠ 0) → L.kZipName.length < L.kLenOfZipName →
      hasSignature L (writeFile L input_filename_ memory file) = true) := by
  have hl := length_writeHeader L input_filename_ memory file.header
  refine ⟨parseHeader_writeFile L input_filename_ memory file hname0 hname hsize hfreq,
    by rw [hl, hlen], ?_, ?_⟩
  · unfold writeFile
    rw [hlen, ← hl, List.drop_left, List.map_map]
    have : ∀ l : List Nat, (∀ byte ∈ l, byte < 256) →
        l.map ((fun byte : Byte => byte.val) ∘ fun byte => Fin.ofNat byte) = l := by
      intro l
      induction l with
      | nil => intro _; rfl
      | cons x xs ih =>
        intro hx
        rw [List.map_cons, ih (fun b hb => hx b (List.mem_cons_of_mem _ hb))]
        congr 1
        exact Nat.mod_eq_of_lt (hx x (List.mem_cons_self _ _))
    exact this _ hpacked
  · intro hz hzl
    exact hasSignature_writeFile L input_filename_ memory file hz hzl

theorem header_round_trip_witness :
    (∀ ch ∈ ([97] : List Byte), ch ≠ 0) ∧
    ([97] : List Byte).length < sampleLayout.kLenOfFileName ∧
    sampleFile.header.original_size < 256 ^ sampleLayout.kLenOfFileSize ∧
    (∀ i, sampleFile.header.frequency.get i < 256 ^ sampleLayout.kLenOfCodeFrequency) ∧
    (∀ byte ∈ sampleFile.packed, byte < 256) ∧
    sampleLayout.kLenOfZipHeader =
      sampleLayout.kLenOfZipName + sampleLayout.kLenOfFileName + sampleLayout.kLenOfFileSize +
        256 * sampleLayout.kLenOfCodeFrequency ∧
    (parseHeader sampleLayout (writeFile sampleLayout [97] (fun _ => 0) sampleFile) =
      ([97], sampleFile.header) ∧
    (writeHeader sampleLayout [97] (fun _ => 0) sampleFile.header).length =
      sampleLayout.kLenOfZipHeader ∧
    ((writeFile sampleLayout [97] (fun _ => 0) sampleFile).drop
      sampleLayout.kLenOfZipHeader).map (fun byte => byte.val) = sampleFile.packed ∧
    ((∀ ch ∈ sampleLayout.kZipName, ch ≠ 0) →
      sampleLayout.kZipName.length < sampleLayout.kLenOfZipName →
      hasSignature sampleLayout (writeFile sampleLayout [97] (fun _ => 0) sampleFile) =
        true)) :=
  have h1 : ∀ ch ∈ ([97] : List Byte), ch ≠ 0 := by simp
  have h2 : ([97] : List Byte).length < sampleLayout.kLenOfFileName := by decide
  have h3 : sampleFile.header.original_size < 256 ^ sampleLayout.kLenOfFileSize := by
    simp [sampleFile, sampleLayout]
  have h4 : ∀ i, sampleFile.header.frequency.get i < 256 ^ sampleLayout.kLenOfCodeFrequency := by
    intro i
    have e : sampleFile.header.frequency.get i = if i.val = 97 then 3 else 0 := by
      dsimp only [sampleFile]
      rw [Mathlib.Vector.get_ofFn]
    rw [e, show sampleLayout.kLenOfCodeFrequency = 8 from rfl]
    by_cases hi : i.val = 97
    · rw [if_pos hi]; norm_num
    · rw [if_neg hi]; norm_num
  have h5 : ∀ byte ∈ sampleFile.packed, byte < 256 := by decide
  have h6 : sampleLayout.kLenOfZipHeader =
      sampleLayout.kLenOfZipName + sampleLayout.kLenOfFileName + sampleLayout.kLenOfFileSize +
        256 * sampleLayout.kLenOfCodeFrequency := by decide
  ⟨h1, h2, h3, h4, h5, h6, header_round_trip sampleLayout [97] (fun _ => 0) sampleFile
    h1 h2 h3 h4 h5 h6⟩

end

section

open HuffmanTreeNode

theorem findNode_internal (w : Nat) (l r : HuffmanTreeNode) (input_byte k : Nat) :
    findNode (mk w none l r) input_byte (k : Int) =
      findNode ((mk w none l r).descend [input_byte.testBit k]) input_byte ((k : Int) - 1) := by
  have hk : ¬ ((k : Int) < 0) := by omega
  rw [findNode, if_neg hk, Int.toNat_ofNat, shift_and_one]
  cases input_byte.testBit k
  · simp [descend, HuffmanTreeNode.left]
  · simp [descend, HuffmanTreeNode.right]

theorem walk_cons (root : HuffmanTreeNode) (points : Points) (output_filesize : Nat)
    (turn : Bool) (rest : List Bool) (st : UnpackState) :
    walk root points output_filesize (turn :: rest) st =
      match (st.node.descend [turn]).point with
      | none => walk root points output_filesize rest { st with node := st.node.descend [turn] }
      | some p =>
        if (st.cur_output_size + 1) % kCodeTypeMod = output_filesize then
          .stopped
            { node := st.node.descend [turn]
              cur_output_size := (st.cur_output_size + 1) % kCodeTypeMod
              written := st.written ++ [(points.get p).old_code] } rest
        else
          walk root points output_filesize rest
            { node := root, cur_output_size := (st.cur_output_size + 1) % kCodeTypeMod,
              written := st.written ++ [(points.get p).old_code] } := rfl

/-- A child of an internal node of a tree is a tree. -/
theorem descend_turn_isTree {t : HuffmanTreeNode} (ht : t.isTree = true) (hp : t.point = none)
    (turn : Bool) : (t.descend [turn]).isTree = true := by
  cases t with
  | nullptr => simp [isTree] at ht
  | mk w p l r =>
    simp only [HuffmanTreeNode.point] at hp
    subst hp
    simp only [isTree, Bool.and_eq_true] at ht
    cases turn
    · simpa [descend, HuffmanTreeNode.left] using ht.1
    · simpa [descend, HuffmanTreeNode.right] using ht.2

/-- The search of `findNode` from an internal node, on the bits `n - 1` down to 0 of a
byte, is the walk on these bits up to the first leaf. -/
theorem findNode_walk (root : HuffmanTreeNode) (points : Points) (output_filesize : Nat)
    (input_byte : Nat) :
    ∀ (n : Nat) (t : HuffmanTreeNode), t.isTree = true → t.point = none →
      ∀ (c : Nat) (w : List Byte),
      ∃ (found : Bool) (node : HuffmanTreeNode) (m : Nat),
        findNode t input_byte ((n : Int) - 1) = some (found, node, (m : Int) - 1) ∧
        node.isTree = true ∧
        (found = false → node.point = none ∧
          walk root points output_filesize (codeBits input_byte n)
            { node := t, cur_output_size := c, written := w } =
            .more { node := node, cur_output_size := c, written := w }) ∧
        (found = true → m < n ∧ ∃ p, node.point = some p ∧
          walk root points output_filesize (codeBits input_byte n)
            { node := t, cur_output_size := c, written := w } =
            if (c + 1) % kCodeTypeMod = output_filesize then
              .stopped { node := node, cur_output_size := (c + 1) % kCodeTypeMod,
                         written := w ++ [(points.get p).old_code] } (codeBits input_byte m)
            else
              walk root points output_filesize (codeBits input_byte m)
                { node := root, cur_output_size := (c + 1) % kCodeTypeMod,
                  written := w ++ [(points.get p).old_code] }) := by
  intro n
  induction n with
  | zero =>
    intro t ht hp c w
    cases t with
    | nullptr => simp [isTree] at ht
    | mk wt p l r =>
      simp only [HuffmanTreeNode.point] at hp
      subst hp
      refine ⟨false, mk wt none l r, 0, ?_, ht, ?_, ?_⟩
      · simp [findNode]
      · intro _; exact ⟨rfl, rfl⟩
      · intro h; simp at h
  | succ k ih =>
    intro t ht hp c w
    have hchild := descend_turn_isTree ht hp (input_byte.testBit k)
    cases t with
    | nullptr => simp [isTree] at ht
    | mk wt p l r =>
      simp only [HuffmanTreeNode.point] at hp
      subst hp
      have hpos : (((k + 1 : Nat) : Int) - 1) = (k : Int) := by push_cast; ring
      rw [hpos, findNode_internal]
      generalize hch : (mk wt none l r).descend [input_byte.testBit k] = child at hchild
      have hw : walk root points output_filesize (codeBits input_byte (k + 1))
          { node := mk wt none l r, cur_output_size := c, written := w } =
          match child.point with
          | none => walk root points output_filesize (codeBits input_byte k)
              { node := child, cur_output_size := c, written := w }
          | some p =>
            if (c + 1) % kCodeTypeMod = output_filesize then
              .stopped { node := child, cur_output_size := (c + 1) % kCodeTypeMod,
                         written := w ++ [(points.get p).old_code] } (codeBits input_byte k)
            else
              walk root points output_filesize (codeBits input_byte k)
                { node := root, cur_output_size := (c + 1) % kCodeTypeMod,
                  written := w ++ [(points.get p).old_code] } := by
        rw [codeBits_succ, walk_cons]
        simp only [hch]
      cases child with
      | nullptr => simp [isTree] at hchild
      | mk wc pc lc rc =>
        cases pc with
        | some q =>
          refine ⟨true, mk wc (some q) lc rc, k, ?_, hchild, ?_, ?_⟩
          · simp [findNode]
          · intro h; simp at h
          · intro _
            exact ⟨Nat.lt_succ_self k, q, rfl, hw⟩
        | none =>
          obtain ⟨found, node, m, h1, h2, h3, h4⟩ := ih (mk wc none lc rc) hchild rfl c w
          refine ⟨found, node, m, h1, h2, ?_, ?_⟩
          · intro hf
            exact ⟨(h3 hf).1, hw.trans (h3 hf).2⟩
          · intro hf
            obtain ⟨hm, p, hp1, hp2⟩ := h4 hf
            exact ⟨Nat.lt_succ_of_lt hm, p, hp1, hw.trans hp2⟩

/-- The inner loop of `uncompress` on the bits `n - 1` down to 0 of a byte, the tree pointer
on an internal node: it ends in the state in which the walk on these bits ends. -/
theorem unpackByte_walk (root : HuffmanTreeNode) (points : Points) (output_filesize : Nat)
    (input_byte : Nat) (hroot : root.isTree = true) (hint : root.point = none) :
    ∀ (fuel n : Nat) (st : UnpackState), st.node.isTree = true → st.node.point = none →
      n + 1 ≤ fuel →
      unpackByte root points output_filesize input_byte fuel ((n : Int) - 1) st =
        .ok (walk root points output_filesize (codeBits input_byte n) st).state := by
  intro fuel
  induction fuel with
  | zero => intro n st _ _ h; omega
  | succ f ih =>
    intro n st hst hsp hf
    obtain ⟨found, node, m, h1, h2, h3, h4⟩ :=
      findNode_walk root points output_filesize input_byte n st.node hst hsp
        st.cur_output_size st.written
    cases found with
    | false =>
      obtain ⟨-, hw⟩ := h3 rfl
      have hw2 : walk root points output_filesize (codeBits input_byte n) st =
          .more { node := node, cur_output_size := st.cur_output_size,
                  written := st.written } := hw
      rw [hw2]
      simp [unpackByte, h1, WalkResult.state]
    | true =>
      obtain ⟨hm, p, hp1, hw⟩ := h4 rfl
      have hw2 : walk root points output_filesize (codeBits input_byte n) st = _ := hw
      rw [hw2]
      by_cases hcount : (st.cur_output_size + 1) % kCodeTypeMod = output_filesize
      · rw [if_pos hcount]
        simp [unpackByte, h1, hp1, hcount, WalkResult.state]
      · rw [if_neg hcount]
        have := ih m ⟨root, (st.cur_output_size + 1) % kCodeTypeMod,
            st.written ++ [(points.get p).old_code]⟩ hroot hint (by omega)
        rw [← this]
        simp [unpackByte, h1, hp1, hcount]

end

section

open HuffmanTreeNode

/-- The walk on two sequences of bits one after the other. -/
theorem walk_append (root : HuffmanTreeNode) (points : Points) (output_filesize : Nat) :
    ∀ (x y : List Bool) (st : UnpackState),
      walk root points output_filesize (x ++ y) st =
        match walk root points output_filesize x st with
        | .more st2 => walk root points output_filesize y st2
        | .stopped st2 unread => .stopped st2 (unread ++ y) := by
  intro x
  induction x with
  | nil => intro y st; rfl
  | cons turn rest ih =>
    intro y st
    rw [List.cons_append, walk_cons, walk_cons]
    cases (st.node.descend [turn]).point with
    | none => exact ih y _
    | some p =>
      by_cases hc : (st.cur_output_size + 1) % kCodeTypeMod = output_filesize
      · simp only [if_pos hc]
      · simp only [if_neg hc]
        exact ih y _

/-- A walk that runs out of bits leaves the tree pointer on an internal node. -/
theorem walk_more_internal (root : HuffmanTreeNode) (points : Points) (output_filesize : Nat)
    (hroot : root.isTree = true) (hint : root.point = none) :
    ∀ (x : List Bool) (st st2 : UnpackState), st.node.isTree = true → st.node.point = none →
      walk root points output_filesize x st = .more st2 →
      st2.node.isTree = true ∧ st2.node.point = none := by
  intro x
  induction x with
  | nil =>
    intro st st2 h1 h2 h
    simp only [walk, WalkResult.more.injEq] at h
    subst h
    exact ⟨h1, h2⟩
  | cons turn rest ih =>
    intro st st2 h1 h2 h
    rw [walk_cons] at h
    have hchild := descend_turn_isTree h1 h2 turn
    cases hp : (st.node.descend [turn]).point with
    | none =>
      rw [hp] at h
      exact ih _ st2 hchild hp h
    | some p =>
      rw [hp] at h
      by_cases hc : (st.cur_output_size + 1) % kCodeTypeMod = output_filesize
      · simp only [if_pos hc] at h
        cases h
      · simp only [if_neg hc] at h
        exact ih _ st2 hroot hint h

/-- A walk that is left with fewer bits unread than the second of two sequences holds was
left in the second one. -/
theorem walk_split (root : HuffmanTreeNode) (points : Points) (output_filesize : Nat)
    (x y : List Bool) (st st2 : UnpackState) (unread : List Bool)
    (h : walk root points output_filesize (x ++ y) st = .stopped st2 unread)
    (hlen : unread.length < y.length) :
    ∃ st1, walk root points output_filesize x st = .more st1 ∧
      walk root points output_filesize y st1 = .stopped st2 unread := by
  rw [walk_append] at h
  cases hx : walk root points output_filesize x st with
  | more st1 =>
    rw [hx] at h
    exact ⟨st1, rfl, h⟩
  | stopped st1 r =>
    rw [hx] at h
    simp only [WalkResult.stopped.injEq] at h
    have := congrArg List.length h.2
    rw [List.length_append] at this
    omega

/-- The walk on the path to a leaf: the symbol of the leaf is written. -/
theorem walk_code (root : HuffmanTreeNode) (points : Points) (output_filesize : Nat) :
    ∀ (path y : List Bool) (st : UnpackState) (s : Byte), st.node.isTree = true →
      (st.node.descend path).point = some s → path ≠ [] →
      walk root points output_filesize (path ++ y) st =
        if (st.cur_output_size + 1) % kCodeTypeMod = output_filesize then
          .stopped { node := st.node.descend path
                     cur_output_size := (st.cur_output_size + 1) % kCodeTypeMod
                     written := st.written ++ [(points.get s).old_code] } y
        else
          walk root points output_filesize y
            { node := root, cur_output_size := (st.cur_output_size + 1) % kCodeTypeMod,
              written := st.written ++ [(points.get s).old_code] } := by
  intro path
  induction path with
  | nil => intro y st s _ _ h; exact absurd rfl h
  | cons turn rest ih =>
    intro y st s ht hs _
    have hd : st.node.descend (turn :: rest) = (st.node.descend [turn]).descend rest :=
      descend_append st.node [turn] rest
    rw [hd] at hs ⊢
    rw [List.cons_append, walk_cons]
    by_cases hrest : rest = []
    · subst hrest
      simp only [descend] at hs ⊢
      rw [hs]
      rfl
    · have hchild : (st.node.descend [turn]).isTree = true := by
        rcases descend_isTree ht [turn] with h0 | h0
        · rw [h0, descend_nullptr] at hs
          simp [HuffmanTreeNode.point] at hs
        · exact h0
      cases hp : (st.node.descend [turn]).point with
      | some q =>
        rw [descend_leaf hchild hp hrest] at hs
        simp [HuffmanTreeNode.point] at hs
      | none =>
        exact ih y { st with node := st.node.descend [turn] } s hchild hs hrest

/-- The walk from the root on the paths of the symbols of a sequence that holds as many
symbols as are still expected: all of them are written, and the loop is left after the last
bit of the last path, with the tree pointer on the leaf of the last symbol. -/
theorem walk_codes (root : HuffmanTreeNode) (points : Points) (output_filesize : Nat)
    (hroot : root.isTree = true) (path : Byte → List Bool)
    (hpath : ∀ s, (root.descend (path s)).point = some s ∧ path s ≠ [])
    (hold : ∀ s, (points.get s).old_code = s) (hsize : output_filesize < kCodeTypeMod) :
    ∀ (input : List Byte) (hne : input ≠ []) (y : List Bool) (c : Nat) (w : List Byte),
      c + input.length = output_filesize →
      walk root points output_filesize (input.flatMap path ++ y)
        { node := root, cur_output_size := c, written := w } =
        .stopped { node := root.descend (path (input.getLast hne))
                   cur_output_size := output_filesize
                   written := w ++ input } y := by
  intro input
  induction input with
  | nil => intro hne; exact absurd rfl hne
  | cons s rest ih =>
    intro hne y c w hc
    rw [List.flatMap_cons, List.append_assoc,
      walk_code root points output_filesize (path s) _ _ s hroot (hpath s).1 (hpath s).2]
    simp only [List.length_cons] at hc
    cases rest with
    | nil =>
      simp only [List.length_nil] at hc
      have h1 : (c + 1) % kCodeTypeMod = output_filesize := by
        rw [Nat.mod_eq_of_lt (by omega)]; omega
      simp only [if_pos h1, List.flatMap_nil, List.nil_append, List.getLast_singleton, hold]
      rw [h1]
    | cons s2 rest2 =>
      simp only [List.length_cons] at hc
      have h0 : (c + 1) % kCodeTypeMod = c + 1 := Nat.mod_eq_of_lt (by omega)
      have h1 : ¬ (c + 1) % kCodeTypeMod = output_filesize := by
        rw [h0]; omega
      simp only [if_neg h1]
      rw [h0, ih (List.cons_ne_nil _ _) y (c + 1) (w ++ [(points.get s).old_code])
        (by simp only [List.length_cons]; omega)]
      simp only [hold, List.getLast_cons (List.cons_ne_nil s2 rest2), List.append_assoc,
        List.singleton_append]

/-- The outer loop of `uncompress` on packed bytes the walk on whose bits runs out of
bits: it ends in the state in which the walk ends. -/
theorem unpackBytes_walk (root : HuffmanTreeNode) (points : Points) (output_filesize : Nat)
    (fuel : Nat) (hfuel : 9 ≤ fuel) (hroot : root.isTree = true) (hint : root.point = none) :
    ∀ (packed : List Nat) (st st2 : UnpackState), st.node.isTree = true →
      st.node.point = none →
      walk root points output_filesize (packed.flatMap byteBits) st = .more st2 →
      unpackBytes root points output_filesize fuel packed st = .ok st2 := by
  intro packed
  induction packed with
  | nil =>
    intro st st2 _ _ h
    simp only [List.flatMap_nil, walk, WalkResult.more.injEq] at h
    subst h
    rfl
  | cons b rest ih =>
    intro st st2 h1 h2 h
    rw [List.flatMap_cons, walk_append] at h
    have hb := unpackByte_walk root points output_filesize b hroot hint fuel 8 st h1 h2
      (by omega)
    have h7 : (((8 : Nat) : Int) - 1) = 7 := by norm_num
    rw [h7] at hb
    cases hx : walk root points output_filesize (byteBits b) st with
    | stopped st1 r =>
      rw [hx] at h
      cases h
    | more st1 =>
      rw [hx] at h
      obtain ⟨k1, k2⟩ := walk_more_internal root points output_filesize hroot hint _ st st1
        h1 h2 hx
      have hb2 : unpackByte root points output_filesize b fuel 7 st = .ok st1 := by
        rw [hb]
        show Except.ok (walk root points output_filesize (byteBits b) st).state = _
        rw [hx]
        rfl
      simp only [unpackBytes, hb2]
      exact ih st1 st2 k1 k2 h

/-- The last byte of the walk: when the walk on the bits of a byte is left on the count, the
inner loop of `uncompress` ends on this byte in the state the walk was left in. -/
theorem unpackByte_stopped (root : HuffmanTreeNode) (points : Points) (output_filesize : Nat)
    (fuel : Nat) (hfuel : 9 ≤ fuel) (hroot : root.isTree = true) (hint : root.point = none)
    (b : Nat) (st st2 : UnpackState) (unread : List Bool) (h1 : st.node.isTree = true)
    (h2 : st.node.point = none)
    (h : walk root points output_filesize (byteBits b) st = .stopped st2 unread) :
    unpackByte root points output_filesize b fuel 7 st = .ok st2 := by
  have hb := unpackByte_walk root points output_filesize b hroot hint fuel 8 st h1 h2
    (by omega)
  have h7 : (((8 : Nat) : Int) - 1) = 7 := by norm_num
  rw [h7] at hb
  rw [hb]
  show Except.ok (walk root points output_filesize (byteBits b) st).state = _
  rw [h]
  rfl

end

section

open HuffmanTreeNode

/-- A byte all of whose bits are 0 is the byte `0x00`. -/
theorem byte_of_zero_bits (z : Nat) (hz : z < 256) (h : byteBits z = List.replicate 8 false) :
    z = 0 := by
  simp only [byteBits, codeBits, List.replicate, List.cons.injEq, and_true] at h
  obtain ⟨h7, h6, h5, h4, h3, h2, h1, h0⟩ := h
  apply Nat.eq_of_testBit_eq
  intro i
  rw [Nat.zero_testBit]
  by_cases hi : i < 8
  · interval_cases i <;> assumption
  · apply Nat.testBit_lt_two_pow
    calc z < 2 ^ 8 := hz
      _ ≤ 2 ^ i := Nat.pow_le_pow_right (by norm_num) (by omega)

/-- The outer loop of `uncompress` on two sequences of packed bytes one after the other. -/
theorem unpackBytes_append (root : HuffmanTreeNode) (points : Points) (output_filesize : Nat)
    (fuel : Nat) :
    ∀ (x y : List Nat) (st st1 : UnpackState),
      unpackBytes root points output_filesize fuel x st = .ok st1 →
      unpackBytes root points output_filesize fuel (x ++ y) st =
        unpackBytes root points output_filesize fuel y st1 := by
  intro x
  induction x with
  | nil =>
    intro y st st1 h
    simp only [unpackBytes, Except.ok.injEq] at h
    subst h
    rfl
  | cons b rest ih =>
    intro y st st1 h
    simp only [List.cons_append, unpackBytes] at h ⊢
    cases hb : unpackByte root points output_filesize b fuel 7 st with
    | error err => rw [hb] at h; cases h
    | ok st2 =>
      rw [hb] at h
      simp only at h ⊢
      exact ih y st2 st1 h

/-- The two paths of `run` on a raw input, on a lawful queue: the tree, the path of each
symbol, the encoder that `compress` is called with, and the decoding of the file written,
which uses the same tree and expects as many bytes as the input holds. -/
theorem codec_setup (pq : PriorityQueue) (h : pq.Lawful) (fuel : Nat) (hfuel : 255 ≤ fuel)
    (input : List Byte) (hlen : input.length < 2 ^ 64) :
    ∃ (root : HuffmanTreeNode) (path : Byte → List Bool) (e : HuffmanEncoder)
      (points2 : Points),
      encoderFor pq fuel input = .ok e ∧
      runCompress pq fuel input = .ok (compress input e).1 ∧
      (compress input e).1.header.original_size = input.length ∧
      root.isTree = true ∧ root.point = none ∧
      (∀ s, (root.descend (path s)).point = some s ∧ path s ≠ [] ∧
        (e.points_.get s).length = (path s).length ∧
        (e.points_.get s).new_code = codeAfter 0 (path s)) ∧
      (∀ s, (points2.get s).old_code = s) ∧
      ∀ (packed : List Nat) (st : UnpackState),
        unpackBytes root points2 input.length fuel packed
          { node := root, cur_output_size := 0, written := [] } = .ok st →
        runUncompress pq fuel { header := (compress input e).1.header, packed := packed } =
          .ok st.written := by
  obtain ⟨-, s2, -, -⟩ := statisticalFrequency_spec input HuffmanEncoder.new
  obtain ⟨root, hroot, htree, hcount, hcodes⟩ := codes_of_build pq h
    (statisticalFrequency input HuffmanEncoder.new).points_
  choose path hpath using hcodes
  have hpoint : root.point = none := by
    cases root with
    | nullptr => rfl
    | mk w p l r =>
      cases p with
      | none => rfl
      | some p => simp [internalCount] at hcount
  have hsize : (statisticalFrequency input HuffmanEncoder.new).input_filesize_ =
      input.length := by
    rw [s2]
    by_cases h0 : input.length = 0
    · simp [h0, HuffmanEncoder.new]
    · simp only [h0, if_false, HuffmanEncoder.new, Nat.zero_add]
      exact Nat.mod_eq_of_lt hlen
  have henc : encoderFor pq fuel input = .ok
      { statisticalFrequency input HuffmanEncoder.new with
        root_ := root
        points_ := initCodePoint root 0 "" 0
          (statisticalFrequency input HuffmanEncoder.new).points_ } := by
    simp only [encoderFor, hroot fuel hfuel]
  generalize he : ({ statisticalFrequency input HuffmanEncoder.new with
        root_ := root
        points_ := initCodePoint root 0 "" 0
          (statisticalFrequency input HuffmanEncoder.new).points_ } : HuffmanEncoder) = e
    at henc
  have hep : e.points_ = initCodePoint root 0 "" 0
      (statisticalFrequency input HuffmanEncoder.new).points_ := by rw [← he]
  have hes : e.input_filesize_ = input.length := by rw [← he]; exact hsize
  have hfreq : ∀ i, ((readHeader (compress input e).1.header).points_.get i).frequency =
      ((statisticalFrequency input HuffmanEncoder.new).points_.get i).frequency := by
    intro i
    rw [readHeader_compress_frequency, hep, initCodePoint_frequency]
  have hbuild : buildHuffmanTree pq (readHeader (compress input e).1.header).points_ fuel =
      .ok root := by
    rw [← hroot fuel hfuel]
    unfold buildHuffmanTree
    rw [pushLeaves_congr pq _ _ hfreq]
  have hout : (readHeader (compress input e).1.header).output_filesize_ = input.length := by
    rw [← hes]; rfl
  refine ⟨root, path, e,
    initCodePoint root 0 "" 0 (readHeader (compress input e).1.header).points_,
    henc, ?_, hes, htree, hpoint, ?_, ?_, ?_⟩
  · simp only [runCompress, henc]
  · intro s
    obtain ⟨k1, k2, -, k4⟩ := hpath s
    refine ⟨k1, ?_, ?_, ?_⟩
    · intro h0
      rw [h0] at k2
      simp at k2
    · rw [hep, k4]
    · rw [hep, k4]
  · intro s
    rw [initCodePoint_old_code]
    simp [readHeader, HuffmanEncoder.new]
  · intro packed st hst
    simp only [runUncompress, hbuild, uncompress, hout, hst]

end

section

open HuffmanTreeNode

theorem findNode_leaf {t : HuffmanTreeNode} {p : Byte} (hp : t.point = some p)
    (input_byte : Nat) (pos : Int) : findNode t input_byte pos = some (true, t, pos) := by
  cases t with
  | nullptr => simp [HuffmanTreeNode.point] at hp
  | mk w q l r =>
    simp only [HuffmanTreeNode.point] at hp
    subst hp
    rfl

/-- The bits that `compress` packs for an input whose codes fit the register are the paths
of its bytes. -/
theorem flatMap_codeBits_path (points : Points) (path : Byte → List Bool)
    (hpath : ∀ s, (points.get s).length = (path s).length ∧
      (points.get s).new_code = codeAfter 0 (path s)) :
    ∀ input : List Byte, (∀ b ∈ input, (points.get b).length ≤ 64) →
      input.flatMap (fun b => registerBits (points.get b).new_code (points.get b).length) =
        input.flatMap path := by
  intro input
  induction input with
  | nil => intro _; rfl
  | cons s rest ih =>
    intro hc
    have h64 := hc s (List.mem_cons_self _ _)
    rw [List.flatMap_cons, List.flatMap_cons, ih (fun b hb => hc b (List.mem_cons_of_mem _ hb)),
      (hpath s).2]
    rw [(hpath s).1] at h64 ⊢
    rw [registerBits_eq_codeBits _ _ h64, codeBits_codeAfter_zero (path s) h64]

theorem codeLengthSum_path (points : Points) (path : Byte → List Bool)
    (hpath : ∀ s, (points.get s).length = (path s).length) (input : List Byte) :
    codeLengthSum points input = (input.flatMap path).length := by
  unfold codeLengthSum
  induction input with
  | nil => rfl
  | cons s rest ih =>
    rw [List.map_cons, List.sum_cons, List.flatMap_cons, List.length_append, ih, hpath s]

theorem length_flatMap_byteBits (packed : List Nat) :
    (packed.flatMap byteBits).length = 8 * packed.length := by
  induction packed with
  | nil => rfl
  | cons b rest ih =>
    rw [List.flatMap_cons, List.length_append, ih, List.length_cons]
    unfold byteBits
    rw [codeBits_length]
    ring

/-- Decoding up to the count: when the packed bytes hold the paths of the bytes of the input
and then fewer than 8 more bits, `uncompress` writes the input and leaves the loop in the
last packed byte, the tree pointer on the leaf of the last byte of the input. -/
theorem unpackBytes_codes (root : HuffmanTreeNode) (points : Points) (fuel : Nat)
    (hfuel : 9 ≤ fuel) (hroot : root.isTree = true) (hint : root.point = none)
    (path : Byte → List Bool)
    (hpath : ∀ s, (root.descend (path s)).point = some s ∧ path s ≠ [])
    (hold : ∀ s, (points.get s).old_code = s) (input : List Byte) (hne : input ≠ [])
    (hlen : input.length < kCodeTypeMod) (packed : List Nat) (pad : List Bool)
    (hbits : packed.flatMap byteBits = input.flatMap path ++ pad) (hpad : pad.length < 8) :
    unpackBytes root points input.length fuel packed
      { node := root, cur_output_size := 0, written := [] } =
      .ok { node := root.descend (path (input.getLast hne))
            cur_output_size := input.length
            written := input } := by
  have hpk : packed ≠ [] := by
    intro h0
    rw [h0] at hbits
    cases input with
    | nil => exact hne rfl
    | cons s rest =>
      have := congrArg List.length hbits
      have hs : (path s).length ≠ 0 := fun h1 => (hpath s).2 (List.length_eq_zero.1 h1)
      simp only [List.flatMap_nil, List.length_nil, List.flatMap_cons, List.length_append]
        at this
      omega
  have hw := walk_codes root points input.length hroot path hpath hold hlen input hne pad 0 []
    (by omega)
  rw [List.nil_append, ← hbits, ← List.dropLast_append_getLast hpk, List.flatMap_append,
    List.flatMap_singleton] at hw
  obtain ⟨st1, k1, k2⟩ := walk_split root points input.length _ _ _ _ _ hw
    (by unfold byteBits; rw [codeBits_length]; exact hpad)
  obtain ⟨k3, k4⟩ := walk_more_internal root points input.length hroot hint _ _ st1 hroot hint k1
  have k5 := unpackBytes_walk root points input.length fuel hfuel hroot hint _ _ st1 hroot hint k1
  have k6 := unpackByte_stopped root points input.length fuel hfuel hroot hint
    (packed.getLast hpk) st1 _ pad k3 k4 k2
  rw [← List.dropLast_append_getLast hpk, unpackBytes_append _ _ _ _ _ _ _ _ k5]
  simp only [unpackBytes, k6]

/-- Decoding past the count: when the packed bytes hold the paths of the bytes of the input
and then one more byte, `uncompress` writes the input, then the last byte of the input once
more, from the leaf the tree pointer was left on, then what it decodes from the byte. -/
theorem unpackBytes_codes_then_byte (root : HuffmanTreeNode) (points : Points) (fuel : Nat)
    (hfuel : 10 ≤ fuel) (hroot : root.isTree = true) (hint : root.point = none)
    (path : Byte → List Bool)
    (hpath : ∀ s, (root.descend (path s)).point = some s ∧ path s ≠ [])
    (hold : ∀ s, (points.get s).old_code = s) (input : List Byte) (hne : input ≠ [])
    (hlen : input.length < kCodeTypeMod) (front : List Nat) (z : Nat)
    (hbits : front.flatMap byteBits = input.flatMap path) :
    ∃ st w, unpackBytes root points input.length fuel (front ++ [z])
        { node := root, cur_output_size := 0, written := [] } = .ok st ∧
      st.written = input ++ input.getLast hne :: w := by
  have k1 := unpackBytes_codes root points fuel (by omega) hroot hint path hpath hold input hne
    hlen front [] (by rw [hbits, List.append_nil]) (by simp)
  obtain ⟨f, rfl⟩ : ∃ f, fuel = f + 1 := ⟨fuel - 1, by omega⟩
  have hp := (hpath (input.getLast hne)).1
  have hcount : ¬ ((input.length + 1) % kCodeTypeMod = input.length) := by
    by_cases h1 : input.length + 1 < kCodeTypeMod
    · rw [Nat.mod_eq_of_lt h1]; omega
    · have h2 : input.length + 1 = kCodeTypeMod := by omega
      rw [h2, Nat.mod_self]
      intro h0
      exact hne (List.length_eq_zero.1 h0.symm)
  obtain ⟨st2, k2, -, w, k3⟩ := unpackByte_total root points input.length z hroot hint f 7
    { node := root, cur_output_size := (input.length + 1) % kCodeTypeMod,
      written := input ++ [(points.get (input.getLast hne)).old_code] } hroot (by omega)
    (by simp only [hint, if_true]; omega)
  refine ⟨st2, w, ?_, ?_⟩
  · rw [unpackBytes_append _ _ _ _ _ _ _ _ k1]
    have k4 := unpackByte_found root points input.length z f 7 7
      { node := root.descend (path (input.getLast hne)), cur_output_size := input.length,
        written := input } _ (input.getLast hne) (findNode_leaf hp z 7) hp hcount
    simp only [unpackBytes, k4, k2]
  · rw [k3, hold]
    simp

/-- The encoder that `compress` is called with for `n` copies of one byte: the code length
of the byte is 1, so the code lengths of the input sum to `n`. -/
theorem encoderFor_replicate (pq : PriorityQueue) (h : pq.Lawful) (b : Byte) (n : Nat)
    (hn : 1 ≤ n) (hlt : n < 2 ^ 64) (fuel : Nat) (hfuel : 255 ≤ fuel) (e : HuffmanEncoder)
    (he : encoderFor pq fuel (List.replicate n b) = .ok e) :
    (e.points_.get b).length = 1 ∧ codeLengthSum e.points_ (List.replicate n b) = n := by
  obtain ⟨root, Z, hroot, -, -, -, -, -, hl⟩ := single_symbol_tree pq h
    (statisticalFrequency (List.replicate n b) HuffmanEncoder.new).points_ b
    (by rw [frequency_replicate b n hlt]; simp; omega)
    (by intro i hi; rw [frequency_replicate b n hlt]; simp [hi])
  simp only [encoderFor, hroot fuel hfuel, Except.ok.injEq] at he
  subst he
  exact ⟨hl, by simp [codeLengthSum, hl]⟩

end

section

open HuffmanTreeNode

/-- Claim C20: the exact condition for a correct round trip. On every lawful queue, for
every non-empty input of fewer than `2^64` bytes, the two paths of `run` return: the input is
compressed to a file and the file is decompressed to an output. When the code length of
every byte of the input is at most 64, with `T` the sum of the code lengths of the bytes of
the input, the output is the input if and only if `T` is not a multiple of 8; when `T` is a
multiple of 8 the packed bytes end with one more byte `0x00`, and the output is the input
followed by the last byte of the input once more and by what is decoded from the byte of
padding. -/
theorem round_trip_exact_condition (pq : PriorityQueue) (h : pq.Lawful) (fuel : Nat)
    (hfuel : 255 ≤ fuel) (input : List Byte) (hne : input ≠ []) (hlen : input.length < 2 ^ 64) :
    ∃ e file out, encoderFor pq fuel input = .ok e ∧ runCompress pq fuel input = .ok file ∧
      runUncompress pq fuel file = .ok out ∧
      ((∀ b ∈ input, (e.points_.get b).length ≤ 64) →
        (out = input ↔ codeLengthSum e.points_ input % 8 ≠ 0) ∧
        (codeLengthSum e.points_ input % 8 = 0 →
          (∃ front, file.packed = front ++ [0] ∧
            front.length = codeLengthSum e.points_ input / 8) ∧
          ∃ w, out = input ++ input.getLast hne :: w)) := by
  obtain ⟨root, path, e, points2, henc, hcomp, -, hroot, hint, hpath, hold, hdec⟩ :=
    codec_setup pq h fuel hfuel input hlen
  obtain ⟨st, hst, -, -⟩ := unpackBytes_total root points2 input.length fuel (by omega) hroot hint
    (compress input e).1.packed { node := root, cur_output_size := 0, written := [] } hroot
  refine ⟨e, (compress input e).1, st.written, henc, hcomp, hdec _ st hst, ?_⟩
  intro hcode
  obtain ⟨hbytes, hbits, hcount, -⟩ := compress_spec input e
  rw [flatMap_codeBits_path e.points_ path (fun s => ⟨(hpath s).2.2.1, (hpath s).2.2.2⟩) input
    hcode] at hbits
  have hT := codeLengthSum_path e.points_ path (fun s => (hpath s).2.2.1) input
  have hpath2 : ∀ s, (root.descend (path s)).point = some s ∧ path s ≠ [] :=
    fun s => ⟨(hpath s).1, (hpath s).2.1⟩
  have hlen2 : input.length < kCodeTypeMod := hlen
  by_cases hT8 : codeLengthSum e.points_ input % 8 = 0
  · -- the byte of padding is decoded
    have hpk : (compress input e).1.packed ≠ [] := by
      intro h0
      rw [h0] at hcount
      simp at hcount
    have hsplit := List.dropLast_append_getLast hpk
    generalize hfront : (compress input e).1.packed.dropLast = front at hsplit
    generalize hz : (compress input e).1.packed.getLast hpk = z at hsplit
    have hzlt : z < 256 := by
      rw [← hz]
      exact hbytes _ (List.getLast_mem hpk)
    have hfl : front.length = codeLengthSum e.points_ input / 8 := by
      rw [← hfront, List.length_dropLast, hcount]
      rfl
    rw [← hsplit, List.flatMap_append, List.flatMap_singleton, hT8] at hbits
    obtain ⟨hb1, hb2⟩ := List.append_inj hbits (by
      rw [length_flatMap_byteBits, hfl, ← hT]
      omega)
    have hz0 : z = 0 := byte_of_zero_bits z hzlt hb2
    obtain ⟨st2, w, k1, k2⟩ := unpackBytes_codes_then_byte root points2 fuel (by omega) hroot
      hint path hpath2 hold input hne hlen2 front z hb1
    rw [← hsplit, k1] at hst
    simp only [Except.ok.injEq] at hst
    subst hst
    have hout : st2.written ≠ input := by
      intro h0
      have := congrArg List.length h0
      rw [k2] at this
      simp at this
    refine ⟨⟨fun h0 => absurd h0 hout, fun h0 => absurd hT8 h0⟩, fun _ => ?_⟩
    exact ⟨⟨front, by rw [← hsplit, hz0], hfl⟩, w, k2⟩
  · -- the loop is left in the last packed byte
    have k1 := unpackBytes_codes root points2 fuel (by omega) hroot hint path hpath2 hold input
      hne hlen2 (compress input e).1.packed _ hbits (by
        rw [List.length_replicate]
        omega)
    rw [k1] at hst
    simp only [Except.ok.injEq] at hst
    subst hst
    exact ⟨⟨fun _ => hT8, fun _ => rfl⟩, fun h0 => absurd h0 hT8⟩

theorem round_trip_exact_condition_witness :
    stdPriorityQueue.Lawful ∧ 255 ≤ 255 ∧ (List.replicate 3 65 : List Byte) ≠ [] ∧
    (List.replicate 3 65 : List Byte).length < 2 ^ 64 ∧
    ∃ e file out, encoderFor stdPriorityQueue 255 (List.replicate 3 65) = .ok e ∧
      runCompress stdPriorityQueue 255 (List.replicate 3 65) = .ok file ∧
      runUncompress stdPriorityQueue 255 file = .ok out ∧
      (∀ b ∈ (List.replicate 3 65 : List Byte), (e.points_.get b).length ≤ 64) ∧
      codeLengthSum e.points_ (List.replicate 3 65) % 8 ≠ 0 ∧
      out = List.replicate 3 65 := by
  obtain ⟨e, file, out, h1, h2, h3, h4⟩ :=
    round_trip_exact_condition stdPriorityQueue stdPriorityQueue_lawful 255 (le_refl _)
      (List.replicate 3 65) (by simp) (by simp)
  obtain ⟨k1, k2⟩ := encoderFor_replicate stdPriorityQueue stdPriorityQueue_lawful 65 3
    (by norm_num) (by norm_num) 255 (le_refl _) e h1
  have hcode : ∀ b ∈ (List.replicate 3 65 : List Byte), (e.points_.get b).length ≤ 64 := by
    intro b hb
    rw [List.eq_of_mem_replicate hb, k1]
    norm_num
  have hT : codeLengthSum e.points_ (List.replicate 3 65) % 8 ≠ 0 := by
    rw [k2]
    norm_num
  exact ⟨stdPriorityQueue_lawful, le_refl _, by simp, by simp, e, file, out, h1, h2, h3,
    hcode, hT, (h4 hcode).1.2 hT⟩

end

section

open HuffmanTreeNode

/-- A walk only appends to the bytes written. -/
theorem walk_written (root : HuffmanTreeNode) (points : Points) (output_filesize : Nat) :
    ∀ (x : List Bool) (st : UnpackState),
      ∃ w, (walk root points output_filesize x st).state.written = st.written ++ w := by
  intro x
  induction x with
  | nil => intro st; exact ⟨[], by simp [walk, WalkResult.state]⟩
  | cons turn rest ih =>
    intro st
    rw [walk_cons]
    cases (st.node.descend [turn]).point with
    | none => exact ih _
    | some p =>
      by_cases hc : (st.cur_output_size + 1) % kCodeTypeMod = output_filesize
      · simp only [if_pos hc]
        exact ⟨[(points.get p).old_code], rfl⟩
      · simp only [if_neg hc]
        obtain ⟨w, hw⟩ := ih
          { node := root, cur_output_size := (st.cur_output_size + 1) % kCodeTypeMod,
            written := st.written ++ [(points.get p).old_code] }
        exact ⟨(points.get p).old_code :: w, by rw [hw]; simp⟩

/-- A walk that runs out of bits before the count is met has written fewer bytes than
expected. -/
theorem walk_count (root : HuffmanTreeNode) (points : Points) (output_filesize : Nat)
    (hsize : output_filesize < kCodeTypeMod) :
    ∀ (x : List Bool) (st st2 : UnpackState), st.cur_output_size < output_filesize →
      st.written.length = st.cur_output_size →
      walk root points output_filesize x st = .more st2 →
      st2.cur_output_size < output_filesize ∧ st2.written.length = st2.cur_output_size := by
  intro x
  induction x with
  | nil =>
    intro st st2 h1 h2 h
    simp only [walk, WalkResult.more.injEq] at h
    subst h
    exact ⟨h1, h2⟩
  | cons turn rest ih =>
    intro st st2 h1 h2 h
    rw [walk_cons] at h
    cases hp : (st.node.descend [turn]).point with
    | none =>
      rw [hp] at h
      exact ih { st with node := st.node.descend [turn] } st2 h1 h2 h
    | some p =>
      rw [hp] at h
      by_cases hc : (st.cur_output_size + 1) % kCodeTypeMod = output_filesize
      · simp only [if_pos hc] at h
        cases h
      · simp only [if_neg hc] at h
        have h0 : (st.cur_output_size + 1) % kCodeTypeMod = st.cur_output_size + 1 :=
          Nat.mod_eq_of_lt (by omega)
        rw [h0] at hc
        refine ih _ st2 ?_ ?_ h
        · simp only [h0]; omega
        · simp only [h0, List.length_append, List.length_singleton, h2]

/-- The bits of the first packed bytes are the first bits. -/
theorem flatMap_byteBits_take :
    ∀ (packed : List Nat) (k : Nat),
      (packed.take k).flatMap byteBits = (packed.flatMap byteBits).take (8 * k) := by
  intro packed
  induction packed with
  | nil => intro k; simp
  | cons b rest ih =>
    intro k
    cases k with
    | zero => simp
    | succ j =>
      have hb : (byteBits b).length = 8 := codeBits_length b 8
      have e : 8 * (j + 1) = (byteBits b).length + 8 * j := by rw [hb]; ring
      rw [List.take_succ_cons, List.flatMap_cons, List.flatMap_cons, ih j, e, List.take_append]

/-- Claim C14, as the code has it: a cut packed stream is decoded without a failure. On
every lawful queue, for every input of fewer than `2^64` bytes and every number `k`, the
compressed file with its packed bytes cut to the first `k` is decompressed normally; and
when the code lengths of the bytes of the input are at most 64 and the `k` bytes hold fewer
bits than the codes of the input, the output is shorter than the original size in the header:
it is an initial part of the input. -/
theorem cut_stream_decodes_normally (pq : PriorityQueue) (h : pq.Lawful) (fuel : Nat)
    (hfuel : 255 ≤ fuel) (input : List Byte) (hlen : input.length < 2 ^ 64) (k : Nat) :
    ∃ e file out, encoderFor pq fuel input = .ok e ∧ runCompress pq fuel input = .ok file ∧
      file.header.original_size = input.length ∧
      runUncompress pq fuel { file with packed := file.packed.take k } = .ok out ∧
      ((∀ b ∈ input, (e.points_.get b).length ≤ 64) →
        8 * k < codeLengthSum e.points_ input →
        out.length < file.header.original_size ∧ ∃ w, input = out ++ w) := by
  obtain ⟨root, path, e, points2, henc, hcomp, hsize, hroot, hint, hpath, hold, hdec⟩ :=
    codec_setup pq h fuel hfuel input hlen
  obtain ⟨st, hst, -, -⟩ := unpackBytes_total root points2 input.length fuel (by omega) hroot hint
    ((compress input e).1.packed.take k)
    { node := root, cur_output_size := 0, written := [] } hroot
  refine ⟨e, (compress input e).1, st.written, henc, hcomp, hsize, hdec _ st hst, ?_⟩
  intro hcode hk
  obtain ⟨-, hbits, -, -⟩ := compress_spec input e
  rw [flatMap_codeBits_path e.points_ path (fun s => ⟨(hpath s).2.2.1, (hpath s).2.2.2⟩) input
    hcode] at hbits
  have hT := codeLengthSum_path e.points_ path (fun s => (hpath s).2.2.1) input
  have hpath2 : ∀ s, (root.descend (path s)).point = some s ∧ path s ≠ [] :=
    fun s => ⟨(hpath s).1, (hpath s).2.1⟩
  have hlen2 : input.length < kCodeTypeMod := hlen
  have hne : input ≠ [] := by
    intro h0
    rw [h0] at hk
    simp [codeLengthSum] at hk
  rw [hT] at hk
  have hcut : ((compress input e).1.packed.take k).flatMap byteBits =
      (input.flatMap path).take (8 * k) := by
    rw [flatMap_byteBits_take, hbits, List.take_append_of_le_length (by omega)]
  have hw := walk_codes root points2 input.length hroot path hpath2 hold hlen2 input hne [] 0 []
    (by omega)
  rw [List.append_nil, List.nil_append, ← List.take_append_drop (8 * k) (input.flatMap path)]
    at hw
  obtain ⟨st1, k1, k2⟩ := walk_split root points2 input.length _ _ _ _ _ hw
    (by rw [List.length_drop, List.length_nil]; omega)
  rw [← hcut] at k1
  have k3 := unpackBytes_walk root points2 input.length fuel (by omega) hroot hint _ _ st1 hroot
    hint k1
  rw [k3] at hst
  simp only [Except.ok.injEq] at hst
  subst hst
  have hpos : 0 < input.length := List.length_pos.2 hne
  obtain ⟨k4, k5⟩ := walk_count root points2 input.length hlen2 _ _ st1 hpos rfl k1
  refine ⟨by rw [hsize, k5]; exact k4, ?_⟩
  obtain ⟨w, hw2⟩ := walk_written root points2 input.length
    ((input.flatMap path).drop (8 * k)) st1
  rw [k2] at hw2
  exact ⟨w, hw2⟩

theorem cut_stream_decodes_normally_witness :
    stdPriorityQueue.Lawful ∧ 255 ≤ 255 ∧ (List.replicate 16 65 : List Byte).length < 2 ^ 64 ∧
    ∃ e file out, encoderFor stdPriorityQueue 255 (List.replicate 16 65) = .ok e ∧
      runCompress stdPriorityQueue 255 (List.replicate 16 65) = .ok file ∧
      file.header.original_size = (List.replicate 16 65 : List Byte).length ∧
      runUncompress stdPriorityQueue 255 { file with packed := file.packed.take 1 } =
        .ok out ∧
      (∀ b ∈ (List.replicate 16 65 : List Byte), (e.points_.get b).length ≤ 64) ∧
      8 * 1 < codeLengthSum e.points_ (List.replicate 16 65) ∧
      out.length < file.header.original_size ∧ ∃ w, List.replicate 16 65 = out ++ w := by
  obtain ⟨e, file, out, h1, h2, h3, h4, h5⟩ :=
    cut_stream_decodes_normally stdPriorityQueue stdPriorityQueue_lawful 255 (le_refl _)
      (List.replicate 16 65) (by simp) 1
  obtain ⟨k1, k2⟩ := encoderFor_replicate stdPriorityQueue stdPriorityQueue_lawful 65 16
    (by norm_num) (by norm_num) 255 (le_refl _) e h1
  have hcode : ∀ b ∈ (List.replicate 16 65 : List Byte), (e.points_.get b).length ≤ 64 := by
    intro b hb
    rw [List.eq_of_mem_replicate hb, k1]
    norm_num
  have hT : 8 * 1 < codeLengthSum e.points_ (List.replicate 16 65) := by
    rw [k2]
    norm_num
  exact ⟨stdPriorityQueue_lawful, le_refl _, by simp, e, file, out, h1, h2, h3, h4, hcode, hT,
    h5 hcode hT⟩

end

section

open HuffmanTreeNode

/-- Sixteen copies of a byte whose code is the single bit 1 are packed as two bytes `0xFF`;
the flush at the end of `compress` then adds the byte `0x00`. -/
theorem pack_sixteen_ones (points : Points) (b : Byte) (ofs : Nat)
    (hc : (points.get b).new_code = 1) (hl : (points.get b).length = 1) :
    (packFlush (packBytes points (List.replicate 16 b)
      { output_byte := 0, cnt := 0, written := [], output_filesize_ := ofs })).written
      = [255, 255, 0] := by
  simp [List.replicate, packBytes, hc, hl, packCode, packFlush]

/-- The byte `0xFF` with 16 bytes expected decodes to eight copies of the symbol to the
right of the root; the loop then ends on the bits of the byte, the tree pointer on the
root. -/
theorem unpack_ones_of_sixteen (Z : HuffmanTreeNode) (points : Points) (b : Byte) (f : Nat) :
    unpackBytes (mergeNode Z (leafNode points b)) points 16 (f + 10) [255]
      { node := mergeNode Z (leafNode points b), cur_output_size := 0, written := [] } =
    .ok { node := mergeNode Z (leafNode points b), cur_output_size := 8,
          written := List.replicate 8 (points.get b).old_code } := by
  simp [unpackBytes, unpackByte, findNode, mergeNode, leafNode, kCodeTypeMod,
    HuffmanTreeNode.point, List.replicate]

/-- The codec on sixteen copies of one byte, on a lawful queue: `compress` writes the
original size 16 and the packed bytes `0xFF 0xFF 0x00`; with the packed bytes cut to the
first one, `uncompress` ends normally after writing eight copies of the byte. -/
theorem roundtrip_sixteen_cut (pq : PriorityQueue) (h : pq.Lawful) (b : Byte) (fuel : Nat)
    (hfuel : 255 ≤ fuel) :
    ∃ file, runCompress pq fuel (List.replicate 16 b) = .ok file ∧
      file.header.original_size = 16 ∧ file.packed = [255, 255, 0] ∧
      runUncompress pq fuel { file with packed := [255] } = .ok (List.replicate 8 b) := by
  obtain ⟨s1, s2, -, -⟩ := statisticalFrequency_spec (List.replicate 16 b) HuffmanEncoder.new
  have hfreq : ∀ i, ((statisticalFrequency (List.replicate 16 b)
      HuffmanEncoder.new).points_.get i).frequency = if i = b then 16 else 0 := by
    intro i
    rw [s1 i, count_replicate_byte]
    by_cases hi : i = b
    · simp [hi, HuffmanEncoder.new, kCodeTypeMod]
    · simp [hi, HuffmanEncoder.new]
  obtain ⟨root, Z, hroot, -, -, -, hc, -, hl⟩ := single_symbol_tree pq h
    (statisticalFrequency (List.replicate 16 b) HuffmanEncoder.new).points_ b
    (by rw [hfreq]; simp) (by intro i hi; rw [hfreq]; simp [hi])
  have henc : runCompress pq fuel (List.replicate 16 b) = .ok
      (compress (List.replicate 16 b)
        { statisticalFrequency (List.replicate 16 b) HuffmanEncoder.new with
          root_ := root
          points_ := initCodePoint root 0 "" 0
            (statisticalFrequency (List.replicate 16 b) HuffmanEncoder.new).points_ }).1 := by
    simp only [runCompress, encoderFor, hroot fuel hfuel]
  have hsize : (statisticalFrequency (List.replicate 16 b) HuffmanEncoder.new).input_filesize_
      = 16 := by
    rw [s2]; simp [HuffmanEncoder.new, kCodeTypeMod]
  have hfreq2 : ∀ i, ((readHeader (compress (List.replicate 16 b)
        { statisticalFrequency (List.replicate 16 b) HuffmanEncoder.new with
          root_ := root
          points_ := initCodePoint root 0 "" 0
            (statisticalFrequency (List.replicate 16 b) HuffmanEncoder.new).points_ }).1.header
        ).points_.get i).frequency = if i = b then 16 else 0 := by
    intro i
    simp only [readHeader, compress, Mathlib.Vector.get_ofFn, Mathlib.Vector.get_map,
      initCodePoint_frequency]
    exact hfreq i
  generalize hfile : (compress (List.replicate 16 b)
        { statisticalFrequency (List.replicate 16 b) HuffmanEncoder.new with
          root_ := root
          points_ := initCodePoint root 0 "" 0
            (statisticalFrequency (List.replicate 16 b) HuffmanEncoder.new).points_ }).1 = file
    at henc hfreq2
  have hos : file.header.original_size = 16 := by
    rw [← hfile]; exact hsize
  have hpk : file.packed = [255, 255, 0] := by
    rw [← hfile]; exact pack_sixteen_ones _ b _ hc hl
  obtain ⟨root2, Z2, hroot2, hZ2, -, -, -, -, -⟩ := single_symbol_tree pq h
    (readHeader file.header).points_ b
    (by rw [hfreq2]; simp) (by intro i hi; rw [hfreq2]; simp [hi])
  obtain ⟨f, rfl⟩ : ∃ f, fuel = f + 10 := ⟨fuel - 10, by omega⟩
  have hst := unpack_ones_of_sixteen Z2
    (initCodePoint root2 0 "" 0 (readHeader file.header).points_) b f
  rw [leafNode_initCodePoint, ← hZ2] at hst
  refine ⟨file, henc, hos, hpk, ?_⟩
  have hsz : (readHeader file.header).output_filesize_ = 16 := by
    simp [readHeader, hos]
  simp only [runUncompress, hroot2 (f + 10) hfuel, uncompress, hsz, hst]
  rw [initCodePoint_old_code]
  simp [readHeader, HuffmanEncoder.new]

/-- Claim C14 fails. With the binary heap of libstdc++ as the queue, the input of sixteen
bytes `0x41` is compressed to a file with the original size 16 and the packed bytes
`0xFF 0xFF 0x00`; with the packed bytes cut to the first one, decompression ends normally
with an output of eight bytes. -/
theorem truncation_is_not_detected :
    ∃ file, runCompress stdPriorityQueue 255 (List.replicate 16 65) = .ok file ∧
      file.header.original_size = 16 ∧ file.packed = [255, 255, 0] ∧
      runUncompress stdPriorityQueue 255 { file with packed := [255] } =
        .ok (List.replicate 8 65) :=
  roundtrip_sixteen_cut stdPriorityQueue stdPriorityQueue_lawful 65 255 (le_refl _)

end

section

open HuffmanTreeNode

/-- Claim C13: mode selection. For every input, `run` takes the branch that calls `compress`
when the input begins with the signature `kZipName`, and also when `is_compressed_` is set;
only an input without the signature, with `is_compressed_` unset, is read as a compressed
file and decoded: the branches are the other way round than the comments in `run` say. In
particular a file that `compress` wrote, the signature fitting in its field, is compressed
again. -/
theorem run_compresses_signed_input (L : ZipLayout) (pq : PriorityQueue) (fuel : Nat)
    (is_compressed_ : Bool) (input_filename_ : List Byte) (memory : Nat → Byte)
    (input : List Byte) :
    run L pq fuel is_compressed_ input_filename_ memory input =
      (if hasSignature L input = true then
        compressBranch L pq fuel input_filename_ memory input
      else if is_compressed_ = true then
        compressBranch L pq fuel input_filename_ memory input
      else uncompressBranch L pq fuel input) ∧
    ∀ (name : List Byte) (memory2 : Nat → Byte) (file : ZipFile),
      (∀ ch ∈ L.kZipName, ch ≠ 0) → L.kZipName.length < L.kLenOfZipName →
      run L pq fuel is_compressed_ input_filename_ memory (writeFile L name memory2 file) =
        compressBranch L pq fuel input_filename_ memory (writeFile L name memory2 file) := by
  constructor
  · unfold run
    cases h1 : is_compressed_ <;> cases h2 : hasSignature L input <;> simp
  · intro name memory2 file hz hzl
    unfold run
    rw [hasSignature_writeFile L name memory2 file hz hzl, Bool.or_true, if_pos rfl]

theorem run_compresses_signed_input_witness :
    run sampleLayout stdPriorityQueue 255 false [97] (fun _ => 0)
        (writeFile sampleLayout [98] (fun _ => 0) sampleFile) =
      compressBranch sampleLayout stdPriorityQueue 255 [97] (fun _ => 0)
        (writeFile sampleLayout [98] (fun _ => 0) sampleFile) :=
  (run_compresses_signed_input sampleLayout stdPriorityQueue 255 false [97] (fun _ => 0)
    []).2 [98] (fun _ => 0) sampleFile (by simp [sampleLayout]) (by simp [sampleLayout])

end

end zfish
